import Mathlib

/-!
Verification of the core matching engine of the trading platform
(`app/services/matching.py`), shallowly embedded in Lean.

Modelling conventions:
* Python ints are `Int` (quantities, filled quantities, remainings) or `Nat`
  (identifiers, sequence numbers).
* Prices flow through the engine as Python floats, but the engine only ever
  copies and compares them (it performs no arithmetic on prices), so they are
  embedded as exact integers (`Int`); every comparison of floats that hold
  such exact values agrees with the integer comparison.
* The mutable `heapq` priority queues are embedded by the heap contract the
  code relies on (documented by Python: `h[0]` is always the smallest element,
  `heappush` inserts, `heappop` removes the smallest): a list kept in
  ascending key order, with push = ordered insertion, peek = head and
  pop = tail.  All keys in one queue are distinct (each contains a fresh
  sequence number), so this has exactly the observable peek/pop behaviour of
  the binary heap.
* The SQLAlchemy session is embedded as an explicit store of order rows and
  trade rows; `db.get` is lookup by primary key, `db.add`/`db.flush` for a
  trade appends it and assigns the next trade id.  Mutations of row objects
  become read-modify-write updates of the store, performed in source order so
  that aliasing through the identity map is reproduced faithfully.
* The blockchain adapter call is best-effort: any failure is caught and only
  `blockchain_tx_hash` (never read by the engine) is affected, so it has no
  effect on any state modelled here and is omitted.
-/

namespace TradingPlatform

/-- Order side, `Order.side` (`"BUY"` / `"SELL"` strings in the source). -/
inductive Side where
  | BUY
  | SELL
deriving DecidableEq, Repr

/-- Order status strings of the source. -/
inductive Status where
  | NEW
  | PARTIAL
  | FILLED
  | CANCELLED
  | REJECTED
deriving DecidableEq, Repr

/-- The `Order` row (`app/models/order.py`); fields the engine reads.
`price` is nullable in the schema (`Mapped[float | None]`). -/
structure Order where
  id : Nat
  symbol : String
  side : Side
  price : Option Int
  quantity : Int
  filled_quantity : Int
  status : Status
  created_at : Int
deriving DecidableEq, Repr

/-- The `Trade` row (`app/models/trade.py`); fields the engine writes. -/
structure Trade where
  id : Nat
  buy_order_id : Nat
  sell_order_id : Nat
  symbol : String
  price : Int
  quantity : Int
deriving DecidableEq, Repr

/-- The relational store as seen through the session: order rows, trade rows,
and the autoincrement counters that assign primary keys on flush. -/
structure Store where
  orders : List Order
  trades : List Trade
  nextOrderId : Nat
  nextTradeId : Nat
deriving DecidableEq, Repr

/-- `db.get(Order, oid)`: lookup of an order row by primary key. -/
def Store.getOrder (st : Store) (oid : Nat) : Option Order :=
  st.orders.find? (fun r => r.id == oid)

/-- In-place mutation of the order row with id `oid` (SQLAlchemy identity
map: all references to the row see the update). -/
def Store.adjustOrder (st : Store) (oid : Nat) (f : Order → Order) : Store :=
  { st with orders := st.orders.map (fun r => if r.id == oid then f r else r) }

/-- `BookEntry` of `matching.py`. -/
structure BookEntry where
  order_id : Nat
  side : Side
  price : Int
  remaining : Int
  seq : Nat
  cancelled : Bool
deriving DecidableEq, Repr

/-- A priority-queue key: bids store `(-price, seq, order_id)`, asks store
`(price, seq, order_id)`. -/
abbrev Key := Int × Nat × Nat

/-- Python tuple comparison on keys (lexicographic strict less-than). -/
def keyLt (a b : Key) : Bool :=
  decide (a.1 < b.1 ∨ (a.1 = b.1 ∧
    (a.2.1 < b.2.1 ∨ (a.2.1 = b.2.1 ∧ a.2.2 < b.2.2))))

/-- `heapq.heappush`, embedded as insertion into the ascending key order. -/
def heappush (k : Key) : List Key → List Key
  | [] => [k]
  | k' :: rest => if keyLt k k' then k :: k' :: rest else k' :: heappush k rest

/-- The id → `BookEntry` map (`self.entries`), as an association list with
unique keys. -/
abbrev Entries := List (Nat × BookEntry)

/-- `self.entries.get(oid)`. -/
def lookupEntry (es : Entries) (oid : Nat) : Option BookEntry :=
  (es.find? (fun p => p.1 == oid)).map Prod.snd

/-- `self.entries[oid] = e`: replace the binding if present, else append. -/
def setEntry (es : Entries) (oid : Nat) (e : BookEntry) : Entries :=
  if (es.find? (fun p => p.1 == oid)).isSome then
    es.map (fun p => if p.1 == oid then (p.1, e) else p)
  else
    es ++ [(oid, e)]

/-- In-place mutation of the entry object bound to `oid`. -/
def adjustEntry (es : Entries) (oid : Nat) (f : BookEntry → BookEntry) : Entries :=
  es.map (fun p => if p.1 == oid then (p.1, f p.2) else p)

/-- `OrderBook` of `matching.py`: two priority queues, the id → entry map and
the per-book sequence counter (the lock serializes access and has no
sequential behaviour). -/
structure OrderBook where
  bids : List Key
  asks : List Key
  entries : Entries
  seq_counter : Nat
deriving DecidableEq, Repr

def OrderBook.empty : OrderBook := ⟨[], [], [], 0⟩

/-- `OrderBook.add`.  `none` models the raised `ValueError` when
`order.price is None`; otherwise the updated book.  When
`remaining = quantity - filled_quantity ≤ 0` the method returns without
touching the book. -/
def OrderBook.add (b : OrderBook) (o : Order) : Option OrderBook :=
  match o.price with
  | none => none
  | some p =>
    let remaining := o.quantity - o.filled_quantity
    if remaining ≤ 0 then some b
    else
      let seq := b.seq_counter + 1
      let e : BookEntry :=
        { order_id := o.id, side := o.side, price := p,
          remaining := remaining, seq := seq, cancelled := false }
      let b' := { b with seq_counter := seq, entries := setEntry b.entries o.id e }
      match o.side with
      | Side.BUY => some { b' with bids := heappush (-p, seq, o.id) b'.bids }
      | Side.SELL => some { b' with asks := heappush (p, seq, o.id) b'.asks }

/-- `OrderBook.cancel`: tombstone the entry if known; returns the flag and
the updated book. -/
def OrderBook.cancel (b : OrderBook) (oid : Nat) : Bool × OrderBook :=
  match lookupEntry b.entries oid with
  | none => (false, b)
  | some _ =>
    (true, { b with entries := adjustEntry b.entries oid (fun e => { e with cancelled := true }) })

/-- The loop shared by `_top_valid_bid` / `_top_valid_ask`: pop stale heads
(missing, cancelled or exhausted entries) until a valid top is exposed.
Returns the entry found (if any) and the heap after the pops. -/
def topValid (es : Entries) : List Key → Option BookEntry × List Key
  | [] => (none, [])
  | k :: rest =>
    match lookupEntry es k.2.2 with
    | none => topValid es rest
    | some e =>
      if e.cancelled || decide (e.remaining ≤ 0) then topValid es rest
      else (some e, k :: rest)

/-- `OrderBook._top_valid_bid`. -/
def OrderBook.topValidBid (b : OrderBook) : Option BookEntry × OrderBook :=
  let r := topValid b.entries b.bids
  (r.1, { b with bids := r.2 })

/-- `OrderBook._top_valid_ask`. -/
def OrderBook.topValidAsk (b : OrderBook) : Option BookEntry × OrderBook :=
  let r := topValid b.entries b.asks
  (r.1, { b with asks := r.2 })

/-- Reading `e.remaining` of the entry object bound to `oid` (0 if absent;
in `match_all` the entry is always present at the points this is used). -/
def remainingOf (es : Entries) (oid : Nat) : Int :=
  match lookupEntry es oid with
  | some e => e.remaining
  | none => 0

/-- Outcome of one iteration of the `while True` loop of `match_all`. -/
inductive StepRes where
  | done (st : Store) (b : OrderBook)
  | again (st : Store) (b : OrderBook)
  | traded (t : Trade) (st : Store) (b : OrderBook)
deriving DecidableEq, Repr

/-- The in-place update applied to a row's fill by a trade of `qty`. -/
def updFill (qty : Int) (r : Order) : Order :=
  { r with filled_quantity := r.filled_quantity + qty }

/-- The in-place status derivation after a fill update. -/
def updStatus (r : Order) : Order :=
  { r with status := if r.filled_quantity ≥ r.quantity then Status.FILLED else Status.PARTIAL }

/-- The in-place decrement of an entry's remaining by a trade of `qty`. -/
def decRem (qty : Int) (e : BookEntry) : BookEntry :=
  { e with remaining := e.remaining - qty }

/-- The body of one iteration of `OrderBook.match_all` once both tops have
been peeked (`b` is the book after the two peeks, `obid`/`oask` the peeked
entries): return when a side is empty or there is no cross, self-heal on a
failed row lookup, tombstone on a row observed CANCELLED, otherwise insert
the trade, update both rows, decrement both remainings and pop exhausted
tops. -/
def matchBody (sym : String) (st : Store) (b : OrderBook) :
    Option BookEntry → Option BookEntry → StepRes
  | none, _ => StepRes.done st b
  | some _, none => StepRes.done st b
  | some bid, some ask =>
    if bid.price < ask.price then StepRes.done st b
    else
      let qty := min bid.remaining ask.remaining
      let trade_price := ask.price
      match st.getOrder bid.order_id, st.getOrder ask.order_id with
      | none, _ =>
        let es := adjustEntry b.entries bid.order_id (fun e => { e with remaining := 0 })
        let es := adjustEntry es ask.order_id (fun e => { e with remaining := 0 })
        StepRes.again st { b with entries := es }
      | some _, none =>
        let es := adjustEntry b.entries bid.order_id (fun e => { e with remaining := 0 })
        let es := adjustEntry es ask.order_id (fun e => { e with remaining := 0 })
        StepRes.again st { b with entries := es }
      | some buyOrder, some sellOrder =>
        if buyOrder.status = Status.CANCELLED then
          let es := adjustEntry b.entries bid.order_id (fun e => { e with cancelled := true })
          StepRes.again st { b with entries := es }
        else if sellOrder.status = Status.CANCELLED then
          let es := adjustEntry b.entries ask.order_id (fun e => { e with cancelled := true })
          StepRes.again st { b with entries := es }
        else
          let t : Trade :=
            { id := st.nextTradeId, buy_order_id := buyOrder.id,
              sell_order_id := sellOrder.id, symbol := sym,
              price := trade_price, quantity := qty }
          let st := { st with trades := st.trades ++ [t], nextTradeId := st.nextTradeId + 1 }
          let st := st.adjustOrder buyOrder.id (updFill qty)
          let st := st.adjustOrder sellOrder.id (updFill qty)
          let st := st.adjustOrder buyOrder.id updStatus
          let st := st.adjustOrder sellOrder.id updStatus
          let es := adjustEntry b.entries bid.order_id (decRem qty)
          let es := adjustEntry es ask.order_id (decRem qty)
          let b := { b with entries := es }
          let bidRem : Int := remainingOf b.entries bid.order_id
          let askRem : Int := remainingOf b.entries ask.order_id
          let b : OrderBook := if bidRem ≤ 0 then { b with bids := b.bids.tail } else b
          let b : OrderBook := if askRem ≤ 0 then { b with asks := b.asks.tail } else b
          StepRes.traded t st b

/-- One iteration of the `while True` loop of `match_all`, in source order:
peek both tops (each peek pops stale heads), then run the body. -/
def matchStep (sym : String) (st : Store) (b0 : OrderBook) : StepRes :=
  let pb := b0.topValidBid
  let pa := pb.2.topValidAsk
  matchBody sym st pa.2 pb.1 pa.1

/-- `OrderBook.match_all`, with explicit fuel for the `while True` loop:
`none` means the fuel ran out (the Python loop always terminates, so any
sufficiently large fuel yields `some`).  Returns the trades produced in
order, the final store and the final book. -/
def matchAll (sym : String) : Nat → Store → OrderBook → Option (List Trade × Store × OrderBook)
  | 0, _, _ => none
  | fuel + 1, st, b =>
    match matchStep sym st b with
    | StepRes.done st' b' => some ([], st', b')
    | StepRes.again st' b' => matchAll sym fuel st' b'
    | StepRes.traded t st' b' =>
      match matchAll sym fuel st' b' with
      | none => none
      | some (ts, st2, b2) => some (t :: ts, st2, b2)

/-- `MatchingEngine`: the registry of books keyed by symbol (the global lock
serializes registry access and has no sequential behaviour). -/
structure MatchingEngine where
  books : List (String × OrderBook)
deriving DecidableEq, Repr

def MatchingEngine.empty : MatchingEngine := ⟨[]⟩

/-- `self.books.get(sym)`. -/
def lookupBook (bs : List (String × OrderBook)) (sym : String) : Option OrderBook :=
  (bs.find? (fun p => p.1 == sym)).map Prod.snd

/-- `self.books[sym] = b`: replace the binding if present, else append. -/
def setBook (bs : List (String × OrderBook)) (sym : String) (b : OrderBook) :
    List (String × OrderBook) :=
  if (bs.find? (fun p => p.1 == sym)).isSome then
    bs.map (fun p => if p.1 == sym then (p.1, b) else p)
  else
    bs ++ [(sym, b)]

/-- `MatchingEngine._book`: look up the symbol's book, creating and
registering an empty one if the symbol is new. -/
def MatchingEngine.book (eng : MatchingEngine) (sym : String) : OrderBook × MatchingEngine :=
  match lookupBook eng.books sym with
  | some b => (b, eng)
  | none => (OrderBook.empty, ⟨setBook eng.books sym OrderBook.empty⟩)

/-- `MatchingEngine.submit_and_match`: add the order to its symbol's book,
then run the matching loop.  `none` models a raised error (`ValueError` from
`add`, or the fuel running out in `match_all`). -/
def MatchingEngine.submitAndMatch (eng : MatchingEngine) (fuel : Nat) (st : Store) (o : Order) :
    Option (List Trade × Store × MatchingEngine) :=
  let p := eng.book o.symbol
  match p.1.add o with
  | none => none
  | some b1 =>
    match matchAll o.symbol fuel st b1 with
    | none => none
    | some (ts, st', b2) => some (ts, st', ⟨setBook p.2.books o.symbol b2⟩)

/-- `MatchingEngine.cancel`: false when no book exists for the symbol,
otherwise delegate to the book. -/
def MatchingEngine.cancel (eng : MatchingEngine) (sym : String) (oid : Nat) :
    Bool × MatchingEngine :=
  match lookupBook eng.books sym with
  | none => (false, eng)
  | some b =>
    let r := b.cancel oid
    (r.1, ⟨setBook eng.books sym r.2⟩)

/-- Ordered insertion of a row into a list sorted ascending by `created_at`;
a row moves past every earlier row whose timestamp is strictly smaller, so
rows with equal timestamps keep their relative order (stable). -/
def orderedInsertByCreated (o : Order) : List Order → List Order
  | [] => [o]
  | o' :: rest =>
    if o.created_at ≤ o'.created_at then o :: o' :: rest
    else o' :: orderedInsertByCreated o rest

/-- Stable sort by `created_at` ascending (insertion sort). -/
def sortByCreated : List Order → List Order
  | [] => []
  | o :: rest => orderedInsertByCreated o (sortByCreated rest)

/-- The row list returned by the recovery query: all orders with status NEW
or PARTIAL, `ORDER BY created_at ASC`.  The query has no secondary sort key,
so rows with equal `created_at` come back in the store's underlying order
(embedded as a stable sort of the stored row order). -/
def openOrdersByCreated (st : Store) : List Order :=
  sortByCreated (st.orders.filter
    (fun r => r.status == Status.NEW || r.status == Status.PARTIAL))

/-- The body of the recovery loop: obtain the book for the order's symbol
and `add` the order to it.  `none` models a `ValueError` escaping from
`add` (an open order with a NULL price). -/
def rebuildStep (eng : MatchingEngine) (o : Order) : Option MatchingEngine :=
  let p := eng.book o.symbol
  (p.1.add o).map (fun b' => ⟨setBook p.2.books o.symbol b'⟩)

/-- The recovery loop over the queried rows (the `for o in open_orders`
loop). -/
def rebuildLoop : List Order → MatchingEngine → Option MatchingEngine
  | [], eng => some eng
  | o :: os, eng =>
    match rebuildStep eng o with
    | none => none
    | some eng' => rebuildLoop os eng'

/-- `rebuild_from_db`: for each open order in query order, obtain the book
for its symbol and `add` the order to it.  No matching is triggered and the
store is not written. -/
def rebuildFromDb (st : Store) (eng : MatchingEngine) : Option MatchingEngine :=
  rebuildLoop (openOrdersByCreated st) eng

/-- An order-placement request as it reaches `create_order`
(`app/schemas/order.py` `OrderCreate` with `type = LIMIT`; the symbol is
uppercased on insertion and plays no further role here).  `created_at` is
the timestamp the inserted row receives. -/
structure OrderCreate where
  symbol : String
  side : Side
  price : Option Int
  quantity : Int
  created_at : Int
deriving DecidableEq, Repr

/-- `create_order` (`app/services/orders.py`): requires `price` present and
positive and `quantity` positive (else `ValueError`, modelled as `none`),
then inserts the row with the next primary key, `filled_quantity = 0` and
status NEW. -/
def createOrder (st : Store) (req : OrderCreate) : Option (Order × Store) :=
  match req.price with
  | none => none
  | some p =>
    if p ≤ 0 then none
    else if req.quantity ≤ 0 then none
    else
      let o : Order :=
        { id := st.nextOrderId, symbol := req.symbol, side := req.side,
          price := some p, quantity := req.quantity, filled_quantity := 0,
          status := Status.NEW, created_at := req.created_at }
      some (o, { st with orders := st.orders ++ [o], nextOrderId := st.nextOrderId + 1 })

/-- One request against the platform: order placement (`POST /orders`) or an
order cancel (`POST /orders/(id)/cancel`).  User ownership checks are not
modelled (all requests act as the owning user). -/
inductive Op where
  | submit (req : OrderCreate)
  | cancel (order_id : Nat)
deriving DecidableEq, Repr

/-- One API call (`app/api/v1/orders.py`).  A submit that fails validation in
`create_order` is rolled back: the state is unchanged.  A cancel of an
unknown order (404) or of an order in a terminal status (400) changes
nothing; otherwise the row is set to CANCELLED in the store and then the
engine tombstones the in-memory entry.  `none` only when `match_all` runs
out of fuel. -/
def applyOp (fuel : Nat) (st : Store) (eng : MatchingEngine) :
    Op → Option (Store × MatchingEngine)
  | Op.submit req =>
    match createOrder st req with
    | none => some (st, eng)
    | some (o, st') =>
      match eng.submitAndMatch fuel st' o with
      | none => none
      | some (_, st2, eng2) => some (st2, eng2)
  | Op.cancel oid =>
    match st.getOrder oid with
    | none => some (st, eng)
    | some o =>
      if o.status = Status.FILLED ∨ o.status = Status.CANCELLED ∨ o.status = Status.REJECTED then
        some (st, eng)
      else
        let st' := st.adjustOrder oid (fun r => { r with status := Status.CANCELLED })
        let r := eng.cancel o.symbol oid
        some (st', r.2)

/-- A sequence of API calls. -/
def applyOps (fuel : Nat) : List Op → Store → MatchingEngine → Option (Store × MatchingEngine)
  | [], st, eng => some (st, eng)
  | op :: ops, st, eng =>
    match applyOp fuel st eng op with
    | none => none
    | some (st', eng') => applyOps fuel ops st' eng'

/-- The empty store. -/
def Store.empty : Store := { orders := [], trades := [], nextOrderId := 1, nextTradeId := 1 }

/-! ### Basic lemmas about the map combinators -/

/-- Generic fact about the read-modify-write pattern used for dict-style
updates: mapping a key-preserving update over the binding for `k` commutes
with `find?` by key. -/
theorem find?_map_if {α : Type} {K : Type} [BEq K] [LawfulBEq K]
    (kf : α → K) (f : α → α) (hf : ∀ a, kf (f a) = kf a) (k k' : K) (l : List α) :
    (l.map (fun a => if kf a == k then f a else a)).find? (fun a => kf a == k') =
      if k' == k then Option.map f (l.find? (fun a => kf a == k'))
      else l.find? (fun a => kf a == k') := by
  induction l with
  | nil => cases h : (k' == k) <;> simp [h]
  | cons a l ih =>
    simp only [List.map_cons]
    by_cases hak : kf a = k
    · have h1 : (kf a == k) = true := by simpa using hak
      simp only [h1, if_true]
      by_cases hk : k' = k
      · have hkb : (k' == k) = true := by simpa using hk
        have h2 : (kf (f a) == k') = true := by
          simp only [beq_iff_eq, hf, hak, hk]
        simp [List.find?, h1, h2, hkb, hk ▸ h1]
      · have hkb : (k' == k) = false := by simpa using hk
        have h2 : (kf (f a) == k') = false := by
          simp only [beq_eq_false_iff_ne, ne_eq, hf, hak]
          exact fun h => hk h.symm
        have h3 : (kf a == k') = false := by
          simp only [beq_eq_false_iff_ne, ne_eq, hak]
          exact fun h => hk h.symm
        simp only [List.find?, h2, h3, hkb, Bool.false_eq_true, if_false]
        simpa [hkb] using ih
    · have h1 : (kf a == k) = false := by simpa using hak
      simp only [h1, Bool.false_eq_true, if_false]
      by_cases hak' : kf a = k'
      · have hkk : (k' == k) = false := by
          simp only [beq_eq_false_iff_ne, ne_eq]
          exact fun h => hak (by rw [hak', h])
        have h2 : (kf a == k') = true := by simpa using hak'
        simp [List.find?, h2, hkk]
      · have h2 : (kf a == k') = false := by simpa using hak'
        simp only [List.find?, h2, Bool.false_eq_true, if_false]
        exact ih

theorem lookupEntry_adjustEntry (es : Entries) (oid oid' : Nat) (f : BookEntry → BookEntry) :
    lookupEntry (adjustEntry es oid f) oid' =
      if oid' = oid then (lookupEntry es oid').map f else lookupEntry es oid' := by
  unfold lookupEntry adjustEntry
  rw [find?_map_if (fun p : Nat × BookEntry => p.1) (fun p => (p.1, f p.2))
    (fun a => rfl) oid oid' es]
  by_cases h : oid' = oid
  · simp only [h, beq_self_eq_true, if_true, Option.map_map]
    cases List.find? (fun a => a.1 == oid) es <;> rfl
  · have hb : (oid' == oid) = false := by simpa using h
    simp [hb, h]

theorem lookupEntry_append (es es' : Entries) (oid : Nat) :
    lookupEntry (es ++ es') oid = (lookupEntry es oid).or (lookupEntry es' oid) := by
  unfold lookupEntry
  rw [List.find?_append]
  cases es.find? (fun p => p.1 == oid) <;> simp

theorem lookupEntry_isSome_iff (es : Entries) (oid : Nat) :
    (lookupEntry es oid).isSome = (es.find? (fun p => p.1 == oid)).isSome := by
  unfold lookupEntry
  cases es.find? (fun p => p.1 == oid) <;> simp

theorem lookupEntry_setEntry (es : Entries) (oid oid' : Nat) (e : BookEntry) :
    lookupEntry (setEntry es oid e) oid' =
      if oid' = oid then some e else lookupEntry es oid' := by
  unfold setEntry
  cases hfind : es.find? (fun p => p.1 == oid) with
  | some q =>
    simp only [hfind, Option.isSome_some, if_true]
    show lookupEntry (adjustEntry es oid (fun _ => e)) oid' = _
    rw [lookupEntry_adjustEntry]
    by_cases h : oid' = oid
    · subst h
      have : lookupEntry es oid' = some q.2 := by
        unfold lookupEntry
        rw [hfind]
        rfl
      simp [this]
    · simp [h]
  | none =>
    simp only [hfind, Option.isSome_none, Bool.false_eq_true, if_false]
    rw [lookupEntry_append]
    by_cases h : oid' = oid
    · subst h
      have hl : lookupEntry es oid' = none := by
        unfold lookupEntry
        rw [hfind]
        rfl
      have hs : lookupEntry [(oid', e)] oid' = some e := by
        simp [lookupEntry, List.find?]
      rw [hl, hs]
      simp
    · have hsingle : lookupEntry [(oid, e)] oid' = none := by
        have : (oid == oid') = false := by simpa using fun hc => h hc.symm
        simp [lookupEntry, List.find?, this]
      rw [hsingle]
      cases lookupEntry es oid' <;> simp [h]

theorem getOrder_adjustOrder (st : Store) (oid oid' : Nat) (f : Order → Order)
    (hf : ∀ r, (f r).id = r.id) :
    (st.adjustOrder oid f).getOrder oid' =
      if oid' = oid then (st.getOrder oid').map f else st.getOrder oid' := by
  unfold Store.getOrder Store.adjustOrder
  rw [find?_map_if (fun r : Order => r.id) f hf oid oid' st.orders]
  by_cases h : oid' = oid
  · have hb : (oid' == oid) = true := by simpa using h
    simp [hb, h]
  · have hb : (oid' == oid) = false := by simpa using h
    simp [hb, h]

theorem lookupBook_setBook (bs : List (String × OrderBook)) (sym sym' : String) (b : OrderBook) :
    lookupBook (setBook bs sym b) sym' =
      if sym' = sym then some b else lookupBook bs sym' := by
  unfold setBook
  cases hfind : bs.find? (fun p => p.1 == sym) with
  | some q =>
    simp only [hfind, Option.isSome_some, if_true]
    show lookupBook (bs.map (fun p => if p.1 == sym then (p.1, b) else p)) sym' = _
    unfold lookupBook
    rw [show (fun p : String × OrderBook => if p.1 == sym then (p.1, b) else p) =
      (fun p : String × OrderBook => if p.1 == sym then ((fun q : String × OrderBook => (q.1, b)) p) else p) from rfl]
    rw [find?_map_if (fun p : String × OrderBook => p.1) (fun q => (q.1, b))
      (fun a => rfl) sym sym' bs]
    by_cases h : sym' = sym
    · subst h
      have hb : (sym' == sym') = true := by simp
      rw [hfind]
      simp [hb]
    · have hb : (sym' == sym) = false := by simpa using h
      simp [hb, h]
  | none =>
    simp only [hfind, Option.isSome_none, Bool.false_eq_true, if_false]
    unfold lookupBook
    rw [List.find?_append]
    by_cases h : sym' = sym
    · subst h
      rw [hfind]
      simp [List.find?]
    · have h2 : (sym == sym') = false := by simpa using fun hc => h hc.symm
      cases hf2 : bs.find? (fun p => p.1 == sym') <;> simp [List.find?, h2, hf2, h]

theorem heappush_length (k : Key) (l : List Key) :
    (heappush k l).length = l.length + 1 := by
  induction l with
  | nil => rfl
  | cons k' rest ih =>
    unfold heappush
    by_cases h : keyLt k k' <;> simp [h, ih]

/-! ### Evolution of the entry map under engine operations -/

/-- Projection of the book out of a step result. -/
def StepRes.book : StepRes → OrderBook
  | StepRes.done _ b => b
  | StepRes.again _ b => b
  | StepRes.traded _ _ b => b

/-- Projection of the store out of a step result. -/
def StepRes.store : StepRes → Store
  | StepRes.done st _ => st
  | StepRes.again st _ => st
  | StepRes.traded _ st _ => st

/-- How `match_all` evolves the entry map: only in-place updates that never
clear the cancelled flag.  Keys are never removed. -/
inductive EntriesEvolve : Entries → Entries → Prop where
  | refl (es : Entries) : EntriesEvolve es es
  | step (es es' : Entries) (oid : Nat) (f : BookEntry → BookEntry)
      (hf : ∀ e, e.cancelled = true → (f e).cancelled = true)
      (hid : ∀ e, (f e).order_id = e.order_id)
      (hpr : ∀ e, (f e).price = e.price)
      (hsq : ∀ e, (f e).seq = e.seq) :
      EntriesEvolve es es' → EntriesEvolve es (adjustEntry es' oid f)

theorem EntriesEvolve.trans {es1 es2 es3 : Entries}
    (h1 : EntriesEvolve es1 es2) (h2 : EntriesEvolve es2 es3) :
    EntriesEvolve es1 es3 := by
  induction h2 with
  | refl => exact h1
  | step es4 oid f hf hid hpr hsq prev ih => exact EntriesEvolve.step _ _ oid f hf hid hpr hsq ih

theorem EntriesEvolve.isSome_mono {es es' : Entries} (h : EntriesEvolve es es')
    (oid : Nat) (hs : (lookupEntry es oid).isSome = true) :
    (lookupEntry es' oid).isSome = true := by
  induction h with
  | refl => exact hs
  | step es1 oid' f hf hid hpr hsq prev ih =>
    rw [lookupEntry_adjustEntry]
    by_cases h : oid = oid'
    · simp only [h, if_true]
      rcases Option.isSome_iff_exists.mp ih with ⟨e, he⟩
      simp [h ▸ he]
    · simp only [h, if_false]
      exact ih

theorem EntriesEvolve.cancelled_mono {es es' : Entries} (h : EntriesEvolve es es')
    (oid : Nat) (e : BookEntry) (he : lookupEntry es oid = some e)
    (hc : e.cancelled = true) :
    ∃ e', lookupEntry es' oid = some e' ∧ e'.cancelled = true := by
  induction h with
  | refl => exact ⟨e, he, hc⟩
  | step es1 oid' f hf hid hpr hsq prev ih =>
    rcases ih with ⟨e1, he1, hc1⟩
    rw [lookupEntry_adjustEntry]
    by_cases h : oid = oid'
    · exact ⟨f e1, by simp [h, h ▸ he1], hf e1 hc1⟩
    · exact ⟨e1, by simp [h, he1], hc1⟩

theorem topValidBid_entries (b : OrderBook) : b.topValidBid.2.entries = b.entries := rfl

theorem topValidAsk_entries (b : OrderBook) : b.topValidAsk.2.entries = b.entries := rfl

/-- `matchStep` unfolded into the two peeks followed by the body. -/
theorem matchStep_eq (sym : String) (st : Store) (b0 : OrderBook) :
    matchStep sym st b0 =
      matchBody sym st b0.topValidBid.2.topValidAsk.2
        b0.topValidBid.1 b0.topValidBid.2.topValidAsk.1 := rfl

/-- The body of one matching iteration evolves the entry map only by
flag-preserving in-place updates. -/
theorem matchBody_evolve (sym : String) (st : Store) (b : OrderBook)
    (obid oask : Option BookEntry) :
    EntriesEvolve b.entries (matchBody sym st b obid oask).book.entries := by
  cases obid with
  | none => exact EntriesEvolve.refl _
  | some bid =>
    cases oask with
    | none => exact EntriesEvolve.refl _
    | some ask =>
      unfold matchBody
      by_cases hcross : bid.price < ask.price
      · simp only [hcross, if_true]
        exact EntriesEvolve.refl _
      · simp only [hcross, if_false]
        cases hbo : st.getOrder bid.order_id with
        | none =>
          simp only [StepRes.book]
          exact EntriesEvolve.step _ _ _ _ (fun e h => h) (fun e => rfl) (fun e => rfl) (fun e => rfl)
            (EntriesEvolve.step _ _ _ _ (fun e h => h) (fun e => rfl) (fun e => rfl) (fun e => rfl) (EntriesEvolve.refl _))
        | some buyOrder =>
          cases hso : st.getOrder ask.order_id with
          | none =>
            simp only [StepRes.book]
            exact EntriesEvolve.step _ _ _ _ (fun e h => h) (fun e => rfl) (fun e => rfl) (fun e => rfl)
              (EntriesEvolve.step _ _ _ _ (fun e h => h) (fun e => rfl) (fun e => rfl) (fun e => rfl) (EntriesEvolve.refl _))
          | some sellOrder =>
            by_cases hbc : buyOrder.status = Status.CANCELLED
            · simp only [hbc, if_true, StepRes.book]
              exact EntriesEvolve.step _ _ _ _ (fun e _ => rfl) (fun e => rfl) (fun e => rfl) (fun e => rfl)
                (EntriesEvolve.refl _)
            · by_cases hsc : sellOrder.status = Status.CANCELLED
              · simp only [hbc, hsc, if_true, if_false, StepRes.book]
                exact EntriesEvolve.step _ _ _ _ (fun e _ => rfl) (fun e => rfl) (fun e => rfl) (fun e => rfl)
                  (EntriesEvolve.refl _)
              · simp only [hbc, hsc, if_false]
                have base : EntriesEvolve b.entries
                    (adjustEntry (adjustEntry b.entries bid.order_id
                      (decRem (min bid.remaining ask.remaining)))
                      ask.order_id (decRem (min bid.remaining ask.remaining))) :=
                  EntriesEvolve.step _ _ _ _ (fun e h => h) (fun e => rfl) (fun e => rfl) (fun e => rfl)
                    (EntriesEvolve.step _ _ _ _ (fun e h => h) (fun e => rfl) (fun e => rfl) (fun e => rfl)
                      (EntriesEvolve.refl _))
                simp only [StepRes.book]
                split <;> split <;> simpa using base

/-- One matching iteration evolves the entry map only by flag-preserving
in-place updates. -/
theorem matchStep_evolve (sym : String) (st : Store) (b : OrderBook) :
    EntriesEvolve b.entries (matchStep sym st b).book.entries := by
  rw [matchStep_eq]
  have h := matchBody_evolve sym st b.topValidBid.2.topValidAsk.2
    b.topValidBid.1 b.topValidBid.2.topValidAsk.1
  rwa [topValidAsk_entries, topValidBid_entries] at h

/-- The entry constructed by a successful insertion in `add`. -/
def addEntry (b : OrderBook) (o : Order) (p : Int) : BookEntry :=
  { order_id := o.id, side := o.side, price := p,
    remaining := o.quantity - o.filled_quantity, seq := b.seq_counter + 1,
    cancelled := false }

/-- Inversion for a non-raising `add`: either the residual was ≤ 0 and the
book is untouched, or the entry map gained the fresh entry. -/
theorem add_some_inv (b : OrderBook) (o : Order) (b' : OrderBook)
    (h : b.add o = some b') :
    (o.quantity - o.filled_quantity ≤ 0 ∧ b' = b) ∨
    (0 < o.quantity - o.filled_quantity ∧ ∃ p, o.price = some p ∧
      b'.entries = setEntry b.entries o.id (addEntry b o p) ∧
      b'.seq_counter = b.seq_counter + 1) := by
  unfold OrderBook.add at h
  cases hp : o.price with
  | none => rw [hp] at h; exact absurd h (by simp)
  | some p =>
    rw [hp] at h
    by_cases hrem : o.quantity - o.filled_quantity ≤ 0
    · simp only [hrem, if_true] at h
      exact Or.inl ⟨hrem, (Option.some_inj.mp h).symm⟩
    · simp only [hrem, if_false] at h
      refine Or.inr ⟨by omega, p, rfl, ?_⟩
      cases hs : o.side <;> rw [hs] at h <;> simp only [] at h <;>
        (have hb := Option.some_inj.mp h; subst hb;
         exact ⟨by simp [addEntry, hs], rfl⟩)

/-- `match_all` evolves the entry map only by flag-preserving in-place
updates (keys are never removed). -/
theorem matchAll_evolve (sym : String) (fuel : Nat) (st : Store) (b : OrderBook)
    (ts : List Trade) (st' : Store) (b' : OrderBook)
    (h : matchAll sym fuel st b = some (ts, st', b')) :
    EntriesEvolve b.entries b'.entries := by
  induction fuel generalizing st b ts with
  | zero => exact absurd h (by simp [matchAll])
  | succ fuel ih =>
    unfold matchAll at h
    cases hstep : matchStep sym st b with
    | done st1 b1 =>
      simp only [hstep] at h
      have hb := matchStep_evolve sym st b
      rw [hstep] at hb
      obtain ⟨rfl, rfl, rfl⟩ : ts = [] ∧ st1 = st' ∧ b1 = b' := by
        simpa using h
      exact hb
    | again st1 b1 =>
      simp only [hstep] at h
      have hb := matchStep_evolve sym st b
      rw [hstep] at hb
      exact hb.trans (ih st1 b1 ts h)
    | traded t st1 b1 =>
      simp only [hstep] at h
      have hb := matchStep_evolve sym st b
      rw [hstep] at hb
      cases hrec : matchAll sym fuel st1 b1 with
      | none =>
        simp only [hrec] at h
        exact Option.noConfusion h
      | some r =>
        simp only [hrec] at h
        obtain ⟨ts2, st2, b2⟩ := r
        obtain ⟨rfl, rfl, rfl⟩ : t :: ts2 = ts ∧ st2 = st' ∧ b2 = b' := by
          simpa using h
        exact hb.trans (ih st1 b1 ts2 hrec)

/-- A well-formed BUY order used to witness the amended `add` contract. -/
def buyOrder7 : Order :=
  { id := 7, symbol := "A", side := Side.BUY, price := some 10, quantity := 5,
    filled_quantity := 2, status := Status.PARTIAL, created_at := 0 }

/-! ### C10: entries are never removed; cancel answers membership -/

/-- C10: the id → entry map never shrinks and `cancel` answers exactly
membership in it.  (1) `cancel` returns true iff the id has an entry;
(2) a true `cancel` leaves the entry present with the cancelled flag set —
also for already-cancelled or fully filled entries; (3) a successful `add`
with positive residual registers the id; (4) `add`, (5) `cancel` and
(6) `match_all` never remove any registered id. -/
theorem C10_entries_persistent :
    (∀ (b : OrderBook) (oid : Nat),
      (b.cancel oid).1 = true ↔ (lookupEntry b.entries oid).isSome = true) ∧
    (∀ (b : OrderBook) (oid : Nat), (b.cancel oid).1 = true →
      (lookupEntry (b.cancel oid).2.entries oid).map (fun e => e.cancelled) = some true) ∧
    (∀ (b : OrderBook) (o : Order) (b' : OrderBook), b.add o = some b' →
      0 < o.quantity - o.filled_quantity →
      (lookupEntry b'.entries o.id).isSome = true) ∧
    (∀ (b : OrderBook) (o : Order) (b' : OrderBook) (oid : Nat), b.add o = some b' →
      (lookupEntry b.entries oid).isSome = true →
      (lookupEntry b'.entries oid).isSome = true) ∧
    (∀ (b : OrderBook) (oid oid' : Nat),
      (lookupEntry b.entries oid').isSome = true →
      (lookupEntry (b.cancel oid).2.entries oid').isSome = true) ∧
    (∀ (sym : String) (fuel : Nat) (st : Store) (b : OrderBook) (ts : List Trade)
      (st' : Store) (b' : OrderBook) (oid : Nat),
      matchAll sym fuel st b = some (ts, st', b') →
      (lookupEntry b.entries oid).isSome = true →
      (lookupEntry b'.entries oid).isSome = true) := by
  refine ⟨?_, ?_, ?_, ?_, ?_, ?_⟩
  · intro b oid
    unfold OrderBook.cancel
    cases h : lookupEntry b.entries oid <;> simp [h]
  · intro b oid hc
    unfold OrderBook.cancel at hc ⊢
    cases h : lookupEntry b.entries oid with
    | none => rw [h] at hc; simp at hc
    | some e => simp [lookupEntry_adjustEntry, h]
  · intro b o b' hadd hrem
    rcases add_some_inv b o b' hadd with ⟨hle, _⟩ | ⟨_, p, hp, hes, _⟩
    · omega
    · rw [hes, lookupEntry_setEntry]
      simp
  · intro b o b' oid hadd hs
    rcases add_some_inv b o b' hadd with ⟨_, rfl⟩ | ⟨_, p, hp, hes, _⟩
    · exact hs
    · rw [hes, lookupEntry_setEntry]
      by_cases h : oid = o.id <;> simp [h, hs]
  · intro b oid oid' hs
    unfold OrderBook.cancel
    cases h : lookupEntry b.entries oid with
    | none => exact hs
    | some e =>
      rw [lookupEntry_adjustEntry]
      by_cases ho : oid' = oid
      · subst ho
        rw [h] at hs ⊢
        simp
      · simp [ho, hs]
  · intro sym fuel st b ts st' b' oid h hs
    exact (matchAll_evolve sym fuel st b ts st' b' h).isSome_mono oid hs

/-- A one-entry book (a resting BUY of 3 at price 10, id 7) used to witness
the C10 conjuncts at concrete inputs. -/
def wBook : OrderBook :=
  { bids := [(-10, 1, 7)], asks := [],
    entries :=
      [(7,
        { order_id := 7, side := Side.BUY, price := 10,
          remaining := 3, seq := 1, cancelled := false })],
    seq_counter := 1 }

/-- The book obtained from `wBook` by re-adding order 7 (entry replaced,
a second bids key pushed). -/
def wBookAdded : OrderBook :=
  { bids := [(-10, 1, 7), (-10, 2, 7)], asks := [],
    entries :=
      [(7,
        { order_id := 7, side := Side.BUY, price := 10,
          remaining := 3, seq := 2, cancelled := false })],
    seq_counter := 2 }

/-- Witness for C10 at concrete inputs. -/
theorem C10_witness :
    ((wBook.cancel 7).1 = true) ∧
    ((lookupEntry (wBook.cancel 7).2.entries 7).map (fun e => e.cancelled) = some true) ∧
    ((lookupEntry wBook.entries buyOrder7.id).isSome = true) ∧
    ((lookupEntry wBookAdded.entries 7).isSome = true) ∧
    ((lookupEntry (wBook.cancel 99).2.entries 7).isSome = true) ∧
    ((lookupEntry wBook.entries 7).isSome = true →
      (lookupEntry wBook.entries 7).isSome = true) := by
  refine ⟨?_, ?_, ?_, ?_, ?_, ?_⟩
  · exact (C10_entries_persistent.1 wBook 7).mpr (by decide)
  · exact C10_entries_persistent.2.1 wBook 7
      ((C10_entries_persistent.1 wBook 7).mpr (by decide))
  · exact C10_entries_persistent.2.2.1 OrderBook.empty buyOrder7 wBook
      (by decide) (by decide)
  · exact C10_entries_persistent.2.2.2.1 wBook buyOrder7 wBookAdded 7
      (by decide) (by decide)
  · exact C10_entries_persistent.2.2.2.2.1 wBook 99 7 (by decide)
  · intro h
    exact C10_entries_persistent.2.2.2.2.2 "A" 1 Store.empty wBook [] Store.empty wBook 7
      (by decide) h

/-! ### C4: no crossable state when `match_all` returns -/

/-- Popping stale heads is idempotent: re-running the peek loop on its own
output changes nothing. -/
theorem topValid_stable (es : Entries) (h : List Key) :
    topValid es (topValid es h).2 = topValid es h := by
  induction h with
  | nil => rfl
  | cons k rest ih =>
    cases hl : lookupEntry es k.2.2 with
    | none =>
      have hr : topValid es (k :: rest) = topValid es rest := by
        conv_lhs => rw [topValid.eq_def]
        simp [hl]
      rw [hr]
      exact ih
    | some e =>
      by_cases hv : e.cancelled = true ∨ e.remaining ≤ 0
      · have hr : topValid es (k :: rest) = topValid es rest := by
          conv_lhs => rw [topValid.eq_def]
          simp [hl, hv]
        rw [hr]
        exact ih
      · have hr : topValid es (k :: rest) = (some e, k :: rest) := by
          conv_lhs => rw [topValid.eq_def]
          simp [hl, hv]
        rw [hr]
        simpa using hr

/-- Re-peeking the book left behind by the two peeks of one iteration gives
the same tops and leaves the book unchanged. -/
theorem peek_final_bid (b : OrderBook) :
    (b.topValidBid.2.topValidAsk.2).topValidBid =
      (b.topValidBid.1, b.topValidBid.2.topValidAsk.2) := by
  unfold OrderBook.topValidBid OrderBook.topValidAsk
  simp only [topValid_stable]

theorem peek_final_ask (b : OrderBook) :
    (b.topValidBid.2.topValidAsk.2).topValidBid.2.topValidAsk =
      (b.topValidBid.2.topValidAsk.1, b.topValidBid.2.topValidAsk.2) := by
  unfold OrderBook.topValidBid OrderBook.topValidAsk
  simp only [topValid_stable]

/-- Inversion of the `done` outcome of the loop body: the state is returned
unchanged and either a side had no valid entry or there was no cross. -/
theorem matchBody_done_inv (sym : String) (st : Store) (b : OrderBook)
    (obid oask : Option BookEntry) (st' : Store) (b' : OrderBook)
    (h : matchBody sym st b obid oask = StepRes.done st' b') :
    st' = st ∧ b' = b ∧
      (obid = none ∨ oask = none ∨
        (∃ bid ask, obid = some bid ∧ oask = some ask ∧ bid.price < ask.price)) := by
  cases obid with
  | none =>
    obtain ⟨rfl, rfl⟩ : st' = st ∧ b' = b := by
      simpa [matchBody] using h.symm
    exact ⟨rfl, rfl, Or.inl rfl⟩
  | some bid =>
    cases oask with
    | none =>
      obtain ⟨rfl, rfl⟩ : st' = st ∧ b' = b := by
        simpa [matchBody] using h.symm
      exact ⟨rfl, rfl, Or.inr (Or.inl rfl)⟩
    | some ask =>
      unfold matchBody at h
      by_cases hcross : bid.price < ask.price
      · simp only [hcross, if_true] at h
        obtain ⟨rfl, rfl⟩ : st' = st ∧ b' = b := by
          cases h
          exact ⟨rfl, rfl⟩
        exact ⟨rfl, rfl, Or.inr (Or.inr ⟨bid, ask, rfl, rfl, hcross⟩)⟩
      · simp only [hcross, if_false] at h
        cases hbo : st.getOrder bid.order_id with
        | none =>
          rw [hbo] at h
          exact absurd h (by simp)
        | some buyOrder =>
          cases hso : st.getOrder ask.order_id with
          | none =>
            rw [hbo, hso] at h
            exact absurd h (by simp)
          | some sellOrder =>
            rw [hbo, hso] at h
            by_cases hbc : buyOrder.status = Status.CANCELLED
            · simp only [hbc, if_true] at h
              exact absurd h (by simp)
            · by_cases hsc : sellOrder.status = Status.CANCELLED
              · simp only [hbc, hsc, if_true, if_false] at h
                exact absurd h (by simp)
              · simp only [hbc, hsc, if_false] at h
                exact absurd h (by simp)

/-- C4: whenever `match_all` returns normally, the remaining book has no
crossable state: if both sides still expose a valid entry, the best valid
bid prices strictly below the best valid ask. -/
theorem C4_no_cross_after_matchAll (sym : String) (fuel : Nat) (st : Store)
    (b : OrderBook) (ts : List Trade) (st' : Store) (b' : OrderBook)
    (h : matchAll sym fuel st b = some (ts, st', b')) :
    ∀ bid ask, b'.topValidBid.1 = some bid →
      b'.topValidBid.2.topValidAsk.1 = some ask → bid.price < ask.price := by
  induction fuel generalizing st b ts with
  | zero => exact absurd h (by simp [matchAll])
  | succ fuel ih =>
    unfold matchAll at h
    cases hstep : matchStep sym st b with
    | done st1 b1 =>
      simp only [hstep] at h
      obtain ⟨rfl, rfl, rfl⟩ : ts = [] ∧ st1 = st' ∧ b1 = b' := by simpa using h
      rw [matchStep_eq] at hstep
      obtain ⟨hst, hb, hcond⟩ := matchBody_done_inv _ _ _ _ _ _ _ hstep
      subst hb
      intro bid ask hbid hask
      rw [peek_final_ask] at hask
      rw [peek_final_bid] at hbid
      simp only at hbid hask
      rcases hcond with hnone | hnone | ⟨bid0, ask0, hb0, ha0, hlt⟩
      · rw [hnone] at hbid
        exact Option.noConfusion hbid
      · rw [hnone] at hask
        exact Option.noConfusion hask
      · rw [hb0] at hbid
        rw [ha0] at hask
        obtain rfl : bid0 = bid := by simpa using hbid
        obtain rfl : ask0 = ask := by simpa using hask
        exact hlt
    | again st1 b1 =>
      simp only [hstep] at h
      exact ih st1 b1 ts h
    | traded t st1 b1 =>
      simp only [hstep] at h
      cases hrec : matchAll sym fuel st1 b1 with
      | none =>
        simp only [hrec] at h
        exact Option.noConfusion h
      | some r =>
        simp only [hrec] at h
        obtain ⟨ts2, st2, b2⟩ := r
        obtain ⟨rfl, rfl, rfl⟩ : t :: ts2 = ts ∧ st2 = st' ∧ b2 = b' := by simpa using h
        exact ih st1 b1 ts2 hrec

/-- The S2-style no-cross book (resting ask 150, resting bid 120) used to
witness C4. -/
def noCrossBook : OrderBook :=
  { bids := [(-120, 2, 2)], asks := [(150, 1, 1)],
    entries :=
      [(1,
        { order_id := 1, side := Side.SELL, price := 150,
          remaining := 5, seq := 1, cancelled := false }),
       (2,
        { order_id := 2, side := Side.BUY, price := 120,
          remaining := 3, seq := 2, cancelled := false })],
    seq_counter := 2 }

/-- Witness for C4: `match_all` returns the no-cross book unchanged and the
re-peeked tops satisfy `bid.price < ask.price`. -/
theorem C4_witness :
    matchAll "AAPL" 2 Store.empty noCrossBook = some ([], Store.empty, noCrossBook) ∧
    ∀ bid ask, noCrossBook.topValidBid.1 = some bid →
      noCrossBook.topValidBid.2.topValidAsk.1 = some ask → bid.price < ask.price :=
  ⟨by decide, C4_no_cross_after_matchAll "AAPL" 2 Store.empty noCrossBook []
    Store.empty noCrossBook (by decide)⟩

/-! ### C2: every trade is formed at `min` of the remainings and the ask price -/

/-- Reachability inside one `match_all` run: zero or more loop iterations. -/
inductive MatchReach (sym : String) : Store → OrderBook → Store → OrderBook → Prop where
  | refl (st : Store) (b : OrderBook) : MatchReach sym st b st b
  | again (st : Store) (b : OrderBook) (st1 : Store) (b1 : OrderBook)
      (st2 : Store) (b2 : OrderBook)
      (hstep : matchStep sym st b = StepRes.again st1 b1)
      (hrest : MatchReach sym st1 b1 st2 b2) : MatchReach sym st b st2 b2
  | traded (st : Store) (b : OrderBook) (t : Trade) (st1 : Store) (b1 : OrderBook)
      (st2 : Store) (b2 : OrderBook)
      (hstep : matchStep sym st b = StepRes.traded t st1 b1)
      (hrest : MatchReach sym st1 b1 st2 b2) : MatchReach sym st b st2 b2

/-- Inversion of the `traded` outcome of the loop body: both peeks exposed a
valid entry, the prices crossed, and the trade was built with
`qty = min(bid.remaining, ask.remaining)` and `price = ask.price`, between
exactly those two orders. -/
theorem matchBody_traded_inv (sym : String) (st : Store) (b : OrderBook)
    (obid oask : Option BookEntry) (t : Trade) (st' : Store) (b' : OrderBook)
    (h : matchBody sym st b obid oask = StepRes.traded t st' b') :
    ∃ bid ask, obid = some bid ∧ oask = some ask ∧
      ¬ bid.price < ask.price ∧
      t.quantity = min bid.remaining ask.remaining ∧
      t.price = ask.price ∧
      t.buy_order_id = bid.order_id ∧
      t.sell_order_id = ask.order_id ∧
      t.symbol = sym ∧
      t.id = st.nextTradeId := by
  cases obid with
  | none => exact absurd h (by simp [matchBody])
  | some bid =>
    cases oask with
    | none => exact absurd h (by simp [matchBody])
    | some ask =>
      unfold matchBody at h
      by_cases hcross : bid.price < ask.price
      · simp only [hcross, if_true] at h
        exact absurd h (by simp)
      · simp only [hcross, if_false] at h
        cases hbo : st.getOrder bid.order_id with
        | none =>
          rw [hbo] at h
          exact absurd h (by simp)
        | some buyOrder =>
          cases hso : st.getOrder ask.order_id with
          | none =>
            rw [hbo, hso] at h
            exact absurd h (by simp)
          | some sellOrder =>
            rw [hbo, hso] at h
            by_cases hbc : buyOrder.status = Status.CANCELLED
            · simp only [hbc, if_true] at h
              exact absurd h (by simp)
            · by_cases hsc : sellOrder.status = Status.CANCELLED
              · simp only [hbc, hsc, if_true, if_false] at h
                exact absurd h (by simp)
              · simp only [hbc, hsc, if_false] at h
                have hbid_id : buyOrder.id = bid.order_id := by
                  have := List.find?_some hbo
                  simpa using this
                have hask_id : sellOrder.id = ask.order_id := by
                  have := List.find?_some hso
                  simpa using this
                have ht : t =
                    { id := st.nextTradeId, buy_order_id := buyOrder.id,
                      sell_order_id := sellOrder.id, symbol := sym,
                      price := ask.price,
                      quantity := min bid.remaining ask.remaining } := by
                  cases h
                  rfl
                refine ⟨bid, ask, rfl, rfl, hcross, ?_, ?_, ?_, ?_, ?_, ?_⟩ <;>
                  simp [ht, hbid_id, hask_id]

/-- C2: every trade returned by `match_all` was produced by some loop
iteration reachable from the initial state, at which the peeked best valid
bid and ask satisfied: trade quantity = `min(bid.remaining, ask.remaining)`
and trade price = the resting ask entry's price. -/
theorem C2_trade_formation (sym : String) (fuel : Nat) (st : Store)
    (b : OrderBook) (ts : List Trade) (st' : Store) (b' : OrderBook)
    (h : matchAll sym fuel st b = some (ts, st', b')) :
    ∀ t ∈ ts, ∃ st1 b1 st2 b2 bid ask,
      MatchReach sym st b st1 b1 ∧
      matchStep sym st1 b1 = StepRes.traded t st2 b2 ∧
      b1.topValidBid.1 = some bid ∧
      b1.topValidBid.2.topValidAsk.1 = some ask ∧
      t.quantity = min bid.remaining ask.remaining ∧
      t.price = ask.price := by
  induction fuel generalizing st b ts with
  | zero => exact absurd h (by simp [matchAll])
  | succ fuel ih =>
    unfold matchAll at h
    cases hstep : matchStep sym st b with
    | done st1 b1 =>
      simp only [hstep] at h
      obtain ⟨rfl, rfl, rfl⟩ : ts = [] ∧ st1 = st' ∧ b1 = b' := by simpa using h
      intro t ht
      exact absurd ht (by simp)
    | again st1 b1 =>
      simp only [hstep] at h
      intro t ht
      obtain ⟨s1, bb1, s2, bb2, bid, ask, hr, hs, h1, h2, h3, h4⟩ := ih st1 b1 ts h t ht
      exact ⟨s1, bb1, s2, bb2, bid, ask,
        MatchReach.again _ _ _ _ _ _ hstep hr, hs, h1, h2, h3, h4⟩
    | traded t0 st1 b1 =>
      simp only [hstep] at h
      cases hrec : matchAll sym fuel st1 b1 with
      | none =>
        simp only [hrec] at h
        exact Option.noConfusion h
      | some r =>
        simp only [hrec] at h
        obtain ⟨ts2, st2, b2⟩ := r
        obtain ⟨rfl, rfl, rfl⟩ : t0 :: ts2 = ts ∧ st2 = st' ∧ b2 = b' := by simpa using h
        intro t ht
        rcases List.mem_cons.mp ht with rfl | htail
        · have hstep' := hstep
          rw [matchStep_eq] at hstep'
          obtain ⟨bid, ask, hb0, ha0, _, hqty, hpr, _, _, _, _⟩ :=
            matchBody_traded_inv _ _ _ _ _ _ _ _ hstep'
          exact ⟨st, b, st1, b1, bid, ask, MatchReach.refl _ _, hstep, hb0, ha0, hqty, hpr⟩
        · obtain ⟨s1, bb1, s2, bb2, bid, ask, hr, hs, h1, h2, h3, h4⟩ :=
            ih st1 b1 ts2 hrec t htail
          exact ⟨s1, bb1, s2, bb2, bid, ask,
            MatchReach.traded _ _ _ _ _ _ _ hstep hr, hs, h1, h2, h3, h4⟩

/-- A one-level crossing state (resting SELL 5 @100 id 1, incoming BUY 3
@120 id 2), with matching store rows. -/
def crossStore : Store :=
  { orders :=
      [{ id := 1, symbol := "AAPL", side := Side.SELL, price := some 100, quantity := 5,
         filled_quantity := 0, status := Status.NEW, created_at := 1 },
       { id := 2, symbol := "AAPL", side := Side.BUY, price := some 120, quantity := 3,
         filled_quantity := 0, status := Status.NEW, created_at := 2 }],
    trades := [], nextOrderId := 3, nextTradeId := 1 }

def crossBook : OrderBook :=
  { bids := [(-120, 2, 2)], asks := [(100, 1, 1)],
    entries :=
      [(1,
        { order_id := 1, side := Side.SELL, price := 100,
          remaining := 5, seq := 1, cancelled := false }),
       (2,
        { order_id := 2, side := Side.BUY, price := 120,
          remaining := 3, seq := 2, cancelled := false })],
    seq_counter := 2 }

/-- The single trade of the crossing state: 3 units at the ask price 100. -/
def crossTrade : Trade :=
  { id := 1, buy_order_id := 2, sell_order_id := 1, symbol := "AAPL",
    price := 100, quantity := 3 }

/-- Witness for C2 at the concrete crossing state. -/
theorem C2_witness :
    (∃ stb : Store × OrderBook, matchAll "AAPL" 3 crossStore crossBook = some ([crossTrade], stb.1, stb.2)) ∧
    (∃ st1 b1 st2 b2 bid ask,
      MatchReach "AAPL" crossStore crossBook st1 b1 ∧
      matchStep "AAPL" st1 b1 = StepRes.traded crossTrade st2 b2 ∧
      b1.topValidBid.1 = some bid ∧
      b1.topValidBid.2.topValidAsk.1 = some ask ∧
      crossTrade.quantity = min bid.remaining ask.remaining ∧
      crossTrade.price = ask.price) := by
  have hrun : matchAll "AAPL" 3 crossStore crossBook =
      some ([crossTrade],
        { orders :=
            [{ id := 1, symbol := "AAPL", side := Side.SELL, price := some 100, quantity := 5,
               filled_quantity := 3, status := Status.PARTIAL, created_at := 1 },
             { id := 2, symbol := "AAPL", side := Side.BUY, price := some 120, quantity := 3,
               filled_quantity := 3, status := Status.FILLED, created_at := 2 }],
          trades := [crossTrade], nextOrderId := 3, nextTradeId := 2 },
        { bids := [], asks := [(100, 1, 1)],
          entries :=
            [(1,
              { order_id := 1, side := Side.SELL, price := 100,
                remaining := 2, seq := 1, cancelled := false }),
             (2,
              { order_id := 2, side := Side.BUY, price := 120,
                remaining := 0, seq := 2, cancelled := false })],
          seq_counter := 2 }) := by decide
  refine ⟨⟨(_, _), hrun⟩, ?_⟩
  have := C2_trade_formation "AAPL" 3 crossStore crossBook [crossTrade] _ _ hrun
    crossTrade (by simp)
  exact this

/-! ### C6: self-healing on a failed row lookup -/

/-- A crossing book whose BUY row (id 1) is missing from the store while the
SELL row (id 2) is present. -/
def failBook : OrderBook :=
  { bids := [(-100, 1, 1)], asks := [(100, 2, 2)],
    entries :=
      [(1,
        { order_id := 1, side := Side.BUY, price := 100,
          remaining := 3, seq := 1, cancelled := false }),
       (2,
        { order_id := 2, side := Side.SELL, price := 100,
          remaining := 3, seq := 2, cancelled := false })],
    seq_counter := 2 }

def failStore : Store :=
  { orders :=
      [{ id := 2, symbol := "A", side := Side.SELL, price := some 100, quantity := 3,
         filled_quantity := 0, status := Status.NEW, created_at := 0 }],
    trades := [], nextOrderId := 3, nextTradeId := 1 }

/-- `failBook` after the self-healing iteration: both remainings zeroed. -/
def failBookZeroed : OrderBook :=
  { bids := [(-100, 1, 1)], asks := [(100, 2, 2)],
    entries :=
      [(1,
        { order_id := 1, side := Side.BUY, price := 100,
          remaining := 0, seq := 1, cancelled := false }),
       (2,
        { order_id := 2, side := Side.SELL, price := 100,
          remaining := 0, seq := 2, cancelled := false })],
    seq_counter := 2 }

/-- C6, counterexample: when the buy-side row lookup fails, the iteration
zeroes the remaining of BOTH in-memory entries — the sell entry (id 2),
whose row is present in the store, is invalidated too, contradicting the
claim that exactly the corresponding entry is invalidated and the other
side is left unchanged. -/
theorem C6_counterexample :
    failStore.getOrder 1 = none ∧
    (failStore.getOrder 2).isSome = true ∧
    matchStep "A" failStore failBook = StepRes.again failStore failBookZeroed ∧
    (lookupEntry failBook.entries 2).map (fun e => e.remaining) = some 3 ∧
    (lookupEntry failBookZeroed.entries 2).map (fun e => e.remaining) = some 0 := by
  refine ⟨rfl, rfl, by decide, rfl, rfl⟩

/-- The book after the self-healing update: both sides' remainings zeroed
in place. -/
def zeroedBook (b : OrderBook) (bidId askId : Nat) : OrderBook :=
  { b with entries := adjustEntry (adjustEntry b.entries bidId (fun e => { e with remaining := 0 })) askId (fun e => { e with remaining := 0 }) }

/-- C6 (amended): if the store lookup of the buy order or of the sell order
fails at a cross, the iteration invalidates BOTH in-memory entries
(`remaining ← 0` on each side), leaves every other entry and both queues
unchanged, produces no trade and retries the loop with the store untouched. -/
theorem C6_lookup_failure_self_heal (sym : String) (st : Store) (b : OrderBook)
    (bid ask : BookEntry) (hcross : ¬ bid.price < ask.price)
    (hfail : st.getOrder bid.order_id = none ∨ st.getOrder ask.order_id = none) :
    matchBody sym st b (some bid) (some ask) =
      StepRes.again st (zeroedBook b bid.order_id ask.order_id) ∧
    lookupEntry (zeroedBook b bid.order_id ask.order_id).entries bid.order_id =
      (lookupEntry b.entries bid.order_id).map (fun e => { e with remaining := 0 }) ∧
    lookupEntry (zeroedBook b bid.order_id ask.order_id).entries ask.order_id =
      (lookupEntry b.entries ask.order_id).map (fun e => { e with remaining := 0 }) ∧
    (∀ oid, oid ≠ bid.order_id → oid ≠ ask.order_id →
      lookupEntry (zeroedBook b bid.order_id ask.order_id).entries oid =
        lookupEntry b.entries oid) ∧
    (zeroedBook b bid.order_id ask.order_id).bids = b.bids ∧
    (zeroedBook b bid.order_id ask.order_id).asks = b.asks := by
  have heq : matchBody sym st b (some bid) (some ask) =
      StepRes.again st (zeroedBook b bid.order_id ask.order_id) := by
    rcases hfail with hf | hf
    · unfold matchBody zeroedBook
      simp only [hcross, if_false, hf]
    · cases hgb : st.getOrder bid.order_id with
      | none =>
        unfold matchBody zeroedBook
        simp only [hcross, if_false, hgb]
      | some buyOrder =>
        unfold matchBody zeroedBook
        simp only [hcross, if_false, hgb, hf]
  refine ⟨heq, ?_, ?_, ?_, rfl, rfl⟩
  · show lookupEntry (adjustEntry (adjustEntry b.entries bid.order_id
      (fun e => { e with remaining := 0 })) ask.order_id
      (fun e => { e with remaining := 0 })) bid.order_id = _
    rw [lookupEntry_adjustEntry]
    by_cases hsame : bid.order_id = ask.order_id
    · rw [hsame]
      simp only [if_true]
      rw [lookupEntry_adjustEntry]
      simp only [if_true]
      cases lookupEntry b.entries ask.order_id <;> simp
    · simp only [hsame, if_false]
      rw [lookupEntry_adjustEntry]
      simp
  · show lookupEntry (adjustEntry (adjustEntry b.entries bid.order_id
      (fun e => { e with remaining := 0 })) ask.order_id
      (fun e => { e with remaining := 0 })) ask.order_id = _
    rw [lookupEntry_adjustEntry]
    simp only [if_true]
    rw [lookupEntry_adjustEntry]
    by_cases hsame : ask.order_id = bid.order_id
    · simp only [hsame, if_true]
      cases lookupEntry b.entries bid.order_id <;> simp [hsame]
    · simp [hsame]
  · intro oid h1 h2
    show lookupEntry (adjustEntry (adjustEntry b.entries bid.order_id
      (fun e => { e with remaining := 0 })) ask.order_id
      (fun e => { e with remaining := 0 })) oid = _
    rw [lookupEntry_adjustEntry, lookupEntry_adjustEntry]
    simp [h1, h2]

/-- The two resting entries of `failBook`. -/
def failBidEntry : BookEntry :=
  { order_id := 1, side := Side.BUY, price := 100,
    remaining := 3, seq := 1, cancelled := false }

def failAskEntry : BookEntry :=
  { order_id := 2, side := Side.SELL, price := 100,
    remaining := 3, seq := 2, cancelled := false }

/-- Witness for the amended C6 at the concrete failing state. -/
theorem C6_witness :
    (¬ failBidEntry.price < failAskEntry.price) ∧
    (failStore.getOrder failBidEntry.order_id = none) ∧
    (matchBody "A" failStore failBook (some failBidEntry) (some failAskEntry) =
      StepRes.again failStore (zeroedBook failBook 1 2) ∧
    lookupEntry (zeroedBook failBook 1 2).entries 1 =
      (lookupEntry failBook.entries 1).map (fun e => { e with remaining := 0 }) ∧
    lookupEntry (zeroedBook failBook 1 2).entries 2 =
      (lookupEntry failBook.entries 2).map (fun e => { e with remaining := 0 }) ∧
    (∀ oid, oid ≠ 1 → oid ≠ 2 →
      lookupEntry (zeroedBook failBook 1 2).entries oid =
        lookupEntry failBook.entries oid) ∧
    (zeroedBook failBook 1 2).bids = failBook.bids ∧
    (zeroedBook failBook 1 2).asks = failBook.asks) :=
  ⟨by decide, by decide,
    C6_lookup_failure_self_heal "A" failStore failBook failBidEntry failAskEntry
      (by decide) (Or.inl (by decide))⟩

/-! ### C7: what recovery processes, and in which order -/

theorem mem_orderedInsertByCreated (o a : Order) (l : List Order) :
    a ∈ orderedInsertByCreated o l ↔ a = o ∨ a ∈ l := by
  induction l with
  | nil => simp [orderedInsertByCreated]
  | cons o' rest ih =>
    unfold orderedInsertByCreated
    by_cases h : o.created_at ≤ o'.created_at
    · simp [h]
    · simp only [h, if_false, List.mem_cons, ih]
      tauto

theorem mem_sortByCreated (a : Order) (l : List Order) :
    a ∈ sortByCreated l ↔ a ∈ l := by
  induction l with
  | nil => simp [sortByCreated]
  | cons o rest ih =>
    unfold sortByCreated
    rw [mem_orderedInsertByCreated]
    simp [ih]

theorem pairwise_orderedInsertByCreated (o : Order) (l : List Order)
    (h : l.Pairwise (fun a b => a.created_at ≤ b.created_at)) :
    (orderedInsertByCreated o l).Pairwise (fun a b => a.created_at ≤ b.created_at) := by
  induction l with
  | nil => simp [orderedInsertByCreated]
  | cons o' rest ih =>
    unfold orderedInsertByCreated
    rcases List.pairwise_cons.mp h with ⟨hall, htail⟩
    by_cases hle : o.created_at ≤ o'.created_at
    · simp only [hle, if_true]
      refine List.pairwise_cons.mpr ⟨?_, h⟩
      intro x hx
      rcases List.mem_cons.mp hx with rfl | hx
      · exact hle
      · exact le_trans hle (hall x hx)
    · simp only [hle, if_false]
      refine List.pairwise_cons.mpr ⟨?_, ih htail⟩
      intro x hx
      rcases (mem_orderedInsertByCreated o x rest).mp hx with rfl | hx
      · omega
      · exact hall x hx

theorem pairwise_sortByCreated (l : List Order) :
    (sortByCreated l).Pairwise (fun a b => a.created_at ≤ b.created_at) := by
  induction l with
  | nil => simp [sortByCreated]
  | cons o rest ih => exact pairwise_orderedInsertByCreated o _ ih

theorem orderedInsertByCreated_of_le (o : Order) (l : List Order)
    (h : ∀ x ∈ l, o.created_at ≤ x.created_at) :
    orderedInsertByCreated o l = o :: l := by
  cases l with
  | nil => rfl
  | cons o' rest =>
    unfold orderedInsertByCreated
    simp [h o' (by simp)]

/-- The stable sort is the identity on lists already ordered by
`created_at`; in particular rows with equal timestamps keep their store
order. -/
theorem sortByCreated_of_pairwise (l : List Order)
    (h : l.Pairwise (fun a b => a.created_at ≤ b.created_at)) :
    sortByCreated l = l := by
  induction l with
  | nil => rfl
  | cons o rest ih =>
    rcases List.pairwise_cons.mp h with ⟨hall, htail⟩
    unfold sortByCreated
    rw [ih htail]
    exact orderedInsertByCreated_of_le o rest hall

/-- Folding `add` over a list of orders on a single book (what recovery does
to one symbol's book). -/
def foldAddOrders : List Order → OrderBook → Option OrderBook
  | [], b => some b
  | o :: os, b =>
    match b.add o with
    | none => none
    | some b' => foldAddOrders os b'

theorem foldAddOrders_append (l1 l2 : List Order) (b : OrderBook) :
    foldAddOrders (l1 ++ l2) b =
      match foldAddOrders l1 b with
      | none => none
      | some b' => foldAddOrders l2 b' := by
  induction l1 generalizing b with
  | nil => simp [foldAddOrders]
  | cons o rest ih =>
    cases hadd : b.add o with
    | none =>
      have hl : foldAddOrders ((o :: rest) ++ l2) b = none := by
        simp only [List.cons_append, foldAddOrders, hadd]
      have hr : foldAddOrders (o :: rest) b = none := by
        simp only [foldAddOrders, hadd]
      rw [hl, hr]
    | some b1 =>
      have hl : foldAddOrders ((o :: rest) ++ l2) b = foldAddOrders (rest ++ l2) b1 := by
        simp only [List.cons_append, foldAddOrders, hadd]
        rfl
      have hr : foldAddOrders (o :: rest) b = foldAddOrders rest b1 := by
        simp only [foldAddOrders, hadd]
      rw [hl, hr, ih b1]

theorem foldAddOrders_lookup_of_not_mem (os : List Order) (b b' : OrderBook) (oid : Nat)
    (h : foldAddOrders os b = some b') (hmem : ∀ o ∈ os, o.id ≠ oid) :
    lookupEntry b'.entries oid = lookupEntry b.entries oid := by
  induction os generalizing b with
  | nil =>
    obtain rfl : b = b' := by simpa [foldAddOrders] using h
    rfl
  | cons o rest ih =>
    unfold foldAddOrders at h
    cases hadd : b.add o with
    | none => rw [hadd] at h; exact Option.noConfusion h
    | some b1 =>
      rw [hadd] at h
      have hrest := ih b1 h (fun o' ho' => hmem o' (by simp [ho']))
      rw [hrest]
      rcases add_some_inv b o b1 hadd with ⟨_, rfl⟩ | ⟨_, p, _, hes, _⟩
      · rfl
      · rw [hes, lookupEntry_setEntry]
        have hne : oid ≠ o.id := fun hc => hmem o (by simp) hc.symm
        simp [hne]

/-- The book the engine holds for a symbol (the empty book if the symbol
was never seen). -/
def bookOfD (eng : MatchingEngine) (s : String) : OrderBook :=
  (lookupBook eng.books s).getD OrderBook.empty

theorem rebuildStep_book (eng : MatchingEngine) (o : Order) (eng' : MatchingEngine)
    (h : rebuildStep eng o = some eng') (s : String) :
    (s = o.symbol → (bookOfD eng o.symbol).add o = some (bookOfD eng' s)) ∧
    (s ≠ o.symbol → bookOfD eng' s = bookOfD eng s) := by
  unfold rebuildStep MatchingEngine.book at h
  cases hb : lookupBook eng.books o.symbol with
  | some bk =>
    rw [hb] at h
    simp only [] at h
    cases hadd : bk.add o with
    | none => rw [hadd] at h; exact Option.noConfusion h
    | some b2 =>
      rw [hadd] at h
      obtain rfl : MatchingEngine.mk (setBook eng.books o.symbol b2) = eng' := by
        simpa using h
      constructor
      · intro hs
        subst hs
        unfold bookOfD
        rw [hb, lookupBook_setBook]
        simpa using hadd
      · intro hs
        unfold bookOfD
        show (lookupBook (setBook eng.books o.symbol b2) s).getD _ = _
        rw [lookupBook_setBook]
        simp [hs]
  | none =>
    rw [hb] at h
    simp only [] at h
    cases hadd : OrderBook.empty.add o with
    | none => rw [hadd] at h; exact Option.noConfusion h
    | some b2 =>
      rw [hadd] at h
      obtain rfl : MatchingEngine.mk
          (setBook (setBook eng.books o.symbol OrderBook.empty) o.symbol b2) = eng' := by
        simpa using h
      constructor
      · intro hs
        subst hs
        unfold bookOfD
        rw [hb]
        show _ = some ((lookupBook (setBook (setBook eng.books o.symbol OrderBook.empty)
          o.symbol b2) o.symbol).getD OrderBook.empty)
        rw [lookupBook_setBook]
        simpa using hadd
      · intro hs
        unfold bookOfD
        show (lookupBook (setBook (setBook eng.books o.symbol OrderBook.empty)
          o.symbol b2) s).getD _ = _
        rw [lookupBook_setBook, lookupBook_setBook]
        simp [hs]

/-- The recovery loop acts on each symbol's book as the fold of `add` over
that symbol's rows, in list order. -/
theorem rebuildLoop_books (os : List Order) (eng eng' : MatchingEngine)
    (h : rebuildLoop os eng = some eng') (s : String) :
    foldAddOrders (os.filter (fun o => o.symbol == s)) (bookOfD eng s) =
      some (bookOfD eng' s) := by
  induction os generalizing eng with
  | nil =>
    obtain rfl : eng = eng' := by simpa [rebuildLoop] using h
    simp [foldAddOrders]
  | cons o rest ih =>
    unfold rebuildLoop at h
    cases hstep : rebuildStep eng o with
    | none => rw [hstep] at h; exact Option.noConfusion h
    | some eng1 =>
      rw [hstep] at h
      have hbook := rebuildStep_book eng o eng1 hstep s
      by_cases hs : o.symbol = s
      · have hsym : (o.symbol == s) = true := by simpa using hs
        rw [List.filter_cons]
        simp only [hsym, if_true]
        unfold foldAddOrders
        rw [hs] at hbook
        rw [hbook.1 rfl]
        exact ih eng1 h
      · have hsym : (o.symbol == s) = false := by simpa using hs
        rw [List.filter_cons]
        simp only [hsym, Bool.false_eq_true, if_false]
        rw [← hbook.2 (fun hc => hs hc.symm)]
        exact ih eng1 h

/-- C7 (amended): `rebuild_from_db` processes exactly the orders with status
NEW or PARTIAL, in ascending `created_at` order; rows with equal timestamps
are processed in store order (the query has no id tie-break).  Each
processed order is added to its symbol's book (a resting entry with
`remaining = quantity − filled_quantity`), and recovery performs no
matching and produces no trades (it never writes the store). -/
theorem C7_rebuild_contract :
    (∀ (st : Store) (o : Order), o ∈ openOrdersByCreated st ↔
      (o ∈ st.orders ∧ (o.status = Status.NEW ∨ o.status = Status.PARTIAL))) ∧
    (∀ st : Store, (openOrdersByCreated st).Pairwise
      (fun a b => a.created_at ≤ b.created_at)) ∧
    (∀ st : Store, st.orders.Pairwise (fun a b => a.created_at ≤ b.created_at) →
      openOrdersByCreated st = st.orders.filter
        (fun r => r.status == Status.NEW || r.status == Status.PARTIAL)) ∧
    (∀ (st : Store) (eng' : MatchingEngine),
      ((openOrdersByCreated st).map (fun o => o.id)).Nodup →
      rebuildFromDb st MatchingEngine.empty = some eng' →
      ∀ o ∈ openOrdersByCreated st, 0 < o.quantity - o.filled_quantity →
      ∃ p, o.price = some p ∧
        (lookupEntry (bookOfD eng' o.symbol).entries o.id).map
          (fun e => (e.side, e.price, e.remaining, e.cancelled)) =
          some (o.side, p, o.quantity - o.filled_quantity, false)) := by
  refine ⟨?_, ?_, ?_, ?_⟩
  · intro st o
    unfold openOrdersByCreated
    rw [mem_sortByCreated, List.mem_filter]
    have hst : ((o.status == Status.NEW || o.status == Status.PARTIAL) = true) ↔
        (o.status = Status.NEW ∨ o.status = Status.PARTIAL) := by
      cases o.status <;> simp
    rw [hst]
  · intro st
    exact pairwise_sortByCreated _
  · intro st hsort
    unfold openOrdersByCreated
    exact sortByCreated_of_pairwise _ (List.Pairwise.filter _ hsort)
  · intro st eng' hnodup hreb o hmem hrem
    have hfold := rebuildLoop_books (openOrdersByCreated st) MatchingEngine.empty eng'
      hreb o.symbol
    have hosym : (o.symbol == o.symbol) = true := by simp
    have hofil : o ∈ (openOrdersByCreated st).filter (fun x => x.symbol == o.symbol) :=
      List.mem_filter.mpr ⟨hmem, hosym⟩
    obtain ⟨f1, f2, hdec⟩ := List.append_of_mem hofil
    have hnodupF : (((openOrdersByCreated st).filter
        (fun x => x.symbol == o.symbol)).map (fun x => x.id)).Nodup :=
      List.Nodup.sublist (List.Sublist.map _ (List.filter_sublist _)) hnodup
    rw [hdec] at hfold hnodupF
    have hf2ne : ∀ o' ∈ f2, o'.id ≠ o.id := by
      rw [List.map_append, List.map_cons] at hnodupF
      have h2 := List.Nodup.of_append_right hnodupF
      have hnotin := (List.nodup_cons.mp h2).1
      intro o' ho' hc
      exact hnotin (hc ▸ List.mem_map_of_mem _ ho')
    rw [foldAddOrders_append] at hfold
    cases h1 : foldAddOrders f1 (bookOfD MatchingEngine.empty o.symbol) with
    | none => rw [h1] at hfold; exact Option.noConfusion hfold
    | some b1 =>
      rw [h1] at hfold
      unfold foldAddOrders at hfold
      cases hadd : b1.add o with
      | none => rw [hadd] at hfold; exact Option.noConfusion hfold
      | some b2 =>
        rw [hadd] at hfold
        rcases add_some_inv b1 o b2 hadd with ⟨hle, _⟩ | ⟨_, p, hp, hes, _⟩
        · omega
        · refine ⟨p, hp, ?_⟩
          have hpres := foldAddOrders_lookup_of_not_mem f2 b2 _ o.id hfold hf2ne
          rw [hpres, hes, lookupEntry_setEntry]
          simp [addEntry]

/-- Two open SELL rows with the same `created_at`, stored with id 2 before
id 1: exercises the tie behaviour of the recovery query. -/
def tieStore : Store :=
  { orders :=
      [{ id := 2, symbol := "A", side := Side.SELL, price := some 100, quantity := 4,
         filled_quantity := 0, status := Status.NEW, created_at := 5 },
       { id := 1, symbol := "A", side := Side.SELL, price := some 100, quantity := 4,
         filled_quantity := 0, status := Status.NEW, created_at := 5 }],
    trades := [], nextOrderId := 3, nextTradeId := 1 }

/-- What the claim's ordering would require: ascending `created_at` with
ties broken by ascending order id.  Second definition following the spec
text, for comparison with the source's ordering. -/
def orderedInsertByCreatedThenId (o : Order) : List Order → List Order
  | [] => [o]
  | o' :: rest =>
    if o.created_at < o'.created_at ∨ (o.created_at = o'.created_at ∧ o.id ≤ o'.id) then
      o :: o' :: rest
    else o' :: orderedInsertByCreatedThenId o rest

def sortByCreatedThenId : List Order → List Order
  | [] => []
  | o :: rest => orderedInsertByCreatedThenId o (sortByCreatedThenId rest)

/-- Recovery as the claim describes it: open orders sorted by
`(created_at, id)`. -/
def claimedRebuildFromDb (st : Store) (eng : MatchingEngine) : Option MatchingEngine :=
  rebuildLoop (sortByCreatedThenId (st.orders.filter
    (fun r => r.status == Status.NEW || r.status == Status.PARTIAL))) eng

/-- C7, counterexample: on `tieStore` the code processes id 2 first (store
order, sequence 1) while the claimed id tie-break would process id 1 first;
the rebuilt books differ. -/
theorem C7_counterexample :
    rebuildFromDb tieStore MatchingEngine.empty ≠
      claimedRebuildFromDb tieStore MatchingEngine.empty ∧
    (rebuildFromDb tieStore MatchingEngine.empty).map
      (fun eng => (lookupEntry (bookOfD eng "A").entries 2).map (fun e => e.seq)) =
      some (some 1) ∧
    (claimedRebuildFromDb tieStore MatchingEngine.empty).map
      (fun eng => (lookupEntry (bookOfD eng "A").entries 2).map (fun e => e.seq)) =
      some (some 2) := by
  refine ⟨by decide, by decide, by decide⟩

/-- A store for the C7 witness: a NEW SELL (id 1, created 1), a PARTIAL BUY
(id 2, created 2, filled 1 of 4) and a CANCELLED row (id 3) that recovery
must skip. -/
def recStore : Store :=
  { orders :=
      [{ id := 3, symbol := "A", side := Side.SELL, price := some 90, quantity := 2,
         filled_quantity := 0, status := Status.CANCELLED, created_at := 0 },
       { id := 2, symbol := "A", side := Side.BUY, price := some 95, quantity := 4,
         filled_quantity := 1, status := Status.PARTIAL, created_at := 2 },
       { id := 1, symbol := "A", side := Side.SELL, price := some 100, quantity := 5,
         filled_quantity := 0, status := Status.NEW, created_at := 1 }],
    trades := [], nextOrderId := 4, nextTradeId := 1 }

/-- The PARTIAL BUY row of `recStore`. -/
def recBuyRow : Order :=
  { id := 2, symbol := "A", side := Side.BUY, price := some 95, quantity := 4,
    filled_quantity := 1, status := Status.PARTIAL, created_at := 2 }

/-- Witness for the amended C7 at `recStore`. -/
theorem C7_witness :
    (recBuyRow ∈ openOrdersByCreated recStore ↔
      (recBuyRow ∈ recStore.orders ∧
        (recBuyRow.status = Status.NEW ∨ recBuyRow.status = Status.PARTIAL))) ∧
    ((openOrdersByCreated recStore).Pairwise
      (fun a b => a.created_at ≤ b.created_at)) ∧
    (openOrdersByCreated tieStore = tieStore.orders.filter
      (fun r => r.status == Status.NEW || r.status == Status.PARTIAL)) ∧
    (∃ p, recBuyRow.price = some p ∧
      ∀ eng', rebuildFromDb recStore MatchingEngine.empty = some eng' →
        (lookupEntry (bookOfD eng' recBuyRow.symbol).entries recBuyRow.id).map
          (fun e => (e.side, e.price, e.remaining, e.cancelled)) =
          some (recBuyRow.side, p, recBuyRow.quantity - recBuyRow.filled_quantity, false)) := by
  refine ⟨C7_rebuild_contract.1 recStore recBuyRow, C7_rebuild_contract.2.1 recStore,
    C7_rebuild_contract.2.2.1 tieStore (by decide), ?_⟩
  refine ⟨95, rfl, ?_⟩
  intro eng' heng
  obtain ⟨p, hp, hconc⟩ := C7_rebuild_contract.2.2.2 recStore eng' (by decide) heng
    recBuyRow (by decide) (by decide)
  have hp95 : some (95 : Int) = some p := hp
  obtain rfl : p = 95 := by simpa using hp95.symm
  exact hconc

/-! ### C9: recovery is not idempotent -/

/-- The number of rows a recovery pass actually inserts (positive residual;
rows with `remaining ≤ 0` are skipped by `add`). -/
def posCount (os : List Order) : Nat :=
  (os.filter (fun o => decide (0 < o.quantity - o.filled_quantity))).length

/-- Counting effect of a non-raising `add`: one key pushed and one sequence
number consumed iff the residual is positive, else a no-op. -/
theorem add_some_counts (b : OrderBook) (o : Order) (b2 : OrderBook)
    (h : b.add o = some b2) :
    (0 < o.quantity - o.filled_quantity ∧
      b2.bids.length + b2.asks.length = b.bids.length + b.asks.length + 1 ∧
      b2.seq_counter = b.seq_counter + 1) ∨
    (o.quantity - o.filled_quantity ≤ 0 ∧ b2 = b) := by
  unfold OrderBook.add at h
  cases hp : o.price with
  | none => rw [hp] at h; exact Option.noConfusion h
  | some p =>
    rw [hp] at h
    by_cases hrem : o.quantity - o.filled_quantity ≤ 0
    · simp only [hrem, if_true] at h
      exact Or.inr ⟨hrem, (Option.some_inj.mp h).symm⟩
    · simp only [hrem, if_false] at h
      refine Or.inl ⟨by omega, ?_⟩
      cases hs : o.side <;> rw [hs] at h <;> simp only [] at h <;>
        (have hb := Option.some_inj.mp h; subst hb;
         constructor
         · simp [heappush_length]
           omega
         · rfl)

/-- Counting effect of a successful fold of `add`. -/
theorem foldAddOrders_counts (os : List Order) (b b2 : OrderBook)
    (h : foldAddOrders os b = some b2) :
    b2.bids.length + b2.asks.length = b.bids.length + b.asks.length + posCount os ∧
    b2.seq_counter = b.seq_counter + posCount os := by
  induction os generalizing b with
  | nil =>
    obtain rfl : b = b2 := by simpa [foldAddOrders] using h
    simp [posCount]
  | cons o rest ih =>
    unfold foldAddOrders at h
    cases hadd : b.add o with
    | none => rw [hadd] at h; exact Option.noConfusion h
    | some b1 =>
      rw [hadd] at h
      obtain ⟨ih1, ih2⟩ := ih b1 h
      rcases add_some_counts b o b1 hadd with ⟨hpos, hlen, hseq⟩ | ⟨hneg, rfl⟩
      · have hposb : o.filled_quantity < o.quantity := by omega
        have hcount : posCount (o :: rest) = posCount rest + 1 := by
          unfold posCount
          rw [List.filter_cons]
          simp [hposb]
        rw [hcount]
        omega
      · have hnegb : ¬ o.filled_quantity < o.quantity := by omega
        have hcount : posCount (o :: rest) = posCount rest := by
          unfold posCount
          rw [List.filter_cons]
          simp [hnegb]
        rw [hcount]
        omega

/-- C9 (amended): recovery is NOT idempotent.  A second
`rebuild_from_store` pass over the unchanged store re-inserts every open
order with positive residual: each symbol's priority-queue length and
sequence counter double (they are not left unchanged unless nothing was
inserted at all). -/
theorem C9_rebuild_not_idempotent (st : Store) (eng1 eng2 : MatchingEngine)
    (h1 : rebuildFromDb st MatchingEngine.empty = some eng1)
    (h2 : rebuildFromDb st eng1 = some eng2) (s : String) :
    (bookOfD eng2 s).bids.length + (bookOfD eng2 s).asks.length =
      2 * ((bookOfD eng1 s).bids.length + (bookOfD eng1 s).asks.length) ∧
    (bookOfD eng2 s).seq_counter = 2 * (bookOfD eng1 s).seq_counter := by
  have hf1 := rebuildLoop_books (openOrdersByCreated st) MatchingEngine.empty eng1 h1 s
  have hf2 := rebuildLoop_books (openOrdersByCreated st) eng1 eng2 h2 s
  have hempty : bookOfD MatchingEngine.empty s = OrderBook.empty := rfl
  rw [hempty] at hf1
  obtain ⟨ha1, ha2⟩ := foldAddOrders_counts _ _ _ hf1
  obtain ⟨hb1, hb2⟩ := foldAddOrders_counts _ _ _ hf2
  simp only [OrderBook.empty, List.length_nil] at ha1 ha2
  constructor <;> omega

/-- The engine after one recovery pass over `tieStore`. -/
def tieEngine1 : MatchingEngine :=
  ⟨[("A",
    { bids := [], asks := [(100, 1, 2), (100, 2, 1)],
      entries :=
        [(2,
          { order_id := 2, side := Side.SELL, price := 100,
            remaining := 4, seq := 1, cancelled := false }),
         (1,
          { order_id := 1, side := Side.SELL, price := 100,
            remaining := 4, seq := 2, cancelled := false })],
      seq_counter := 2 })]⟩

/-- The engine after a second recovery pass over the unchanged `tieStore`:
the asks queue holds four keys (two stale duplicates) and the entries carry
fresh sequence numbers. -/
def tieEngine2 : MatchingEngine :=
  ⟨[("A",
    { bids := [], asks := [(100, 1, 2), (100, 2, 1), (100, 3, 2), (100, 4, 1)],
      entries :=
        [(2,
          { order_id := 2, side := Side.SELL, price := 100,
            remaining := 4, seq := 3, cancelled := false }),
         (1,
          { order_id := 1, side := Side.SELL, price := 100,
            remaining := 4, seq := 4, cancelled := false })],
      seq_counter := 4 })]⟩

/-- C9, counterexample: running `rebuild_from_store` twice on the unchanged
`tieStore` does not reproduce the state after one run — the priority queue
doubles and the sequence numbers move. -/
theorem C9_counterexample :
    rebuildFromDb tieStore MatchingEngine.empty = some tieEngine1 ∧
    rebuildFromDb tieStore tieEngine1 = some tieEngine2 ∧
    tieEngine2 ≠ tieEngine1 := by
  refine ⟨by decide, by decide, by decide⟩

/-- Witness for the amended C9 at `tieStore`. -/
theorem C9_witness :
    (bookOfD tieEngine2 "A").bids.length + (bookOfD tieEngine2 "A").asks.length =
      2 * ((bookOfD tieEngine1 "A").bids.length + (bookOfD tieEngine1 "A").asks.length) ∧
    (bookOfD tieEngine2 "A").seq_counter = 2 * (bookOfD tieEngine1 "A").seq_counter :=
  C9_rebuild_not_idempotent tieStore tieEngine1 tieEngine2 (by decide) (by decide) "A"

/-! ### C8: cancel safety -/

/-- Field/key consistency of the entry map: every binding's entry carries
the key as its `order_id` (always true for books built by the engine). -/
def entriesWFb (es : Entries) : Bool :=
  es.all (fun p => p.2.order_id == p.1)

theorem entriesWFb_lookup (es : Entries) (h : entriesWFb es = true) (oid : Nat)
    (e : BookEntry) (hl : lookupEntry es oid = some e) : e.order_id = oid := by
  unfold lookupEntry at hl
  cases hf : es.find? (fun p => p.1 == oid) with
  | none => rw [hf] at hl; exact Option.noConfusion hl
  | some q =>
    rw [hf] at hl
    obtain rfl : q.2 = e := by simpa using hl
    have hq1 : q.1 = oid := by simpa using List.find?_some hf
    have hqmem := List.mem_of_find?_eq_some hf
    have := (List.all_eq_true.mp h) q hqmem
    have : q.2.order_id = q.1 := by simpa using this
    rw [this, hq1]

theorem entriesWFb_adjustEntry (es : Entries) (oid : Nat) (f : BookEntry → BookEntry)
    (hid : ∀ e, (f e).order_id = e.order_id) (h : entriesWFb es = true) :
    entriesWFb (adjustEntry es oid f) = true := by
  unfold entriesWFb adjustEntry at *
  rw [List.all_eq_true] at h ⊢
  intro p hp
  rcases List.mem_map.mp hp with ⟨q, hq, rfl⟩
  by_cases hqo : (q.1 == oid) = true
  · simp only [hqo, if_true]
    have := h q hq
    simpa [hid] using this
  · simp only [hqo, Bool.false_eq_true, if_false]
    exact h q hq

theorem EntriesEvolve.wf_mono {es es' : Entries} (h : EntriesEvolve es es')
    (hw : entriesWFb es = true) : entriesWFb es' = true := by
  induction h with
  | refl => exact hw
  | step es1 oid' f hf hid hpr hsq prev ih => exact entriesWFb_adjustEntry _ _ _ hid ih

/-- Whatever the peek loop returns was read from the entry map and passed
the validity test. -/
theorem topValid_fst_some_inv (es : Entries) (h : List Key) (e : BookEntry)
    (hv : (topValid es h).1 = some e) :
    ∃ koid, lookupEntry es koid = some e ∧ e.cancelled = false ∧ ¬ e.remaining ≤ 0 := by
  induction h with
  | nil => exact Option.noConfusion hv
  | cons k rest ih =>
    unfold topValid at hv
    cases hl : lookupEntry es k.2.2 with
    | none =>
      simp only [hl] at hv
      exact ih hv
    | some e0 =>
      simp only [hl] at hv
      by_cases hcv : (e0.cancelled || decide (e0.remaining ≤ 0)) = true
      · rw [if_pos hcv] at hv
        exact ih hv
      · rw [if_neg hcv] at hv
        obtain rfl : e0 = e := by simpa using hv
        simp only [Bool.or_eq_true, decide_eq_true_eq] at hcv
        exact ⟨k.2.2, hl, by simpa using fun hc => hcv (Or.inl hc),
          fun hc => hcv (Or.inr hc)⟩

/-- A tombstoned id never appears in the trade emitted by an iteration. -/
theorem matchStep_no_cancelled_trade (sym : String) (st : Store) (b : OrderBook)
    (oid : Nat) (t : Trade) (st' : Store) (b' : OrderBook)
    (hwf : entriesWFb b.entries = true)
    (hcanc : ∃ e, lookupEntry b.entries oid = some e ∧ e.cancelled = true)
    (hstep : matchStep sym st b = StepRes.traded t st' b') :
    t.buy_order_id ≠ oid ∧ t.sell_order_id ≠ oid := by
  rw [matchStep_eq] at hstep
  obtain ⟨bid, ask, hb0, ha0, _, _, _, hbuy, hsell, _, _⟩ :=
    matchBody_traded_inv _ _ _ _ _ _ _ _ hstep
  obtain ⟨ec, hec, hecc⟩ := hcanc
  have hbid : (topValid b.entries b.bids).1 = some bid := hb0
  have hask : (topValid b.entries b.topValidBid.2.asks).1 = some ask := ha0
  obtain ⟨kb, hkb, hbc, _⟩ := topValid_fst_some_inv _ _ _ hbid
  obtain ⟨ka, hka, hac, _⟩ := topValid_fst_some_inv _ _ _ hask
  have hkb_id : bid.order_id = kb := entriesWFb_lookup _ hwf _ _ hkb
  have hka_id : ask.order_id = ka := entriesWFb_lookup _ hwf _ _ hka
  constructor
  · intro hc
    rw [hbuy, hkb_id] at hc
    subst hc
    rw [hkb] at hec
    obtain rfl : bid = ec := by simpa using hec
    rw [hbc] at hecc
    exact Bool.noConfusion hecc
  · intro hc
    rw [hsell, hka_id] at hc
    subst hc
    rw [hka] at hec
    obtain rfl : ask = ec := by simpa using hec
    rw [hac] at hecc
    exact Bool.noConfusion hecc

/-- Within one `match_all` run, a tombstoned id is never traded and stays
tombstoned. -/
theorem matchAll_cancel_safe (sym : String) (fuel : Nat) (st : Store)
    (b : OrderBook) (oid : Nat) (ts : List Trade) (st' : Store) (b' : OrderBook)
    (hwf : entriesWFb b.entries = true)
    (hcanc : ∃ e, lookupEntry b.entries oid = some e ∧ e.cancelled = true)
    (h : matchAll sym fuel st b = some (ts, st', b')) :
    (∀ t ∈ ts, t.buy_order_id ≠ oid ∧ t.sell_order_id ≠ oid) ∧
    entriesWFb b'.entries = true ∧
    (∃ e, lookupEntry b'.entries oid = some e ∧ e.cancelled = true) := by
  induction fuel generalizing st b ts with
  | zero => exact absurd h (by simp [matchAll])
  | succ fuel ih =>
    unfold matchAll at h
    cases hstep : matchStep sym st b with
    | done st1 b1 =>
      simp only [hstep] at h
      obtain ⟨rfl, rfl, rfl⟩ : ts = [] ∧ st1 = st' ∧ b1 = b' := by simpa using h
      have hev := matchStep_evolve sym st b
      rw [hstep] at hev
      obtain ⟨ec, hec, hecc⟩ := hcanc
      obtain ⟨e2, he2, he2c⟩ := hev.cancelled_mono oid ec hec hecc
      exact ⟨by simp, hev.wf_mono hwf, e2, he2, he2c⟩
    | again st1 b1 =>
      simp only [hstep] at h
      have hev := matchStep_evolve sym st b
      rw [hstep] at hev
      obtain ⟨ec, hec, hecc⟩ := hcanc
      exact ih st1 b1 ts (hev.wf_mono hwf) (hev.cancelled_mono oid ec hec hecc) h
    | traded t0 st1 b1 =>
      simp only [hstep] at h
      cases hrec : matchAll sym fuel st1 b1 with
      | none =>
        simp only [hrec] at h
        exact Option.noConfusion h
      | some r =>
        simp only [hrec] at h
        obtain ⟨ts2, st2, b2⟩ := r
        obtain ⟨rfl, rfl, rfl⟩ : t0 :: ts2 = ts ∧ st2 = st' ∧ b2 = b' := by simpa using h
        have hev := matchStep_evolve sym st b
        rw [hstep] at hev
        obtain ⟨ec, hec, hecc⟩ := hcanc
        have htrade := matchStep_no_cancelled_trade sym st b oid t0 st1 b1 hwf
          ⟨ec, hec, hecc⟩ hstep
        obtain ⟨hrest, hwf2, hcanc2⟩ := ih st1 b1 ts2 (hev.wf_mono hwf)
          (hev.cancelled_mono oid ec hec hecc) hrec
        refine ⟨?_, hwf2, hcanc2⟩
        intro t ht
        rcases List.mem_cons.mp ht with rfl | htail
        · exact htrade
        · exact hrest t htail

/-- Inversion of a successful cancel: the entry existed and is now
tombstoned in place. -/
theorem cancel_true_inv (b : OrderBook) (oid : Nat) (b1 : OrderBook)
    (hc : b.cancel oid = (true, b1)) :
    entriesWFb b.entries = true → entriesWFb b1.entries = true ∧
      (∃ e, lookupEntry b1.entries oid = some e ∧ e.cancelled = true) := by
  intro hwf
  unfold OrderBook.cancel at hc
  cases hl : lookupEntry b.entries oid with
  | none =>
    rw [hl] at hc
    have := congrArg Prod.fst hc
    simp at this
  | some e =>
    rw [hl] at hc
    have hb1 : b1 = { b with entries := adjustEntry b.entries oid (fun e => { e with cancelled := true }) } := by
      have := congrArg Prod.snd hc
      simpa using this.symm
    subst hb1
    refine ⟨entriesWFb_adjustEntry b.entries oid
      (fun e => { e with cancelled := true }) (fun e => rfl) hwf, ?_⟩
    refine ⟨{ e with cancelled := true }, ?_, rfl⟩
    show lookupEntry (adjustEntry b.entries oid (fun e => { e with cancelled := true })) oid = _
    rw [lookupEntry_adjustEntry]
    simp [hl]

/-- A sequence of later `match_all` invocations on the same book, each with
its own symbol, store state and fuel; collects all trades produced. -/
def runMatches : List (String × Nat × Store) → OrderBook → Option (List Trade × OrderBook)
  | [], b => some ([], b)
  | (sym, fuel, st) :: rest, b =>
    match matchAll sym fuel st b with
    | none => none
    | some (ts, _, b') =>
      match runMatches rest b' with
      | none => none
      | some (ts2, b2) => some (ts ++ ts2, b2)

/-- C8: after `cancel(oid)` returns true, no subsequent `match_all` on that
book (any number of invocations, any store states) produces a trade whose
buy or sell side is `oid`. -/
theorem C8_cancel_safety (b : OrderBook) (oid : Nat) (b1 : OrderBook)
    (runs : List (String × Nat × Store)) (ts : List Trade) (b2 : OrderBook)
    (hwf : entriesWFb b.entries = true)
    (hc : b.cancel oid = (true, b1))
    (hrun : runMatches runs b1 = some (ts, b2)) :
    ∀ t ∈ ts, t.buy_order_id ≠ oid ∧ t.sell_order_id ≠ oid := by
  obtain ⟨hwf1, hcanc1⟩ := cancel_true_inv b oid b1 hc hwf
  clear hc hwf
  induction runs generalizing b1 ts with
  | nil =>
    obtain ⟨rfl, rfl⟩ : ts = [] ∧ b1 = b2 := by simpa [runMatches] using hrun
    simp
  | cons run rest ih =>
    obtain ⟨sym, fuel, st⟩ := run
    unfold runMatches at hrun
    cases hm : matchAll sym fuel st b1 with
    | none =>
      simp only [hm] at hrun
      exact Option.noConfusion hrun
    | some r =>
      obtain ⟨ts1, st1, bk1⟩ := r
      simp only [hm] at hrun
      cases hr : runMatches rest bk1 with
      | none =>
        simp only [hr] at hrun
        exact Option.noConfusion hrun
      | some r2 =>
        simp only [hr] at hrun
        obtain ⟨ts2, bk2⟩ := r2
        obtain ⟨rfl, rfl⟩ : ts1 ++ ts2 = ts ∧ bk2 = b2 := by simpa using hrun
        obtain ⟨hts1, hwfk, hcanck⟩ :=
          matchAll_cancel_safe sym fuel st b1 oid ts1 st1 bk1 hwf1 hcanc1 hm
        intro t ht
        rcases List.mem_append.mp ht with h1 | h2
        · exact hts1 t h1
        · exact ih bk1 ts2 hr hwfk hcanck t h2

/-- C8 witness state: a book holding SELL id 1 @100, SELL id 2 @105 and
BUY id 3 @120, with matching store rows (row 1 already CANCELLED). -/
def c8Book : OrderBook :=
  { bids := [(-120, 3, 3)], asks := [(100, 1, 1), (105, 2, 2)],
    entries :=
      [(1,
        { order_id := 1, side := Side.SELL, price := 100,
          remaining := 5, seq := 1, cancelled := false }),
       (2,
        { order_id := 2, side := Side.SELL, price := 105,
          remaining := 4, seq := 2, cancelled := false }),
       (3,
        { order_id := 3, side := Side.BUY, price := 120,
          remaining := 3, seq := 3, cancelled := false })],
    seq_counter := 3 }

def c8Store : Store :=
  { orders :=
      [{ id := 1, symbol := "A", side := Side.SELL, price := some 100, quantity := 5,
         filled_quantity := 0, status := Status.CANCELLED, created_at := 1 },
       { id := 2, symbol := "A", side := Side.SELL, price := some 105, quantity := 4,
         filled_quantity := 0, status := Status.NEW, created_at := 2 },
       { id := 3, symbol := "A", side := Side.BUY, price := some 120, quantity := 3,
         filled_quantity := 0, status := Status.NEW, created_at := 3 }],
    trades := [], nextOrderId := 4, nextTradeId := 1 }

/-- `c8Book` after `cancel 1`. -/
def c8BookCancelled : OrderBook :=
  { bids := [(-120, 3, 3)], asks := [(100, 1, 1), (105, 2, 2)],
    entries :=
      [(1,
        { order_id := 1, side := Side.SELL, price := 100,
          remaining := 5, seq := 1, cancelled := true }),
       (2,
        { order_id := 2, side := Side.SELL, price := 105,
          remaining := 4, seq := 2, cancelled := false }),
       (3,
        { order_id := 3, side := Side.BUY, price := 120,
          remaining := 3, seq := 3, cancelled := false })],
    seq_counter := 3 }

/-- The trade the run produces: order 3 against order 2, skipping the
tombstoned order 1. -/
def c8Trade : Trade :=
  { id := 1, buy_order_id := 3, sell_order_id := 2, symbol := "A",
    price := 105, quantity := 3 }

/-- The book after the run. -/
def c8FinalBook : OrderBook :=
  { bids := [], asks := [(105, 2, 2)],
    entries :=
      [(1,
        { order_id := 1, side := Side.SELL, price := 100,
          remaining := 5, seq := 1, cancelled := true }),
       (2,
        { order_id := 2, side := Side.SELL, price := 105,
          remaining := 1, seq := 2, cancelled := false }),
       (3,
        { order_id := 3, side := Side.BUY, price := 120,
          remaining := 0, seq := 3, cancelled := false })],
    seq_counter := 3 }

/-- Witness for C8: cancelling order 1 and then running `match_all` trades
order 3 against order 2 only — no trade references order 1. -/
theorem C8_witness :
    entriesWFb c8Book.entries = true ∧
    c8Book.cancel 1 = (true, c8BookCancelled) ∧
    runMatches [("A", 5, c8Store)] c8BookCancelled = some ([c8Trade], c8FinalBook) ∧
    (∀ t ∈ [c8Trade], t.buy_order_id ≠ 1 ∧ t.sell_order_id ≠ 1) :=
  ⟨by decide, by decide, by decide,
    C8_cancel_safety c8Book 1 c8BookCancelled [("A", 5, c8Store)] [c8Trade] c8FinalBook
      (by decide) (by decide) (by decide)⟩

/-! ### The reachable-state invariant shared by C1 and C3 -/

/-- Sum of the quantities of all trades referencing order `oid` on either
side. -/
def tradeSum (ts : List Trade) (oid : Nat) : Int :=
  ((ts.filter (fun t => t.buy_order_id == oid || t.sell_order_id == oid)).map
    (fun t => t.quantity)).sum

/-- The §3 status/filled-quantity invariant of one order row ("unless
cancelled"). -/
def statusConsistent (r : Order) : Prop :=
  r.status = Status.CANCELLED ∨
    ((r.status = Status.FILLED ↔ r.filled_quantity = r.quantity) ∧
     (r.status = Status.PARTIAL ↔ (0 < r.filled_quantity ∧ r.filled_quantity < r.quantity)) ∧
     (r.status = Status.NEW ↔ r.filled_quantity = 0))

/-- Consistency of the store: unique primary keys below the autoincrement
counter, positive quantities, the §3 status invariants, the fill/trade-sum
accounting identity, and trades referencing two distinct existing rows. -/
structure SInv (st : Store) : Prop where
  nodup : (st.orders.map (fun r => r.id)).Nodup
  idBound : ∀ r ∈ st.orders, r.id < st.nextOrderId
  qtyPos : ∀ r ∈ st.orders, 0 < r.quantity
  filledRange : ∀ r ∈ st.orders, 0 ≤ r.filled_quantity ∧ r.filled_quantity ≤ r.quantity
  statusOk : ∀ r ∈ st.orders, statusConsistent r
  fillSum : ∀ r ∈ st.orders, r.filled_quantity = tradeSum st.trades r.id
  tradeRefs : ∀ t ∈ st.trades, t.buy_order_id ≠ t.sell_order_id ∧
      (∃ r ∈ st.orders, r.id = t.buy_order_id) ∧ (∃ r ∈ st.orders, r.id = t.sell_order_id)

/-- Structural consistency of one book against the store: entries carry
their key as `order_id`, remainings are non-negative and bounded by the
residual of the row, every queue key resolves to an entry with matching
price and sequence, the two queues hold disjoint id sets, both queues are
sorted by their key order, sequence numbers never exceed the counter, and
all registered ids are below the store's autoincrement counter. -/
structure BInv (st : Store) (b : OrderBook) : Prop where
  wf : entriesWFb b.entries = true
  remNonneg : ∀ oid e, lookupEntry b.entries oid = some e → 0 ≤ e.remaining
  remBound : ∀ oid e r, lookupEntry b.entries oid = some e → st.getOrder oid = some r →
      e.remaining + r.filled_quantity ≤ r.quantity
  bidsReg : ∀ k ∈ b.bids, ∃ e, lookupEntry b.entries k.2.2 = some e ∧
      k.1 = -e.price ∧ k.2.1 = e.seq
  asksReg : ∀ k ∈ b.asks, ∃ e, lookupEntry b.entries k.2.2 = some e ∧
      k.1 = e.price ∧ k.2.1 = e.seq
  disj : ∀ k ∈ b.bids, ∀ k2 ∈ b.asks, k.2.2 ≠ k2.2.2
  bidsSorted : b.bids.Pairwise (fun a c => keyLt a c = true)
  asksSorted : b.asks.Pairwise (fun a c => keyLt a c = true)
  seqBound : ∀ k, (k ∈ b.bids ∨ k ∈ b.asks) → k.2.1 ≤ b.seq_counter
  idBound : ∀ oid, (lookupEntry b.entries oid).isSome = true → oid < st.nextOrderId

/-- The full reachable-state invariant: a consistent store, every
registered book consistent against it, and no order id resident in two
different symbols' books. -/
structure Inv (st : Store) (eng : MatchingEngine) : Prop where
  sinv : SInv st
  binv : ∀ p ∈ eng.books, BInv st p.2
  cross : ∀ p1 ∈ eng.books, ∀ p2 ∈ eng.books, p1.1 ≠ p2.1 →
      ∀ oid, (lookupEntry p1.2.entries oid).isSome = true →
        (lookupEntry p2.2.entries oid).isSome = true → False

theorem tradeSum_append (ts : List Trade) (t : Trade) (oid : Nat) :
    tradeSum (ts ++ [t]) oid = tradeSum ts oid +
      (if t.buy_order_id = oid ∨ t.sell_order_id = oid then t.quantity else 0) := by
  unfold tradeSum
  rw [List.filter_append]
  by_cases h : t.buy_order_id = oid ∨ t.sell_order_id = oid
  · have hb : (t.buy_order_id == oid || t.sell_order_id == oid) = true := by
      rcases h with h | h <;> simp [h]
    simp [List.filter, hb, h]
  · have hb : (t.buy_order_id == oid || t.sell_order_id == oid) = false := by
      push_neg at h
      simp [h.1, h.2]
    simp [List.filter, hb, h]

/-- The peek loop returns a suffix of its input heap. -/
theorem topValid_suffix (es : Entries) (h : List Key) :
    ∃ l, l ++ (topValid es h).2 = h := by
  induction h with
  | nil => exact ⟨[], rfl⟩
  | cons k rest ih =>
    unfold topValid
    cases hl : lookupEntry es k.2.2 with
    | none =>
      obtain ⟨l, hlapp⟩ := ih
      exact ⟨k :: l, by simp [hlapp]⟩
    | some e =>
      by_cases hv : (e.cancelled || decide (e.remaining ≤ 0)) = true
      · simp only []
        rw [if_pos hv]
        obtain ⟨l, hlapp⟩ := ih
        exact ⟨k :: l, by simp [hlapp]⟩
      · simp only []
        rw [if_neg hv]
        exact ⟨[], rfl⟩

theorem suffix_pairwise {α : Type} {P : α → α → Prop} {l l2 : List α}
    (h : ∃ l1, l1 ++ l2 = l) (hp : l.Pairwise P) : l2.Pairwise P := by
  obtain ⟨l1, rfl⟩ := h
  exact (List.pairwise_append.mp hp).2.1

theorem suffix_subset {α : Type} {l l2 : List α} (h : ∃ l1, l1 ++ l2 = l) :
    ∀ a ∈ l2, a ∈ l := by
  obtain ⟨l1, rfl⟩ := h
  intro a ha
  exact List.mem_append.mpr (Or.inr ha)

/-- Peeking both tops preserves the book invariant (heaps only lose stale
prefixes; entries are untouched). -/
theorem BInv_peek (st : Store) (b : OrderBook) (hB : BInv st b) :
    BInv st b.topValidBid.2.topValidAsk.2 := by
  have hbids : ∃ l, l ++ b.topValidBid.2.topValidAsk.2.bids = b.bids :=
    topValid_suffix b.entries b.bids
  have hasks : ∃ l, l ++ b.topValidBid.2.topValidAsk.2.asks = b.asks :=
    topValid_suffix b.entries b.topValidBid.2.asks
  have hes : b.topValidBid.2.topValidAsk.2.entries = b.entries := rfl
  have hseq : b.topValidBid.2.topValidAsk.2.seq_counter = b.seq_counter := rfl
  refine ⟨?_, ?_, ?_, ?_, ?_, ?_, ?_, ?_, ?_, ?_⟩
  · rw [hes]; exact hB.wf
  · rw [hes]; exact hB.remNonneg
  · rw [hes]; exact hB.remBound
  · intro k hk
    rw [hes]
    exact hB.bidsReg k (suffix_subset hbids k hk)
  · intro k hk
    rw [hes]
    exact hB.asksReg k (suffix_subset hasks k hk)
  · intro k hk k2 hk2
    exact hB.disj k (suffix_subset hbids k hk) k2 (suffix_subset hasks k2 hk2)
  · exact suffix_pairwise hbids hB.bidsSorted
  · exact suffix_pairwise hasks hB.asksSorted
  · intro k hk
    rw [hseq]
    rcases hk with hk | hk
    · exact hB.seqBound k (Or.inl (suffix_subset hbids k hk))
    · exact hB.seqBound k (Or.inr (suffix_subset hasks k hk))
  · rw [hes]; exact hB.idBound

theorem lookupEntry_adjustEntry_isSome (es : Entries) (oid oid' : Nat)
    (f : BookEntry → BookEntry) :
    (lookupEntry (adjustEntry es oid f) oid').isSome = (lookupEntry es oid').isSome := by
  rw [lookupEntry_adjustEntry]
  by_cases h : oid' = oid
  · simp only [h, if_true]
    cases lookupEntry es oid <;> simp
  · simp [h]

theorem EntriesEvolve.isSome_eq {es es' : Entries} (h : EntriesEvolve es es') (oid : Nat) :
    (lookupEntry es' oid).isSome = (lookupEntry es oid).isSome := by
  induction h with
  | refl => rfl
  | step es1 oid' f hf hid hpr hsq prev ih => rw [lookupEntry_adjustEntry_isSome, ih]

/-- If the peek loop maps a heap to itself with a hit, the hit is the head
key's (valid) entry. -/
theorem topValid_self_inv (es : Entries) (h : List Key) (e : BookEntry)
    (heq : topValid es h = (some e, h)) :
    ∃ k rest, h = k :: rest ∧ lookupEntry es k.2.2 = some e ∧
      e.cancelled = false ∧ ¬ e.remaining ≤ 0 := by
  cases h with
  | nil => exact absurd (congrArg Prod.fst heq) (by simp [topValid])
  | cons k rest =>
    unfold topValid at heq
    cases hl : lookupEntry es k.2.2 with
    | none =>
      rw [hl] at heq
      simp only [] at heq
      obtain ⟨l, hlapp⟩ := topValid_suffix es rest
      rw [heq] at hlapp
      have := congrArg List.length hlapp
      simp at this
      omega
    | some e0 =>
      rw [hl] at heq
      simp only [] at heq
      by_cases hv : (e0.cancelled || decide (e0.remaining ≤ 0)) = true
      · rw [if_pos hv] at heq
        obtain ⟨l, hlapp⟩ := topValid_suffix es rest
        rw [heq] at hlapp
        have := congrArg List.length hlapp
        simp at this
        omega
      · rw [if_neg hv] at heq
        obtain rfl : e0 = e := by simpa using congrArg Prod.fst heq
        simp only [Bool.or_eq_true, decide_eq_true_eq] at hv
        push_neg at hv
        exact ⟨k, rest, rfl, hl, by simpa using hv.1, by omega⟩

/-- The row transformation the trade branch applies to the whole table. -/
def tradeRowUpd (bId sId : Nat) (qty : Int) (r : Order) : Order :=
  if r.id = bId then updStatus (updFill qty r)
  else if r.id = sId then updStatus (updFill qty r)
  else r

theorem updFill_id (qty : Int) (r : Order) : (updFill qty r).id = r.id := rfl

theorem updStatus_id (r : Order) : (updStatus r).id = r.id := rfl

theorem trade_orders_eq (st : Store) (bId sId : Nat) (qty : Int) (hne : bId ≠ sId) :
    ((((st.adjustOrder bId (updFill qty)).adjustOrder sId (updFill qty)).adjustOrder
      bId updStatus).adjustOrder sId updStatus).orders =
      st.orders.map (tradeRowUpd bId sId qty) := by
  show ((((st.orders.map _).map _).map _).map _) = _
  rw [List.map_map, List.map_map, List.map_map]
  apply List.map_congr_left
  intro r _
  simp only [Function.comp]
  by_cases hb : r.id = bId
  · have hs : ¬ r.id = sId := fun hc => hne (by rw [← hb, hc])
    have hbb : (r.id == bId) = true := by simpa using hb
    have hsb : (r.id == sId) = false := by simpa using hs
    simp only [hbb, hsb, if_true, Bool.false_eq_true, if_false, updFill_id, updStatus_id]
    unfold tradeRowUpd
    simp [hb]
  · have hbb : (r.id == bId) = false := by simpa using hb
    by_cases hs : r.id = sId
    · have hsb : (r.id == sId) = true := by simpa using hs
      simp only [hbb, hsb, if_true, Bool.false_eq_true, if_false,
        updFill_id, updStatus_id]
      unfold tradeRowUpd
      simp [hb, hs]
    · have hsb : (r.id == sId) = false := by simpa using hs
      simp only [hbb, hsb, Bool.false_eq_true, if_false]
      unfold tradeRowUpd
      simp [hb, hs]

theorem tradeRowUpd_id (bId sId : Nat) (qty : Int) (r : Order) :
    (tradeRowUpd bId sId qty r).id = r.id := by
  unfold tradeRowUpd updStatus updFill
  by_cases hb : r.id = bId
  · simp [hb]
  · by_cases hs : r.id = sId <;> simp [hb, hs]

theorem getOrder_trade_update (st : Store) (bId sId : Nat) (qty : Int) (hne : bId ≠ sId)
    (oid : Nat) :
    ((((st.adjustOrder bId (updFill qty)).adjustOrder sId (updFill qty)).adjustOrder
      bId updStatus).adjustOrder sId updStatus).getOrder oid =
      (st.getOrder oid).map (tradeRowUpd bId sId qty) := by
  have h1 : ∀ r : Order, (updFill qty r).id = r.id := fun r => rfl
  have h2 : ∀ r : Order, (updStatus r).id = r.id := fun r => rfl
  rw [getOrder_adjustOrder _ _ _ _ h2, getOrder_adjustOrder _ _ _ _ h2,
    getOrder_adjustOrder _ _ _ _ h1, getOrder_adjustOrder _ _ _ _ h1]
  by_cases hb : oid = bId
  · have hs : ¬ oid = sId := fun hc => hne (hb ▸ hc ▸ rfl)
    simp only [hb, hs, if_true, if_false]
    cases hg : st.getOrder bId with
    | none => simp
    | some r =>
      have : tradeRowUpd bId sId qty r = updStatus (updFill qty r) := by
        have hid : r.id = bId := by simpa using List.find?_some hg
        unfold tradeRowUpd
        simp [hid]
      simp [this, hne, Ne.symm hne]
  · by_cases hs : oid = sId
    · simp only [hb, hs, if_true, if_false]
      cases hg : st.getOrder sId with
      | none => simp
      | some r =>
        have hid : r.id = sId := by simpa using List.find?_some hg
        have : tradeRowUpd bId sId qty r = updStatus (updFill qty r) := by
          unfold tradeRowUpd
          have hrb : ¬ r.id = bId := by
            intro hc
            rw [hc] at hid
            exact hne hid
          simp [hrb, hid]
        simp [this, hne, Ne.symm hne]
    · simp only [hb, hs, if_false]
      cases hg : st.getOrder oid with
      | none => simp
      | some r =>
        have hid : r.id = oid := by simpa using List.find?_some hg
        have : tradeRowUpd bId sId qty r = r := by
          unfold tradeRowUpd
          rw [hid]
          simp [hb, hs]
        simp [this, hne, Ne.symm hne]

/-- The entry map evolution never changes an entry's identity fields: any
surviving binding keeps its `order_id`, `price` and `seq`. -/
theorem EntriesEvolve.fields {es es' : Entries} (h : EntriesEvolve es es') (oid : Nat)
    (e' : BookEntry) (he' : lookupEntry es' oid = some e') :
    ∃ e, lookupEntry es oid = some e ∧ e'.order_id = e.order_id ∧
      e'.price = e.price ∧ e'.seq = e.seq := by
  induction h generalizing e' with
  | refl => exact ⟨e', he', rfl, rfl, rfl⟩
  | step es1 oid' f hf hid hpr hsq prev ih =>
    rw [lookupEntry_adjustEntry] at he'
    by_cases hb : oid = oid'
    · rw [if_pos hb] at he'
      cases hl : lookupEntry es1 oid with
      | none => rw [hl] at he'; exact Option.noConfusion he'
      | some e1 =>
        rw [hl] at he'
        obtain rfl : f e1 = e' := by simpa using he'
        obtain ⟨e0, he0, h1, h2, h3⟩ := ih e1 hl
        exact ⟨e0, he0, by rw [hid, h1], by rw [hpr, h2], by rw [hsq, h3]⟩
    · rw [if_neg hb] at he'
      exact ih e' he'

/-- A row found by primary key is a member of the table. -/
theorem getOrder_mem (st : Store) (oid : Nat) (r : Order)
    (h : st.getOrder oid = some r) : r ∈ st.orders ∧ r.id = oid :=
  ⟨List.mem_of_find?_eq_some h, by simpa using List.find?_some h⟩

/-- With unique keys, `find?` by a member's id returns that member. -/
theorem find?_of_mem_nodup (l : List Order) (hnodup : (l.map (fun r => r.id)).Nodup)
    (r : Order) (hr : r ∈ l) : l.find? (fun x => x.id == r.id) = some r := by
  induction l with
  | nil => exact absurd hr (by simp)
  | cons a t ih =>
    rw [List.map_cons, List.nodup_cons] at hnodup
    rcases List.mem_cons.mp hr with rfl | hrl
    · simp [List.find?]
    · have hne : ¬ a.id = r.id := by
        intro hc
        exact hnodup.1 (hc ▸ List.mem_map_of_mem _ hrl)
      have hb : (a.id == r.id) = false := by simpa using hne
      simp only [List.find?, hb]
      exact ih hnodup.2 hrl

/-- With unique primary keys, lookup by a member's id returns that member. -/
theorem getOrder_of_mem (st : Store) (hnodup : (st.orders.map (fun r => r.id)).Nodup)
    (r : Order) (hr : r ∈ st.orders) : st.getOrder r.id = some r :=
  find?_of_mem_nodup st.orders hnodup r hr

/-- Deriving a book invariant for a state whose entries evolved (identity
fields kept), whose heaps only lost their heads, whose counter is unchanged
and whose store kept its id layout; the remaining-quantity conditions are
supplied by the caller. -/
theorem BInv_piecewise (st st' : Store) (b b' : OrderBook) (hB : BInv st b)
    (hev : EntriesEvolve b.entries b'.entries)
    (hbids : b'.bids = b.bids ∨ b'.bids = b.bids.tail)
    (hasks : b'.asks = b.asks ∨ b'.asks = b.asks.tail)
    (hseq : b'.seq_counter = b.seq_counter)
    (hnext : st'.nextOrderId = st.nextOrderId)
    (hrem : ∀ oid e, lookupEntry b'.entries oid = some e → 0 ≤ e.remaining ∧
      ∀ r, st'.getOrder oid = some r → e.remaining + r.filled_quantity ≤ r.quantity) :
    BInv st' b' := by
  have hsubB : ∀ k ∈ b'.bids, k ∈ b.bids := by
    rcases hbids with h | h <;> rw [h] <;> intro k hk
    · exact hk
    · exact List.mem_of_mem_tail hk
  have hsubA : ∀ k ∈ b'.asks, k ∈ b.asks := by
    rcases hasks with h | h <;> rw [h] <;> intro k hk
    · exact hk
    · exact List.mem_of_mem_tail hk
  have hreg : ∀ koid e0, lookupEntry b.entries koid = some e0 →
      ∃ e, lookupEntry b'.entries koid = some e ∧ e.price = e0.price ∧ e.seq = e0.seq := by
    intro koid e0 h0
    have hsome : (lookupEntry b'.entries koid).isSome = true := by
      rw [hev.isSome_eq, h0]
      rfl
    rcases Option.isSome_iff_exists.mp hsome with ⟨e, he⟩
    obtain ⟨e1, he1, _, hp, hs⟩ := hev.fields koid e he
    rw [h0] at he1
    obtain rfl : e0 = e1 := by simpa using he1
    exact ⟨e, he, hp, hs⟩
  refine ⟨hev.wf_mono hB.wf, ?_, ?_, ?_, ?_, ?_, ?_, ?_, ?_, ?_⟩
  · intro oid e he
    exact (hrem oid e he).1
  · intro oid e r he hr
    exact (hrem oid e he).2 r hr
  · intro k hk
    obtain ⟨e0, he0, h1, h2⟩ := hB.bidsReg k (hsubB k hk)
    obtain ⟨e, he, hp, hs⟩ := hreg _ _ he0
    exact ⟨e, he, by rw [hp, h1], by rw [hs, h2]⟩
  · intro k hk
    obtain ⟨e0, he0, h1, h2⟩ := hB.asksReg k (hsubA k hk)
    obtain ⟨e, he, hp, hs⟩ := hreg _ _ he0
    exact ⟨e, he, by rw [hp, h1], by rw [hs, h2]⟩
  · intro k hk k2 hk2
    exact hB.disj k (hsubB k hk) k2 (hsubA k2 hk2)
  · rcases hbids with h | h <;> rw [h]
    · exact hB.bidsSorted
    · exact List.Pairwise.sublist (List.tail_sublist _) hB.bidsSorted
  · rcases hasks with h | h <;> rw [h]
    · exact hB.asksSorted
    · exact List.Pairwise.sublist (List.tail_sublist _) hB.asksSorted
  · intro k hk
    rw [hseq]
    rcases hk with hk | hk
    · exact hB.seqBound k (Or.inl (hsubB k hk))
    · exact hB.seqBound k (Or.inr (hsubA k hk))
  · intro oid hs
    rw [hev.isSome_eq] at hs
    rw [hnext]
    exact hB.idBound oid hs

/-! ### C5: the `add` contract -/

/-- A LIMIT order with a non-positive price: the spec's precondition
`order.price > 0` is violated. -/
def negPriceOrder : Order :=
  { id := 1, symbol := "A", side := Side.SELL, price := some (-5), quantity := 3,
    filled_quantity := 0, status := Status.NEW, created_at := 0 }

/-- C5, counterexample: `add` accepts `negPriceOrder` (price −5 ≤ 0) and
inserts a resting entry for it, instead of failing with an InvalidOrder
error as the claim requires. -/
theorem C5_counterexample :
    negPriceOrder.price = some (-5) ∧ (-5 : Int) ≤ 0 ∧
    (OrderBook.empty.add negPriceOrder).isSome = true ∧
    (OrderBook.empty.add negPriceOrder).map
      (fun b' => (lookupEntry b'.entries 1).isSome) = some true := by
  refine ⟨rfl, by decide, ?_, ?_⟩ <;> rfl

/-- C5 (amended): `add` raises only when `order.price` is `None`; when the
price is present and `quantity - filled_quantity ≤ 0` it silently leaves the
book unchanged; otherwise it inserts a resting entry (registered in the
id → entry map with `remaining = quantity - filled_quantity`, the next
sequence number and one new priority-queue key).  No validation of the
price sign or of `filled_quantity ≥ 0` is performed. -/
theorem C5_add_contract (b : OrderBook) (o : Order) :
    (o.price = none → b.add o = none) ∧
    (∀ p : Int, o.price = some p → o.quantity - o.filled_quantity ≤ 0 →
      b.add o = some b) ∧
    (∀ p : Int, o.price = some p → 0 < o.quantity - o.filled_quantity →
      (b.add o).map (fun b' => lookupEntry b'.entries o.id) =
        some (some
          { order_id := o.id, side := o.side, price := p,
            remaining := o.quantity - o.filled_quantity, seq := b.seq_counter + 1,
            cancelled := false }) ∧
      (b.add o).map (fun b' => b'.seq_counter) = some (b.seq_counter + 1) ∧
      (b.add o).map (fun b' => b'.bids.length + b'.asks.length) =
        some (b.bids.length + b.asks.length + 1)) := by
  refine ⟨?_, ?_, ?_⟩
  · intro hp
    simp [OrderBook.add, hp]
  · intro p hp hle
    simp [OrderBook.add, hp, hle]
  · intro p hp hpos
    have hle : ¬ (o.quantity - o.filled_quantity ≤ 0) := by omega
    cases hs : o.side <;>
      simp [OrderBook.add, hp, hle, hs, lookupEntry_setEntry, heappush_length] <;>
      omega

/-- Witness for the amended C5 contract at a concrete input. -/
theorem C5_witness :
    buyOrder7.price = some 10 ∧
    (0 : Int) < buyOrder7.quantity - buyOrder7.filled_quantity ∧
    ((OrderBook.empty.add buyOrder7).map (fun b' => lookupEntry b'.entries buyOrder7.id) =
      some (some
        { order_id := buyOrder7.id, side := buyOrder7.side, price := 10,
          remaining := buyOrder7.quantity - buyOrder7.filled_quantity,
          seq := OrderBook.empty.seq_counter + 1, cancelled := false }) ∧
    (OrderBook.empty.add buyOrder7).map (fun b' => b'.seq_counter) =
      some (OrderBook.empty.seq_counter + 1) ∧
    (OrderBook.empty.add buyOrder7).map (fun b' => b'.bids.length + b'.asks.length) =
      some (OrderBook.empty.bids.length + OrderBook.empty.asks.length + 1)) :=
  ⟨rfl, by decide, (C5_add_contract OrderBook.empty buyOrder7).2.2 10 rfl (by decide)⟩


/-! ### Invariant preservation through the loop body -/

theorem tradeRowUpd_quantity (bId sId : Nat) (qty : Int) (r : Order) :
    (tradeRowUpd bId sId qty r).quantity = r.quantity := by
  unfold tradeRowUpd updStatus updFill
  by_cases hb : r.id = bId
  · simp [hb]
  · by_cases hs : r.id = sId <;> simp [hb, hs]

theorem tradeRowUpd_buy (bId sId : Nat) (qty : Int) (r : Order) (hb : r.id = bId) :
    tradeRowUpd bId sId qty r = updStatus (updFill qty r) := by
  unfold tradeRowUpd
  simp [hb]

theorem tradeRowUpd_sell (bId sId : Nat) (qty : Int) (r : Order) (hb : ¬ r.id = bId)
    (hs : r.id = sId) : tradeRowUpd bId sId qty r = updStatus (updFill qty r) := by
  unfold tradeRowUpd
  simp [hb, hs]

theorem tradeRowUpd_other (bId sId : Nat) (qty : Int) (r : Order) (hb : ¬ r.id = bId)
    (hs : ¬ r.id = sId) : tradeRowUpd bId sId qty r = r := by
  unfold tradeRowUpd
  simp [hb, hs]

theorem updFS_filled (qty : Int) (r : Order) :
    (updStatus (updFill qty r)).filled_quantity = r.filled_quantity + qty := rfl

theorem updFS_quantity (qty : Int) (r : Order) :
    (updStatus (updFill qty r)).quantity = r.quantity := rfl

theorem updFS_status (qty : Int) (r : Order) :
    (updStatus (updFill qty r)).status =
      if r.filled_quantity + qty ≥ r.quantity then Status.FILLED else Status.PARTIAL := rfl

/-- With unique primary keys, two members with the same id coincide. -/
theorem mem_id_unique (l : List Order) (hnodup : (l.map (fun r => r.id)).Nodup)
    (r1 r2 : Order) (h1 : r1 ∈ l) (h2 : r2 ∈ l) (hid : r1.id = r2.id) : r1 = r2 := by
  have e1 := find?_of_mem_nodup l hnodup r1 h1
  have e2 := find?_of_mem_nodup l hnodup r2 h2
  rw [hid] at e1
  rw [e1] at e2
  exact Option.some_inj.mp e2

/-- The updated row of a trade participant satisfies the §3 status
invariant. -/
theorem statusConsistent_upd (qty : Int) (r : Order) (h0 : 0 ≤ r.filled_quantity)
    (hq : 0 < qty) (hb : r.filled_quantity + qty ≤ r.quantity) :
    statusConsistent (updStatus (updFill qty r)) := by
  unfold statusConsistent
  rw [updFS_status, updFS_filled, updFS_quantity]
  right
  by_cases hge : r.filled_quantity + qty ≥ r.quantity
  · rw [if_pos hge]
    refine ⟨?_, ?_, ?_⟩ <;> simp <;> omega
  · rw [if_neg hge]
    refine ⟨?_, ?_, ?_⟩ <;> simp <;> omega

/-- No trade references an order id outside the referenced set. -/
theorem tradeSum_zero_of_fresh (ts : List Trade) (oid : Nat)
    (h : ∀ t ∈ ts, t.buy_order_id ≠ oid ∧ t.sell_order_id ≠ oid) :
    tradeSum ts oid = 0 := by
  unfold tradeSum
  have hnil : ts.filter (fun t => t.buy_order_id == oid || t.sell_order_id == oid) = [] := by
    rw [List.filter_eq_nil_iff]
    intro t ht
    have hh := h t ht
    simp [hh.1, hh.2]
  rw [hnil]
  rfl

/-- The store produced by the trade branch: insert the trade row, bump the
autoincrement counter, then apply the four in-place row updates in source
order. -/
def tradeStore (sym : String) (st : Store) (bo so : Order) (price qty : Int) : Store :=
  let t : Trade :=
    { id := st.nextTradeId, buy_order_id := bo.id,
      sell_order_id := so.id, symbol := sym, price := price, quantity := qty }
  let st1 := { st with trades := st.trades ++ [t], nextTradeId := st.nextTradeId + 1 }
  (((st1.adjustOrder bo.id (updFill qty)).adjustOrder so.id
    (updFill qty)).adjustOrder bo.id updStatus).adjustOrder so.id updStatus

theorem tradeStore_orders (sym : String) (st : Store) (bo so : Order) (price qty : Int)
    (hne : bo.id ≠ so.id) :
    (tradeStore sym st bo so price qty).orders =
      st.orders.map (tradeRowUpd bo.id so.id qty) :=
  trade_orders_eq _ bo.id so.id qty hne

theorem tradeStore_getOrder (sym : String) (st : Store) (bo so : Order) (price qty : Int)
    (hne : bo.id ≠ so.id) (oid : Nat) :
    (tradeStore sym st bo so price qty).getOrder oid =
      (st.getOrder oid).map (tradeRowUpd bo.id so.id qty) :=
  getOrder_trade_update _ bo.id so.id qty hne oid

theorem tradeStore_trades (sym : String) (st : Store) (bo so : Order) (price qty : Int) :
    (tradeStore sym st bo so price qty).trades =
      st.trades ++
        [{ id := st.nextTradeId, buy_order_id := bo.id, sell_order_id := so.id,
           symbol := sym, price := price, quantity := qty }] := rfl

theorem tradeStore_nextOrderId (sym : String) (st : Store) (bo so : Order)
    (price qty : Int) :
    (tradeStore sym st bo so price qty).nextOrderId = st.nextOrderId := rfl

/-- The trade branch preserves store consistency. -/
theorem SInv_trade (sym : String) (st : Store) (hS : SInv st) (bo so : Order)
    (hbm : bo ∈ st.orders) (hsm : so ∈ st.orders) (hne : bo.id ≠ so.id)
    (price qty : Int) (hq : 0 < qty)
    (hbb : bo.filled_quantity + qty ≤ bo.quantity)
    (hsb : so.filled_quantity + qty ≤ so.quantity) :
    SInv (tradeStore sym st bo so price qty) := by
  have horders := tradeStore_orders sym st bo so price qty hne
  have htr := tradeStore_trades sym st bo so price qty
  refine ⟨?_, ?_, ?_, ?_, ?_, ?_, ?_⟩
  · rw [horders, List.map_map]
    have hmap : st.orders.map ((fun r => r.id) ∘ tradeRowUpd bo.id so.id qty) =
        st.orders.map (fun r => r.id) :=
      List.map_congr_left (fun r _ => by simp [Function.comp, tradeRowUpd_id])
    rw [hmap]
    exact hS.nodup
  · intro r hr
    rw [horders] at hr
    rcases List.mem_map.mp hr with ⟨r0, hr0, rfl⟩
    rw [tradeRowUpd_id, tradeStore_nextOrderId]
    exact hS.idBound r0 hr0
  · intro r hr
    rw [horders] at hr
    rcases List.mem_map.mp hr with ⟨r0, hr0, rfl⟩
    rw [tradeRowUpd_quantity]
    exact hS.qtyPos r0 hr0
  · intro r hr
    rw [horders] at hr
    rcases List.mem_map.mp hr with ⟨r0, hr0, rfl⟩
    by_cases hbi : r0.id = bo.id
    · obtain rfl : r0 = bo := mem_id_unique st.orders hS.nodup r0 bo hr0 hbm hbi
      rw [tradeRowUpd_buy _ _ _ _ rfl, updFS_filled, updFS_quantity]
      have hfr := hS.filledRange _ hbm
      omega
    · by_cases hsi : r0.id = so.id
      · obtain rfl : r0 = so := mem_id_unique st.orders hS.nodup r0 so hr0 hsm hsi
        rw [tradeRowUpd_sell _ _ _ _ hbi rfl, updFS_filled, updFS_quantity]
        have hfr := hS.filledRange _ hsm
        omega
      · rw [tradeRowUpd_other _ _ _ _ hbi hsi]
        exact hS.filledRange r0 hr0
  · intro r hr
    rw [horders] at hr
    rcases List.mem_map.mp hr with ⟨r0, hr0, rfl⟩
    by_cases hbi : r0.id = bo.id
    · obtain rfl : r0 = bo := mem_id_unique st.orders hS.nodup r0 bo hr0 hbm hbi
      rw [tradeRowUpd_buy _ _ _ _ rfl]
      exact statusConsistent_upd qty _ (hS.filledRange _ hbm).1 hq hbb
    · by_cases hsi : r0.id = so.id
      · obtain rfl : r0 = so := mem_id_unique st.orders hS.nodup r0 so hr0 hsm hsi
        rw [tradeRowUpd_sell _ _ _ _ hbi rfl]
        exact statusConsistent_upd qty _ (hS.filledRange _ hsm).1 hq hsb
      · rw [tradeRowUpd_other _ _ _ _ hbi hsi]
        exact hS.statusOk r0 hr0
  · intro r hr
    rw [horders] at hr
    rcases List.mem_map.mp hr with ⟨r0, hr0, rfl⟩
    rw [tradeRowUpd_id, htr, tradeSum_append]
    simp only []
    by_cases hbi : r0.id = bo.id
    · obtain rfl : r0 = bo := mem_id_unique st.orders hS.nodup r0 bo hr0 hbm hbi
      rw [tradeRowUpd_buy _ _ _ _ rfl, updFS_filled]
      rw [if_pos (Or.inl rfl)]
      have hfs := hS.fillSum _ hbm
      omega
    · by_cases hsi : r0.id = so.id
      · obtain rfl : r0 = so := mem_id_unique st.orders hS.nodup r0 so hr0 hsm hsi
        rw [tradeRowUpd_sell _ _ _ _ hbi rfl, updFS_filled]
        rw [if_pos (Or.inr rfl)]
        have hfs := hS.fillSum _ hsm
        omega
      · rw [tradeRowUpd_other _ _ _ _ hbi hsi]
        rw [if_neg ?_]
        · have hfs := hS.fillSum r0 hr0
          omega
        · rintro (hc | hc)
          · exact hbi hc.symm
          · exact hsi hc.symm
  · intro t' ht'
    rw [htr] at ht'
    rw [horders]
    rcases List.mem_append.mp ht' with hold | hnew
    · obtain ⟨hd, ⟨rb, hrb, hrbid⟩, ⟨rs, hrs, hrsid⟩⟩ := hS.tradeRefs t' hold
      refine ⟨hd, ⟨tradeRowUpd bo.id so.id qty rb, List.mem_map_of_mem _ hrb, ?_⟩,
        ⟨tradeRowUpd bo.id so.id qty rs, List.mem_map_of_mem _ hrs, ?_⟩⟩
      · rw [tradeRowUpd_id]; exact hrbid
      · rw [tradeRowUpd_id]; exact hrsid
    · obtain rfl : t' =
          { id := st.nextTradeId, buy_order_id := bo.id, sell_order_id := so.id,
            symbol := sym, price := price, quantity := qty } := by
        simpa using hnew
      refine ⟨hne, ⟨tradeRowUpd bo.id so.id qty bo, List.mem_map_of_mem _ hbm, ?_⟩,
        ⟨tradeRowUpd bo.id so.id qty so, List.mem_map_of_mem _ hsm, ?_⟩⟩
      · rw [tradeRowUpd_id]
      · rw [tradeRowUpd_id]

/-- Zeroing one entry's remaining preserves the book invariant. -/
theorem BInv_zero_entry (st : Store) (b : OrderBook) (oid0 : Nat)
    (hS : SInv st) (hB : BInv st b) :
    BInv st
      { b with entries :=
          adjustEntry b.entries oid0 (fun e => { e with remaining := 0 }) } := by
  refine BInv_piecewise st st b _ hB ?_ (Or.inl rfl) (Or.inl rfl) rfl rfl ?_
  · show EntriesEvolve b.entries
      (adjustEntry b.entries oid0 (fun e => { e with remaining := 0 }))
    exact EntriesEvolve.step _ _ _ _ (fun e h => h) (fun e => rfl) (fun e => rfl)
      (fun e => rfl) (EntriesEvolve.refl _)
  · intro oid e he
    rw [lookupEntry_adjustEntry] at he
    by_cases h0 : oid = oid0
    · rw [if_pos h0] at he
      cases hl : lookupEntry b.entries oid with
      | none => rw [hl] at he; exact Option.noConfusion he
      | some e0 =>
        rw [hl] at he
        obtain rfl : { e0 with remaining := 0 } = e := by simpa using he
        constructor
        · exact le_refl 0
        · intro r hr
          have hfr := hS.filledRange r (getOrder_mem st oid r hr).1
          show (0 : Int) + r.filled_quantity ≤ r.quantity
          omega
    · rw [if_neg h0] at he
      exact ⟨hB.remNonneg oid e he, fun r hr => hB.remBound oid e r he hr⟩

/-- Tombstoning one entry preserves the book invariant. -/
theorem BInv_cancel_entry (st : Store) (b : OrderBook) (oid0 : Nat) (hB : BInv st b) :
    BInv st
      { b with entries :=
          adjustEntry b.entries oid0 (fun e => { e with cancelled := true }) } := by
  refine BInv_piecewise st st b _ hB ?_ (Or.inl rfl) (Or.inl rfl) rfl rfl ?_
  · show EntriesEvolve b.entries
      (adjustEntry b.entries oid0 (fun e => { e with cancelled := true }))
    exact EntriesEvolve.step _ _ _ _ (fun e _ => rfl) (fun e => rfl) (fun e => rfl)
      (fun e => rfl) (EntriesEvolve.refl _)
  · intro oid e he
    rw [lookupEntry_adjustEntry] at he
    by_cases h0 : oid = oid0
    · rw [if_pos h0] at he
      cases hl : lookupEntry b.entries oid with
      | none => rw [hl] at he; exact Option.noConfusion he
      | some e0 =>
        rw [hl] at he
        obtain rfl : { e0 with cancelled := true } = e := by simpa using he
        exact ⟨hB.remNonneg oid e0 hl, fun r hr => hB.remBound oid e0 r hl hr⟩
    · rw [if_neg h0] at he
      exact ⟨hB.remNonneg oid e he, fun r hr => hB.remBound oid e r he hr⟩

/-- One loop-body execution from a stable peeked state preserves both
invariants, allocates no order ids, and leaves rows of orders not resident
in the book untouched. -/
theorem matchBody_preserve (sym : String) (st : Store) (b : OrderBook)
    (obid oask : Option BookEntry) (hS : SInv st) (hB : BInv st b)
    (hbid : b.topValidBid = (obid, b)) (hask : b.topValidAsk = (oask, b)) :
    SInv (matchBody sym st b obid oask).store ∧
    BInv (matchBody sym st b obid oask).store (matchBody sym st b obid oask).book ∧
    (matchBody sym st b obid oask).store.nextOrderId = st.nextOrderId ∧
    (∀ oid, (lookupEntry b.entries oid).isSome = false →
      (matchBody sym st b obid oask).store.getOrder oid = st.getOrder oid) := by
  cases obid with
  | none => exact ⟨hS, hB, rfl, fun _ _ => rfl⟩
  | some bid =>
    cases oask with
    | none => exact ⟨hS, hB, rfl, fun _ _ => rfl⟩
    | some ask =>
      have hbid1 : (topValid b.entries b.bids).1 = some bid := congrArg Prod.fst hbid
      have hbid2 : (topValid b.entries b.bids).2 = b.bids :=
        congrArg OrderBook.bids (congrArg Prod.snd hbid)
      have hbidfull : topValid b.entries b.bids = (some bid, b.bids) :=
        Prod.ext hbid1 hbid2
      have hask1 : (topValid b.entries b.asks).1 = some ask := congrArg Prod.fst hask
      have hask2 : (topValid b.entries b.asks).2 = b.asks :=
        congrArg OrderBook.asks (congrArg Prod.snd hask)
      have haskfull : topValid b.entries b.asks = (some ask, b.asks) :=
        Prod.ext hask1 hask2
      obtain ⟨kb, restb, hbcons, hlkb, hbc, hbr⟩ :=
        topValid_self_inv b.entries b.bids bid hbidfull
      obtain ⟨ka, resta, hacons, hlka, hac, har⟩ :=
        topValid_self_inv b.entries b.asks ask haskfull
      have hkbid : bid.order_id = kb.2.2 := entriesWFb_lookup _ hB.wf _ _ hlkb
      have hkaid : ask.order_id = ka.2.2 := entriesWFb_lookup _ hB.wf _ _ hlka
      have hlkb2 : lookupEntry b.entries bid.order_id = some bid := by
        rw [hkbid]; exact hlkb
      have hlka2 : lookupEntry b.entries ask.order_id = some ask := by
        rw [hkaid]; exact hlka
      have hneid : bid.order_id ≠ ask.order_id := by
        rw [hkbid, hkaid]
        exact hB.disj kb (by rw [hbcons]; exact List.mem_cons_self _ _)
          ka (by rw [hacons]; exact List.mem_cons_self _ _)
      unfold matchBody
      by_cases hcross : bid.price < ask.price
      · simp only [hcross, if_true]
        exact ⟨hS, hB, rfl, fun _ _ => rfl⟩
      · simp only [hcross, if_false]
        cases hgb : st.getOrder bid.order_id with
        | none =>
          exact ⟨hS, BInv_zero_entry st _ ask.order_id hS
            (BInv_zero_entry st b bid.order_id hS hB), rfl, fun _ _ => rfl⟩
        | some buyOrder =>
          cases hgs : st.getOrder ask.order_id with
          | none =>
            exact ⟨hS, BInv_zero_entry st _ ask.order_id hS
              (BInv_zero_entry st b bid.order_id hS hB), rfl, fun _ _ => rfl⟩
          | some sellOrder =>
            by_cases hbcanc : buyOrder.status = Status.CANCELLED
            · simp only [hbcanc, if_true, StepRes.store, StepRes.book]
              refine ⟨hS, BInv_cancel_entry st b bid.order_id hB, ?_, ?_⟩
              · first
                | rfl
                | trivial
              · first
                | exact fun _ _ => rfl
                | exact fun _ _ => True.intro
                | trivial
            · by_cases hscanc : sellOrder.status = Status.CANCELLED
              · simp only [hbcanc, hscanc, if_true, if_false, StepRes.store, StepRes.book]
                refine ⟨hS, BInv_cancel_entry st b ask.order_id hB, ?_, ?_⟩
                · first
                  | rfl
                  | trivial
                · first
                  | exact fun _ _ => rfl
                  | exact fun _ _ => True.intro
                  | trivial
              · simp only [hbcanc, hscanc, if_false, StepRes.store, StepRes.book]
                have hbuyid : buyOrder.id = bid.order_id := by
                  simpa using List.find?_some hgb
                have hsellid : sellOrder.id = ask.order_id := by
                  simpa using List.find?_some hgs
                have hbomem := (getOrder_mem st bid.order_id buyOrder hgb).1
                have hsomem := (getOrder_mem st ask.order_id sellOrder hgs).1
                have hneqid : buyOrder.id ≠ sellOrder.id := by
                  rw [hbuyid, hsellid]; exact hneid
                have hqpos : 0 < min bid.remaining ask.remaining :=
                  lt_min (by omega) (by omega)
                have hbbound : bid.remaining + buyOrder.filled_quantity ≤
                    buyOrder.quantity := hB.remBound bid.order_id bid buyOrder hlkb2 hgb
                have habound : ask.remaining + sellOrder.filled_quantity ≤
                    sellOrder.quantity := hB.remBound ask.order_id ask sellOrder hlka2 hgs
                have hbb : buyOrder.filled_quantity + min bid.remaining ask.remaining ≤
                    buyOrder.quantity := by
                  have hmin := min_le_left bid.remaining ask.remaining
                  omega
                have hsb : sellOrder.filled_quantity + min bid.remaining ask.remaining ≤
                    sellOrder.quantity := by
                  have hmin := min_le_right bid.remaining ask.remaining
                  omega
                have hSnew : SInv (tradeStore sym st buyOrder sellOrder ask.price
                    (min bid.remaining ask.remaining)) :=
                  SInv_trade sym st hS buyOrder sellOrder hbomem hsomem hneqid _ _
                    hqpos hbb hsb
                have hgetOrder : ∀ oid, (tradeStore sym st buyOrder sellOrder ask.price
                    (min bid.remaining ask.remaining)).getOrder oid =
                    (st.getOrder oid).map (tradeRowUpd buyOrder.id sellOrder.id
                      (min bid.remaining ask.remaining)) :=
                  fun oid => tradeStore_getOrder sym st buyOrder sellOrder _ _ hneqid oid
                have hev : EntriesEvolve b.entries
                    (adjustEntry (adjustEntry b.entries bid.order_id
                      (decRem (min bid.remaining ask.remaining)))
                      ask.order_id (decRem (min bid.remaining ask.remaining))) :=
                  EntriesEvolve.step _ _ _ _ (fun e h => h) (fun e => rfl) (fun e => rfl)
                    (fun e => rfl)
                    (EntriesEvolve.step _ _ _ _ (fun e h => h) (fun e => rfl)
                      (fun e => rfl) (fun e => rfl) (EntriesEvolve.refl _))
                have hrem : ∀ oid e, lookupEntry (adjustEntry (adjustEntry b.entries
                      bid.order_id (decRem (min bid.remaining ask.remaining)))
                      ask.order_id (decRem (min bid.remaining ask.remaining))) oid =
                      some e →
                    0 ≤ e.remaining ∧ ∀ r, (tradeStore sym st buyOrder sellOrder ask.price
                      (min bid.remaining ask.remaining)).getOrder oid = some r →
                      e.remaining + r.filled_quantity ≤ r.quantity := by
                  intro oid e he
                  rw [lookupEntry_adjustEntry] at he
                  by_cases haa : oid = ask.order_id
                  · rw [if_pos haa] at he
                    have hob : ¬ oid = bid.order_id := by
                      rw [haa]
                      intro hc
                      exact hneid hc.symm
                    rw [lookupEntry_adjustEntry, if_neg hob] at he
                    subst haa
                    rw [hlka2] at he
                    obtain rfl : decRem (min bid.remaining ask.remaining) ask = e := by
                      simpa using he
                    constructor
                    · show 0 ≤ ask.remaining - min bid.remaining ask.remaining
                      have hmin := min_le_right bid.remaining ask.remaining
                      omega
                    · intro r hr
                      rw [hgetOrder, hgs] at hr
                      obtain rfl : tradeRowUpd buyOrder.id sellOrder.id
                          (min bid.remaining ask.remaining) sellOrder = r := by
                        simpa using hr
                      have hns : ¬ sellOrder.id = buyOrder.id := fun hc => hneqid hc.symm
                      rw [tradeRowUpd_sell _ _ _ _ hns rfl, updFS_filled, updFS_quantity]
                      show ask.remaining - min bid.remaining ask.remaining +
                        (sellOrder.filled_quantity + min bid.remaining ask.remaining) ≤
                        sellOrder.quantity
                      omega
                  · rw [if_neg haa] at he
                    rw [lookupEntry_adjustEntry] at he
                    by_cases hba : oid = bid.order_id
                    · rw [if_pos hba] at he
                      subst hba
                      rw [hlkb2] at he
                      obtain rfl : decRem (min bid.remaining ask.remaining) bid = e := by
                        simpa using he
                      constructor
                      · show 0 ≤ bid.remaining - min bid.remaining ask.remaining
                        have hmin := min_le_left bid.remaining ask.remaining
                        omega
                      · intro r hr
                        rw [hgetOrder, hgb] at hr
                        obtain rfl : tradeRowUpd buyOrder.id sellOrder.id
                            (min bid.remaining ask.remaining) buyOrder = r := by
                          simpa using hr
                        rw [tradeRowUpd_buy _ _ _ _ rfl, updFS_filled, updFS_quantity]
                        show bid.remaining - min bid.remaining ask.remaining +
                          (buyOrder.filled_quantity + min bid.remaining ask.remaining) ≤
                          buyOrder.quantity
                        omega
                    · rw [if_neg hba] at he
                      refine ⟨hB.remNonneg oid e he, ?_⟩
                      intro r hr
                      rw [hgetOrder] at hr
                      cases hg0 : st.getOrder oid with
                      | none =>
                        rw [hg0] at hr
                        exact absurd hr (by simp)
                      | some r0 =>
                        rw [hg0] at hr
                        have hr0id : r0.id = oid := by simpa using List.find?_some hg0
                        obtain rfl : tradeRowUpd buyOrder.id sellOrder.id
                            (min bid.remaining ask.remaining) r0 = r := by
                          simpa using hr
                        have hnb : ¬ r0.id = buyOrder.id := by
                          rw [hr0id, hbuyid]
                          exact hba
                        have hns : ¬ r0.id = sellOrder.id := by
                          rw [hr0id, hsellid]
                          exact haa
                        rw [tradeRowUpd_other _ _ _ _ hnb hns]
                        exact hB.remBound oid e r0 he hg0
                have hkeep : ∀ oid, (lookupEntry b.entries oid).isSome = false →
                    (tradeStore sym st buyOrder sellOrder ask.price
                      (min bid.remaining ask.remaining)).getOrder oid =
                      st.getOrder oid := by
                  intro oid hno
                  rw [hgetOrder]
                  cases hg0 : st.getOrder oid with
                  | none => rfl
                  | some r0 =>
                    have hr0id : r0.id = oid := by simpa using List.find?_some hg0
                    have hnb : ¬ r0.id = buyOrder.id := by
                      rw [hr0id, hbuyid]
                      intro hc
                      rw [hc, hlkb2] at hno
                      exact Bool.noConfusion hno
                    have hns : ¬ r0.id = sellOrder.id := by
                      rw [hr0id, hsellid]
                      intro hc
                      rw [hc, hlka2] at hno
                      exact Bool.noConfusion hno
                    show some (tradeRowUpd buyOrder.id sellOrder.id
                      (min bid.remaining ask.remaining) r0) = some r0
                    rw [tradeRowUpd_other _ _ _ _ hnb hns]
                refine ⟨hSnew, ?_, rfl, hkeep⟩
                split <;> split <;>
                  refine BInv_piecewise st _ b _ hB hev ?_ ?_ rfl rfl hrem <;>
                  first
                  | exact Or.inl rfl
                  | exact Or.inr rfl

/-- Re-running the ask peek on the book left by the two peeks changes
nothing. -/
theorem peek_final_ask_self (b : OrderBook) :
    (b.topValidBid.2.topValidAsk.2).topValidAsk =
      (b.topValidBid.2.topValidAsk.1, b.topValidBid.2.topValidAsk.2) := by
  unfold OrderBook.topValidBid OrderBook.topValidAsk
  simp only [topValid_stable]

/-- One full loop iteration (peeks plus body) preserves both invariants. -/
theorem matchStep_preserve (sym : String) (st : Store) (b : OrderBook)
    (hS : SInv st) (hB : BInv st b) :
    SInv (matchStep sym st b).store ∧
    BInv (matchStep sym st b).store (matchStep sym st b).book ∧
    (matchStep sym st b).store.nextOrderId = st.nextOrderId ∧
    (∀ oid, (lookupEntry b.entries oid).isSome = false →
      (matchStep sym st b).store.getOrder oid = st.getOrder oid) := by
  rw [matchStep_eq]
  exact matchBody_preserve sym st b.topValidBid.2.topValidAsk.2 _ _ hS
    (BInv_peek st b hB) (peek_final_bid b) (peek_final_ask_self b)

/-- A full `match_all` run preserves both invariants, allocates no order
ids, and leaves rows of orders not resident in the book untouched. -/
theorem matchAll_preserve (sym : String) (fuel : Nat) (st : Store) (b : OrderBook)
    (ts : List Trade) (st' : Store) (b' : OrderBook) (hS : SInv st) (hB : BInv st b)
    (h : matchAll sym fuel st b = some (ts, st', b')) :
    SInv st' ∧ BInv st' b' ∧ st'.nextOrderId = st.nextOrderId ∧
    (∀ oid, (lookupEntry b.entries oid).isSome = false →
      st'.getOrder oid = st.getOrder oid) := by
  induction fuel generalizing st b ts with
  | zero => exact absurd h (by simp [matchAll])
  | succ fuel ih =>
    unfold matchAll at h
    cases hstep : matchStep sym st b with
    | done st1 b1 =>
      simp only [hstep] at h
      obtain ⟨rfl, rfl, rfl⟩ : ts = [] ∧ st1 = st' ∧ b1 = b' := by simpa using h
      have hp := matchStep_preserve sym st b hS hB
      rw [hstep] at hp
      exact hp
    | again st1 b1 =>
      simp only [hstep] at h
      have hp := matchStep_preserve sym st b hS hB
      rw [hstep] at hp
      have hev := matchStep_evolve sym st b
      rw [hstep] at hev
      simp only [StepRes.book] at hev
      obtain ⟨h1, h2, h3, h4⟩ := ih st1 b1 ts hp.1 hp.2.1 h
      refine ⟨h1, h2, by rw [h3]; exact hp.2.2.1, ?_⟩
      intro oid hno
      have hno1 : (lookupEntry b1.entries oid).isSome = false := by
        rw [hev.isSome_eq]; exact hno
      rw [h4 oid hno1]
      exact hp.2.2.2 oid hno
    | traded t0 st1 b1 =>
      simp only [hstep] at h
      cases hrec : matchAll sym fuel st1 b1 with
      | none =>
        simp only [hrec] at h
        exact Option.noConfusion h
      | some r =>
        simp only [hrec] at h
        obtain ⟨ts2, st2, b2⟩ := r
        obtain ⟨rfl, rfl, rfl⟩ : t0 :: ts2 = ts ∧ st2 = st' ∧ b2 = b' := by simpa using h
        have hp := matchStep_preserve sym st b hS hB
        rw [hstep] at hp
        have hev := matchStep_evolve sym st b
        rw [hstep] at hev
        simp only [StepRes.book] at hev
        obtain ⟨h1, h2, h3, h4⟩ := ih st1 b1 ts2 hp.1 hp.2.1 hrec
        refine ⟨h1, h2, by rw [h3]; exact hp.2.2.1, ?_⟩
        intro oid hno
        have hno1 : (lookupEntry b1.entries oid).isSome = false := by
          rw [hev.isSome_eq]; exact hno
        rw [h4 oid hno1]
        exact hp.2.2.2 oid hno

/-! ### Invariant preservation across the API operations -/

/-- The empty book is consistent against any store. -/
theorem BInv_empty (st : Store) : BInv st OrderBook.empty := by
  refine ⟨rfl, ?_, ?_, ?_, ?_, ?_, ?_, ?_, ?_, ?_⟩
  · intro oid e he
    exact absurd he (by simp [lookupEntry, OrderBook.empty])
  · intro oid e r he hr
    exact absurd he (by simp [lookupEntry, OrderBook.empty])
  · intro k hk
    exact absurd hk (by simp [OrderBook.empty])
  · intro k hk
    exact absurd hk (by simp [OrderBook.empty])
  · intro k hk
    exact absurd hk (by simp [OrderBook.empty])
  · exact List.Pairwise.nil
  · exact List.Pairwise.nil
  · intro k hk
    rcases hk with hk | hk <;> exact absurd hk (by simp [OrderBook.empty])
  · intro oid hs
    rw [show lookupEntry OrderBook.empty.entries oid = none from rfl] at hs
    exact Bool.noConfusion hs

/-- The empty store is consistent. -/
theorem SInv_empty : SInv Store.empty := by
  refine ⟨?_, ?_, ?_, ?_, ?_, ?_, ?_⟩ <;> simp [Store.empty]

/-- Finding the freshly appended row by its own id. -/
theorem find?_append_fresh (l : List Order) (o : Order)
    (hfresh : ∀ r ∈ l, r.id ≠ o.id) :
    (l ++ [o]).find? (fun r => r.id == o.id) = some o := by
  rw [List.find?_append]
  have hnone : l.find? (fun r => r.id == o.id) = none := by
    rw [List.find?_eq_none]
    intro r hr
    simp [hfresh r hr]
  rw [hnone]
  simp [List.find?]

/-- Finding any other id is unaffected by the appended row. -/
theorem find?_append_other (l : List Order) (o : Order) (oid : Nat)
    (hne : oid ≠ o.id) :
    (l ++ [o]).find? (fun r => r.id == oid) = l.find? (fun r => r.id == oid) := by
  rw [List.find?_append]
  have hb : (o.id == oid) = false := by
    simp
    exact fun hc => hne hc.symm
  have hnone : ([o]).find? (fun r => r.id == oid) = none := by
    simp [List.find?, hb]
  rw [hnone]
  cases l.find? (fun r => r.id == oid) <;> rfl

/-- `create_order` preserves store consistency and characterizes the
inserted row: fresh id, zero fill, NEW status, positive quantity; all other
rows and the trade table are untouched. -/
theorem createOrder_preserve (st : Store) (req : OrderCreate) (o : Order) (st1 : Store)
    (hS : SInv st) (h : createOrder st req = some (o, st1)) :
    SInv st1 ∧ o.id = st.nextOrderId ∧ st1.nextOrderId = st.nextOrderId + 1 ∧
    st1.trades = st.trades ∧
    o.filled_quantity = 0 ∧ 0 < o.quantity ∧ o.status = Status.NEW ∧
    st1.getOrder o.id = some o ∧
    (∀ oid, oid ≠ o.id → st1.getOrder oid = st.getOrder oid) ∧
    st1 = { st with orders := st.orders ++ [o], nextOrderId := st.nextOrderId + 1 } := by
  unfold createOrder at h
  cases hp : req.price with
  | none => rw [hp] at h; exact absurd h (by simp)
  | some p =>
    simp only [hp] at h
    by_cases hp0 : p ≤ 0
    · rw [if_pos hp0] at h
      exact absurd h (by simp)
    · rw [if_neg hp0] at h
      by_cases hq0 : req.quantity ≤ 0
      · rw [if_pos hq0] at h
        exact absurd h (by simp)
      · rw [if_neg hq0] at h
        injection h with h2
        injection h2 with ho hst
        subst ho
        subst hst
        have hfreshid : ∀ r ∈ st.orders, r.id ≠ st.nextOrderId := by
          intro r hr hc
          have := hS.idBound r hr
          omega
        have hfresh : ∀ t ∈ st.trades, t.buy_order_id ≠ st.nextOrderId ∧
            t.sell_order_id ≠ st.nextOrderId := by
          intro t ht
          obtain ⟨hd, ⟨rb, hrb, hrbid⟩, ⟨rs, hrs, hrsid⟩⟩ := hS.tradeRefs t ht
          constructor
          · rw [← hrbid]
            have := hS.idBound rb hrb
            omega
          · rw [← hrsid]
            have := hS.idBound rs hrs
            omega
        refine ⟨?_, rfl, rfl, rfl, rfl, by show (0 : Int) < req.quantity; omega, rfl, ?_, ?_, rfl⟩
        · refine ⟨?_, ?_, ?_, ?_, ?_, ?_, ?_⟩
          · show ((st.orders ++ [_]).map (fun r : Order => r.id)).Nodup
            rw [List.map_append]
            apply List.Nodup.append hS.nodup (List.nodup_singleton _)
            intro a ha hb
            simp only [List.map_cons, List.map_nil, List.mem_singleton] at hb
            rcases List.mem_map.mp ha with ⟨r, hr, rfl⟩
            exact hfreshid r hr hb
          · intro r hr
            rcases List.mem_append.mp hr with hold | hnew
            · have := hS.idBound r hold
              show r.id < st.nextOrderId + 1
              omega
            · obtain rfl : r = _ := by simpa using hnew
              show st.nextOrderId < st.nextOrderId + 1
              omega
          · intro r hr
            rcases List.mem_append.mp hr with hold | hnew
            · exact hS.qtyPos r hold
            · obtain rfl : r = _ := by simpa using hnew
              show (0 : Int) < req.quantity
              omega
          · intro r hr
            rcases List.mem_append.mp hr with hold | hnew
            · exact hS.filledRange r hold
            · obtain rfl : r = _ := by simpa using hnew
              exact ⟨le_refl 0, by show (0 : Int) ≤ req.quantity; omega⟩
          · intro r hr
            rcases List.mem_append.mp hr with hold | hnew
            · exact hS.statusOk r hold
            · obtain rfl : r = _ := by simpa using hnew
              right
              refine ⟨?_, ?_, ?_⟩ <;> simp <;> omega
          · intro r hr
            rcases List.mem_append.mp hr with hold | hnew
            · exact hS.fillSum r hold
            · obtain rfl : r = _ := by simpa using hnew
              show (0 : Int) = tradeSum st.trades st.nextOrderId
              rw [tradeSum_zero_of_fresh st.trades st.nextOrderId hfresh]
          · intro t ht
            obtain ⟨hd, ⟨rb, hrb, hrbid⟩, ⟨rs, hrs, hrsid⟩⟩ := hS.tradeRefs t ht
            exact ⟨hd, ⟨rb, List.mem_append.mpr (Or.inl hrb), hrbid⟩,
              ⟨rs, List.mem_append.mpr (Or.inl hrs), hrsid⟩⟩
        · refine find?_append_fresh st.orders _ ?_
          intro r hr
          exact hfreshid r hr
        · intro oid hne
          refine find?_append_other st.orders _ oid ?_
          exact hne

/-- Key comparison is transitive. -/
theorem keyLt_trans (a b c : Key) (h1 : keyLt a b = true) (h2 : keyLt b c = true) :
    keyLt a c = true := by
  obtain ⟨a1, a2, a3⟩ := a
  obtain ⟨b1, b2, b3⟩ := b
  obtain ⟨c1, c2, c3⟩ := c
  simp only [keyLt, decide_eq_true_eq] at h1 h2 ⊢
  omega

/-- Key comparison is antisymmetric: mutually incomparable keys are equal. -/
theorem keyLt_antisymm (a b : Key) (h1 : keyLt a b = false) (h2 : keyLt b a = false) :
    a = b := by
  obtain ⟨a1, a2, a3⟩ := a
  obtain ⟨b1, b2, b3⟩ := b
  simp only [keyLt, decide_eq_false_iff_not] at h1 h2
  push_neg at h1 h2
  have e1 : a1 = b1 := by omega
  have e2 : a2 = b2 := by
    have := h1.2 e1
    have := h2.2 e1.symm
    omega
  have e3 : a3 = b3 := by
    have ha := (h1.2 e1).2 e2
    have hb := (h2.2 e1.symm).2 e2.symm
    omega
  simp [e1, e2, e3]

theorem keyLt_of_not (a b : Key) (hne : b ≠ a) (h : keyLt a b = false) :
    keyLt b a = true := by
  cases hc : keyLt b a
  · exact absurd (keyLt_antisymm b a hc h) hne
  · rfl

theorem mem_heappush (k k' : Key) (l : List Key) :
    k' ∈ heappush k l ↔ k' = k ∨ k' ∈ l := by
  induction l with
  | nil => simp [heappush]
  | cons a t ih =>
    unfold heappush
    by_cases hlt : keyLt k a = true
    · rw [if_pos hlt]
      simp [List.mem_cons]
    · rw [if_neg hlt]
      rw [List.mem_cons, ih, List.mem_cons]
      tauto

/-- Pushing a key not already present keeps the queue sorted. -/
theorem pairwise_heappush (k : Key) (l : List Key)
    (hl : l.Pairwise (fun a c => keyLt a c = true))
    (hk : ∀ k2 ∈ l, k2 ≠ k) :
    (heappush k l).Pairwise (fun a c => keyLt a c = true) := by
  induction l with
  | nil => simp [heappush]
  | cons a t ih =>
    rw [List.pairwise_cons] at hl
    unfold heappush
    by_cases hlt : keyLt k a = true
    · rw [if_pos hlt]
      rw [List.pairwise_cons]
      constructor
      · intro c hc
        rcases List.mem_cons.mp hc with hck | hct
        · subst hck
          exact hlt
        · exact keyLt_trans k a c hlt (hl.1 c hct)
      · exact List.Pairwise.cons hl.1 hl.2
    · rw [if_neg hlt]
      rw [List.pairwise_cons]
      constructor
      · intro c hc
        rcases (mem_heappush k c t).mp hc with hck | hct
        · rw [hck]
          have hf : keyLt k a = false := by simpa using hlt
          exact keyLt_of_not k a (hk a (List.mem_cons_self a t)) hf
        · exact hl.1 c hct
      · exact ih hl.2 (fun k2 hk2 => hk k2 (List.mem_cons_of_mem a hk2))

/-- Registering an entry under its own id keeps the entry map well keyed. -/
theorem entriesWFb_setEntry (es : Entries) (oid : Nat) (e : BookEntry)
    (he : e.order_id = oid) (h : entriesWFb es = true) :
    entriesWFb (setEntry es oid e) = true := by
  unfold entriesWFb setEntry at *
  by_cases hf : ((es.find? (fun p => p.1 == oid)).isSome = true)
  · rw [if_pos hf]
    rw [List.all_eq_true] at *
    intro p hp
    rcases List.mem_map.mp hp with ⟨q, hq, rfl⟩
    by_cases hqo : (q.1 == oid) = true
    · have hq1 : q.1 = oid := by simpa using hqo
      simp [hqo, he, hq1]
    · simp only [hqo, Bool.false_eq_true, if_false]
      exact h q hq
  · rw [if_neg hf]
    rw [List.all_eq_true] at *
    intro p hp
    rcases List.mem_append.mp hp with hold | hnew
    · exact h p hold
    · obtain rfl : p = (oid, e) := by simpa using hnew
      simpa using he

/-- Full inversion of a successful insertion in `add`: the entry is
registered and exactly one heap gains exactly the new key. -/
theorem add_insert_inv (b : OrderBook) (o : Order) (p : Int) (b1 : OrderBook)
    (hp : o.price = some p) (hpos : 0 < o.quantity - o.filled_quantity)
    (h : b.add o = some b1) :
    b1.entries = setEntry b.entries o.id (addEntry b o p) ∧
    b1.seq_counter = b.seq_counter + 1 ∧
    ((o.side = Side.BUY ∧ b1.bids = heappush (-p, b.seq_counter + 1, o.id) b.bids ∧
       b1.asks = b.asks) ∨
     (o.side = Side.SELL ∧ b1.asks = heappush (p, b.seq_counter + 1, o.id) b.asks ∧
       b1.bids = b.bids)) := by
  unfold OrderBook.add at h
  rw [hp] at h
  have hle : ¬ (o.quantity - o.filled_quantity ≤ 0) := by omega
  simp only [hle, if_false] at h
  cases hs : o.side with
  | BUY =>
    rw [hs] at h
    simp only [] at h
    obtain rfl := Option.some_inj.mp h
    refine ⟨?_, rfl, Or.inl ⟨rfl, rfl, rfl⟩⟩
    simp [addEntry, hs]
  | SELL =>
    rw [hs] at h
    simp only [] at h
    obtain rfl := Option.some_inj.mp h
    refine ⟨?_, rfl, Or.inr ⟨rfl, rfl, rfl⟩⟩
    simp [addEntry, hs]

/-- Appending a fresh row to the store keeps every book consistent. -/
theorem BInv_extend_store (st : Store) (o : Order) (b : OrderBook) (hB : BInv st b)
    (hid : o.id = st.nextOrderId) :
    BInv { st with orders := st.orders ++ [o], nextOrderId := st.nextOrderId + 1 } b := by
  have hget : ∀ oid, oid < st.nextOrderId →
      ({ st with
          orders := st.orders ++ [o],
          nextOrderId := st.nextOrderId + 1 } : Store).getOrder oid =
        st.getOrder oid := by
    intro oid hlt
    show (st.orders ++ [o]).find? (fun r => r.id == oid) = _
    rw [List.find?_append]
    have hne : (o.id == oid) = false := by
      simp [hid]
      omega
    have hnone : ([o]).find? (fun r => r.id == oid) = none := by
      simp [List.find?, hne]
    rw [hnone]
    show _ = st.orders.find? (fun r => r.id == oid)
    cases st.orders.find? (fun r => r.id == oid) <;> rfl
  refine ⟨hB.wf, hB.remNonneg, ?_, hB.bidsReg, hB.asksReg, hB.disj, hB.bidsSorted,
    hB.asksSorted, hB.seqBound, ?_⟩
  · intro oid e r he hr
    have hlt : oid < st.nextOrderId := hB.idBound oid (by rw [he]; rfl)
    rw [hget oid hlt] at hr
    exact hB.remBound oid e r he hr
  · intro oid hs
    have := hB.idBound oid hs
    show oid < st.nextOrderId + 1
    omega

/-- A store change that does not touch the rows of resident orders nor the
autoincrement counter keeps the book consistent. -/
theorem BInv_store_stable (st st' : Store) (b : OrderBook) (hB : BInv st b)
    (hnext : st'.nextOrderId = st.nextOrderId)
    (hrows : ∀ oid, (lookupEntry b.entries oid).isSome = true →
      st'.getOrder oid = st.getOrder oid) :
    BInv st' b := by
  refine ⟨hB.wf, hB.remNonneg, ?_, hB.bidsReg, hB.asksReg, hB.disj, hB.bidsSorted,
    hB.asksSorted, hB.seqBound, ?_⟩
  · intro oid e r he hr
    rw [hrows oid (by rw [he]; rfl)] at hr
    exact hB.remBound oid e r he hr
  · intro oid hs
    rw [hnext]
    exact hB.idBound oid hs

/-- `add` of a fresh order whose row is in the store preserves the book
invariant. -/
theorem add_preserve (st : Store) (b : OrderBook) (o : Order) (b1 : OrderBook)
    (hB : BInv st b) (hadd : b.add o = some b1)
    (hgo : st.getOrder o.id = some o)
    (hfresh : (lookupEntry b.entries o.id).isSome = false)
    (hidb : o.id < st.nextOrderId) :
    BInv st b1 := by
  rcases add_some_inv b o b1 hadd with ⟨hle, rfl⟩ | ⟨hpos, p, hp, _, _⟩
  · exact hB
  · obtain ⟨hents, hseq, hside⟩ := add_insert_inv b o p b1 hp hpos hadd
    have hlook : ∀ oid, lookupEntry b1.entries oid =
        if oid = o.id then some (addEntry b o p) else lookupEntry b.entries oid := by
      intro oid
      rw [hents, lookupEntry_setEntry]
    have hfreshk : ∀ k : Key, (k ∈ b.bids ∨ k ∈ b.asks) → k.2.2 ≠ o.id := by
      intro k hk hc
      rcases hk with hk | hk
      · obtain ⟨e0, he0, _, _⟩ := hB.bidsReg k hk
        rw [← hc, he0] at hfresh
        exact Bool.noConfusion hfresh
      · obtain ⟨e0, he0, _, _⟩ := hB.asksReg k hk
        rw [← hc, he0] at hfresh
        exact Bool.noConfusion hfresh
    have hremN : ∀ oid e, lookupEntry b1.entries oid = some e → 0 ≤ e.remaining := by
      intro oid e he
      rw [hlook] at he
      by_cases ho : oid = o.id
      · rw [if_pos ho] at he
        obtain rfl : addEntry b o p = e := by simpa using he
        show (0 : Int) ≤ o.quantity - o.filled_quantity
        omega
      · rw [if_neg ho] at he
        exact hB.remNonneg oid e he
    have hremB : ∀ oid e r, lookupEntry b1.entries oid = some e →
        st.getOrder oid = some r → e.remaining + r.filled_quantity ≤ r.quantity := by
      intro oid e r he hr
      rw [hlook] at he
      by_cases ho : oid = o.id
      · rw [if_pos ho] at he
        obtain rfl : addEntry b o p = e := by simpa using he
        rw [ho, hgo] at hr
        obtain rfl : o = r := by simpa using hr
        show o.quantity - o.filled_quantity + o.filled_quantity ≤ o.quantity
        omega
      · rw [if_neg ho] at he
        exact hB.remBound oid e r he hr
    have hregold : ∀ k : Key, (k ∈ b.bids ∨ k ∈ b.asks) → ∀ e0,
        lookupEntry b.entries k.2.2 = some e0 →
        lookupEntry b1.entries k.2.2 = some e0 := by
      intro k hk e0 he0
      rw [hlook, if_neg (hfreshk k hk)]
      exact he0
    have hidB : ∀ oid, (lookupEntry b1.entries oid).isSome = true →
        oid < st.nextOrderId := by
      intro oid hs
      rw [hlook] at hs
      by_cases ho : oid = o.id
      · rw [ho]
        exact hidb
      · rw [if_neg ho] at hs
        exact hB.idBound oid hs
    have hwf : entriesWFb b1.entries = true := by
      rw [hents]
      exact entriesWFb_setEntry b.entries o.id (addEntry b o p) rfl hB.wf
    rcases hside with ⟨hsBUY, hbids, hasks⟩ | ⟨hsSELL, hasks, hbids⟩
    · refine ⟨hwf, hremN, hremB, ?_, ?_, ?_, ?_, ?_, ?_, hidB⟩
      · intro k hk
        rw [hbids] at hk
        rcases (mem_heappush _ _ _).mp hk with rfl | hkb
        · refine ⟨addEntry b o p, ?_, rfl, rfl⟩
          rw [hlook]
          simp
        · obtain ⟨e0, he0, h1, h2⟩ := hB.bidsReg k hkb
          exact ⟨e0, hregold k (Or.inl hkb) e0 he0, h1, h2⟩
      · intro k hk
        rw [hasks] at hk
        obtain ⟨e0, he0, h1, h2⟩ := hB.asksReg k hk
        exact ⟨e0, hregold k (Or.inr hk) e0 he0, h1, h2⟩
      · intro k hk k2 hk2
        rw [hbids] at hk
        rw [hasks] at hk2
        rcases (mem_heappush _ _ _).mp hk with rfl | hkb
        · show o.id ≠ k2.2.2
          exact fun hc => hfreshk k2 (Or.inr hk2) hc.symm
        · exact hB.disj k hkb k2 hk2
      · rw [hbids]
        apply pairwise_heappush _ _ hB.bidsSorted
        intro k2 hk2 hc
        exact hfreshk k2 (Or.inl hk2) (by rw [hc])
      · rw [hasks]
        exact hB.asksSorted
      · intro k hk
        rw [hbids] at hk
        rw [hasks] at hk
        rw [hseq]
        rcases hk with hk | hk
        · rcases (mem_heappush _ _ _).mp hk with rfl | hkb
          · exact le_refl _
          · have := hB.seqBound k (Or.inl hkb)
            omega
        · have := hB.seqBound k (Or.inr hk)
          omega
    · refine ⟨hwf, hremN, hremB, ?_, ?_, ?_, ?_, ?_, ?_, hidB⟩
      · intro k hk
        rw [hbids] at hk
        obtain ⟨e0, he0, h1, h2⟩ := hB.bidsReg k hk
        exact ⟨e0, hregold k (Or.inl hk) e0 he0, h1, h2⟩
      · intro k hk
        rw [hasks] at hk
        rcases (mem_heappush _ _ _).mp hk with rfl | hka
        · refine ⟨addEntry b o p, ?_, rfl, rfl⟩
          rw [hlook]
          simp
        · obtain ⟨e0, he0, h1, h2⟩ := hB.asksReg k hka
          exact ⟨e0, hregold k (Or.inr hka) e0 he0, h1, h2⟩
      · intro k hk k2 hk2
        rw [hbids] at hk
        rw [hasks] at hk2
        rcases (mem_heappush _ _ _).mp hk2 with rfl | hka
        · show k.2.2 ≠ o.id
          exact hfreshk k (Or.inl hk)
        · exact hB.disj k hk k2 hka
      · rw [hbids]
        exact hB.bidsSorted
      · rw [hasks]
        apply pairwise_heappush _ _ hB.asksSorted
        intro k2 hk2 hc
        exact hfreshk k2 (Or.inr hk2) (by rw [hc])
      · intro k hk
        rw [hbids] at hk
        rw [hasks] at hk
        rw [hseq]
        rcases hk with hk | hk
        · have := hB.seqBound k (Or.inl hk)
          omega
        · rcases (mem_heappush _ _ _).mp hk with rfl | hka
          · exact le_refl _
          · have := hB.seqBound k (Or.inr hka)
            omega

/-- An in-place row update that preserves id, quantity, fill and the §3
status invariant preserves store consistency. -/
theorem SInv_adjust (st : Store) (oid : Nat) (f : Order → Order) (hS : SInv st)
    (hid : ∀ r, (f r).id = r.id) (hqty : ∀ r, (f r).quantity = r.quantity)
    (hfil : ∀ r, (f r).filled_quantity = r.filled_quantity)
    (hstat : ∀ r, statusConsistent r → statusConsistent (f r)) :
    SInv (st.adjustOrder oid f) := by
  have horders : (st.adjustOrder oid f).orders =
      st.orders.map (fun r => if r.id == oid then f r else r) := rfl
  have hidite : ∀ r : Order, (if (r.id == oid) = true then f r else r).id = r.id := by
    intro r
    by_cases h : (r.id == oid) = true <;> simp [h, hid]
  have hqtyite : ∀ r : Order,
      (if (r.id == oid) = true then f r else r).quantity = r.quantity := by
    intro r
    by_cases h : (r.id == oid) = true <;> simp [h, hqty]
  have hfilite : ∀ r : Order,
      (if (r.id == oid) = true then f r else r).filled_quantity =
        r.filled_quantity := by
    intro r
    by_cases h : (r.id == oid) = true <;> simp [h, hfil]
  refine ⟨?_, ?_, ?_, ?_, ?_, ?_, ?_⟩
  · rw [horders, List.map_map]
    have hmap : st.orders.map ((fun r => r.id) ∘
        (fun r => if r.id == oid then f r else r)) =
        st.orders.map (fun r => r.id) :=
      List.map_congr_left (fun r _ => by
        by_cases h : r.id = oid <;> simp [Function.comp, h, hid])
    rw [hmap]
    exact hS.nodup
  · intro r hr
    rw [horders] at hr
    rcases List.mem_map.mp hr with ⟨r0, hr0, rfl⟩
    rw [hidite]
    exact hS.idBound r0 hr0
  · intro r hr
    rw [horders] at hr
    rcases List.mem_map.mp hr with ⟨r0, hr0, rfl⟩
    rw [hqtyite]
    exact hS.qtyPos r0 hr0
  · intro r hr
    rw [horders] at hr
    rcases List.mem_map.mp hr with ⟨r0, hr0, rfl⟩
    rw [hfilite, hqtyite]
    exact hS.filledRange r0 hr0
  · intro r hr
    rw [horders] at hr
    rcases List.mem_map.mp hr with ⟨r0, hr0, rfl⟩
    by_cases h : (r0.id == oid) = true
    · simp only [h, if_true]
      exact hstat r0 (hS.statusOk r0 hr0)
    · simp only [h, Bool.false_eq_true, if_false]
      exact hS.statusOk r0 hr0
  · intro r hr
    rw [horders] at hr
    rcases List.mem_map.mp hr with ⟨r0, hr0, rfl⟩
    rw [hfilite, hidite]
    exact hS.fillSum r0 hr0
  · intro t ht
    obtain ⟨hd, ⟨rb, hrb, hrbid⟩, ⟨rs, hrs, hrsid⟩⟩ := hS.tradeRefs t ht
    refine ⟨hd, ?_, ?_⟩
    · refine ⟨if rb.id == oid then f rb else rb, ?_, ?_⟩
      · rw [horders]
        exact List.mem_map_of_mem _ hrb
      · rw [hidite]
        exact hrbid
    · refine ⟨if rs.id == oid then f rs else rs, ?_, ?_⟩
      · rw [horders]
        exact List.mem_map_of_mem _ hrs
      · rw [hidite]
        exact hrsid

/-- Membership in a map after assignment: the new binding or an old binding
of a different key. -/
theorem mem_setBook (bs : List (String × OrderBook)) (sym : String) (b : OrderBook)
    (p : String × OrderBook) (hp : p ∈ setBook bs sym b) :
    p = (sym, b) ∨ (p ∈ bs ∧ p.1 ≠ sym) := by
  unfold setBook at hp
  by_cases hf : ((bs.find? (fun q => q.1 == sym)).isSome = true)
  · rw [if_pos hf] at hp
    rcases List.mem_map.mp hp with ⟨q, hq, rfl⟩
    by_cases hqs : (q.1 == sym) = true
    · left
      have hq1 : q.1 = sym := by simpa using hqs
      simp [hqs, hq1]
    · right
      simp only [hqs, Bool.false_eq_true, if_false]
      exact ⟨hq, by simpa using hqs⟩
  · rw [if_neg hf] at hp
    rcases List.mem_append.mp hp with hold | hnew
    · right
      refine ⟨hold, ?_⟩
      intro hc
      have hnone : bs.find? (fun q => q.1 == sym) = none := by
        cases hfind : bs.find? (fun q => q.1 == sym) with
        | none => rfl
        | some q => rw [hfind] at hf; exact absurd rfl hf
      have := List.find?_eq_none.mp hnone p hold
      simp [hc] at this
    · left
      simpa using hnew

/-- A symbol lookup hit exposes a member binding. -/
theorem lookupBook_mem (bs : List (String × OrderBook)) (sym : String) (b : OrderBook)
    (h : lookupBook bs sym = some b) : (sym, b) ∈ bs := by
  unfold lookupBook at h
  cases hf : bs.find? (fun p => p.1 == sym) with
  | none =>
    rw [hf] at h
    exact Option.noConfusion h
  | some q =>
    rw [hf] at h
    obtain rfl : q.2 = b := by simpa using h
    have hq1 : q.1 = sym := by simpa using List.find?_some hf
    have hmem := List.mem_of_find?_eq_some hf
    rw [← hq1, Prod.mk.eta]
    exact hmem

/-- `submit_and_match` with a fresh, stored order preserves the full
engine invariant. -/
theorem submitAndMatch_preserve (eng : MatchingEngine) (fuel : Nat) (st : Store)
    (o : Order) (ts : List Trade) (st2 : Store) (eng2 : MatchingEngine)
    (hI : Inv st eng)
    (hgo : st.getOrder o.id = some o)
    (hidb : o.id < st.nextOrderId)
    (hfreshall : ∀ p ∈ eng.books, (lookupEntry p.2.entries o.id).isSome = false)
    (h : eng.submitAndMatch fuel st o = some (ts, st2, eng2)) :
    Inv st2 eng2 := by
  unfold MatchingEngine.submitAndMatch at h
  cases hlb : lookupBook eng.books o.symbol with
  | some b0 =>
    simp only [MatchingEngine.book, hlb] at h
    have hmem0 : (o.symbol, b0) ∈ eng.books := lookupBook_mem _ _ _ hlb
    have hB0 : BInv st b0 := hI.binv _ hmem0
    cases hadd : b0.add o with
    | none =>
      simp only [hadd] at h
      exact Option.noConfusion h
    | some b1 =>
      simp only [hadd] at h
      cases hma : matchAll o.symbol fuel st b1 with
      | none =>
        simp only [hma] at h
        exact Option.noConfusion h
      | some r =>
        obtain ⟨ts0, st0, b2⟩ := r
        simp only [hma] at h
        obtain ⟨rfl, rfl, rfl⟩ : ts0 = ts ∧ st0 = st2 ∧
            (⟨setBook eng.books o.symbol b2⟩ : MatchingEngine) = eng2 := by
          simpa using h
        have hfresh0 : (lookupEntry b0.entries o.id).isSome = false := hfreshall _ hmem0
        have hB1 : BInv st b1 := add_preserve st b0 o b1 hB0 hadd hgo hfresh0 hidb
        obtain ⟨hS2, hB2, hnext2, hkeep2⟩ :=
          matchAll_preserve o.symbol fuel st b1 _ _ b2 hI.sinv hB1 hma
        have hries : ∀ oid, (lookupEntry b1.entries oid).isSome = true →
            oid = o.id ∨ (lookupEntry b0.entries oid).isSome = true := by
          rcases add_some_inv b0 o b1 hadd with ⟨_, rfl⟩ | ⟨_, p', hp', hents, _⟩
          · intro oid hs
            exact Or.inr hs
          · intro oid hs
            by_cases ho : oid = o.id
            · exact Or.inl ho
            · rw [hents, lookupEntry_setEntry, if_neg ho] at hs
              exact Or.inr hs
        have hevB : EntriesEvolve b1.entries b2.entries :=
          matchAll_evolve o.symbol fuel st b1 _ _ b2 hma
        refine ⟨hS2, ?_, ?_⟩
        · intro q hq
          rcases mem_setBook eng.books o.symbol b2 q hq with rfl | ⟨hqmem, hqne⟩
          · exact hB2
          · have hBq : BInv st q.2 := hI.binv q hqmem
            apply BInv_store_stable st _ q.2 hBq hnext2
            intro oid hsq
            have hnot1 : (lookupEntry b1.entries oid).isSome = false := by
              cases hcase : (lookupEntry b1.entries oid).isSome
              · rfl
              · rcases hries oid hcase with ho | h0
                · rw [ho] at hsq
                  rw [hfreshall q hqmem] at hsq
                  exact Bool.noConfusion hsq
                · exact absurd (hI.cross (o.symbol, b0) hmem0 q hqmem
                    (fun hc => hqne hc.symm) oid h0 hsq) (fun hf => hf)
            exact hkeep2 oid hnot1
        · intro q1 hq1 q2 hq2 hne12 oid hs1 hs2
          rcases mem_setBook _ _ _ q1 hq1 with rfl | ⟨hm1, hne1⟩ <;>
            rcases mem_setBook _ _ _ q2 hq2 with rfl | ⟨hm2, hne2⟩
          · exact hne12 rfl
          · rw [hevB.isSome_eq] at hs1
            rcases hries oid hs1 with ho | h0
            · rw [ho] at hs2
              rw [hfreshall q2 hm2] at hs2
              exact Bool.noConfusion hs2
            · exact hI.cross (o.symbol, b0) hmem0 q2 hm2 (fun hc => hne2 hc.symm)
                oid h0 hs2
          · rw [hevB.isSome_eq] at hs2
            rcases hries oid hs2 with ho | h0
            · rw [ho] at hs1
              rw [hfreshall q1 hm1] at hs1
              exact Bool.noConfusion hs1
            · exact hI.cross q1 hm1 (o.symbol, b0) hmem0 (fun hc => hne1 hc)
                oid hs1 h0
          · exact hI.cross q1 hm1 q2 hm2 hne12 oid hs1 hs2
  | none =>
    simp only [MatchingEngine.book, hlb] at h
    cases hadd : OrderBook.empty.add o with
    | none =>
      simp only [hadd] at h
      exact Option.noConfusion h
    | some b1 =>
      simp only [hadd] at h
      cases hma : matchAll o.symbol fuel st b1 with
      | none =>
        simp only [hma] at h
        exact Option.noConfusion h
      | some r =>
        obtain ⟨ts0, st0, b2⟩ := r
        simp only [hma] at h
        obtain ⟨rfl, rfl, rfl⟩ : ts0 = ts ∧ st0 = st2 ∧
            (⟨setBook (setBook eng.books o.symbol OrderBook.empty) o.symbol b2⟩ :
              MatchingEngine) = eng2 := by
          simpa using h
        have hB1 : BInv st b1 :=
          add_preserve st OrderBook.empty o b1 (BInv_empty st) hadd hgo rfl hidb
        obtain ⟨hS2, hB2, hnext2, hkeep2⟩ :=
          matchAll_preserve o.symbol fuel st b1 _ _ b2 hI.sinv hB1 hma
        have hries : ∀ oid, (lookupEntry b1.entries oid).isSome = true → oid = o.id := by
          rcases add_some_inv OrderBook.empty o b1 hadd with ⟨_, rfl⟩ | ⟨_, p', hp', hents, _⟩
          · intro oid hs
            exact absurd hs (by simp [lookupEntry, OrderBook.empty])
          · intro oid hs
            by_cases ho : oid = o.id
            · exact ho
            · rw [hents, lookupEntry_setEntry, if_neg ho] at hs
              exact absurd hs (by simp [lookupEntry, OrderBook.empty])
        have hevB : EntriesEvolve b1.entries b2.entries :=
          matchAll_evolve o.symbol fuel st b1 _ _ b2 hma
        have hmem2 : ∀ q : String × OrderBook,
            q ∈ setBook (setBook eng.books o.symbol OrderBook.empty) o.symbol b2 →
            q = (o.symbol, b2) ∨ (q ∈ eng.books ∧ q.1 ≠ o.symbol) := by
          intro q hq
          rcases mem_setBook _ _ _ q hq with rfl | ⟨hq2, hqne⟩
          · exact Or.inl rfl
          · rcases mem_setBook _ _ _ q hq2 with rfl | ⟨hq3, _⟩
            · exact absurd rfl hqne
            · exact Or.inr ⟨hq3, hqne⟩
        refine ⟨hS2, ?_, ?_⟩
        · intro q hq
          rcases hmem2 q hq with rfl | ⟨hqmem, hqne⟩
          · exact hB2
          · have hBq : BInv st q.2 := hI.binv q hqmem
            apply BInv_store_stable st _ q.2 hBq hnext2
            intro oid hsq
            have hnot1 : (lookupEntry b1.entries oid).isSome = false := by
              cases hcase : (lookupEntry b1.entries oid).isSome
              · rfl
              · have ho := hries oid hcase
                rw [ho] at hsq
                rw [hfreshall q hqmem] at hsq
                exact Bool.noConfusion hsq
            exact hkeep2 oid hnot1
        · intro q1 hq1 q2 hq2 hne12 oid hs1 hs2
          rcases hmem2 q1 hq1 with rfl | ⟨hm1, hne1⟩ <;>
            rcases hmem2 q2 hq2 with rfl | ⟨hm2, hne2⟩
          · exact hne12 rfl
          · rw [hevB.isSome_eq] at hs1
            have ho := hries oid hs1
            rw [ho] at hs2
            rw [hfreshall q2 hm2] at hs2
            exact Bool.noConfusion hs2
          · rw [hevB.isSome_eq] at hs2
            have ho := hries oid hs2
            rw [ho] at hs1
            rw [hfreshall q1 hm1] at hs1
            exact Bool.noConfusion hs1
          · exact hI.cross q1 hm1 q2 hm2 hne12 oid hs1 hs2

/-- One API call preserves the full engine invariant. -/
theorem applyOp_preserve (fuel : Nat) (st : Store) (eng : MatchingEngine) (op : Op)
    (st' : Store) (eng' : MatchingEngine) (hI : Inv st eng)
    (h : applyOp fuel st eng op = some (st', eng')) : Inv st' eng' := by
  cases op with
  | submit req =>
    unfold applyOp at h
    cases hco : createOrder st req with
    | none =>
      simp only [hco] at h
      obtain ⟨rfl, rfl⟩ : st = st' ∧ eng = eng' := by simpa using h
      exact hI
    | some pr =>
      obtain ⟨o, st1⟩ := pr
      simp only [hco] at h
      obtain ⟨hS1, hid, hnext1, htr1, hfil, hq, hstat, hgo1, hkeep1, hstx⟩ :=
        createOrder_preserve st req o st1 hI.sinv hco
      have hI1 : Inv st1 eng := by
        refine ⟨hS1, ?_, hI.cross⟩
        intro q hq2
        rw [hstx]
        exact BInv_extend_store st o q.2 (hI.binv q hq2) hid
      cases hsm : eng.submitAndMatch fuel st1 o with
      | none =>
        simp only [hsm] at h
        exact Option.noConfusion h
      | some r =>
        obtain ⟨ts, st2, eng2⟩ := r
        simp only [hsm] at h
        obtain ⟨rfl, rfl⟩ : st2 = st' ∧ eng2 = eng' := by simpa using h
        apply submitAndMatch_preserve eng fuel st1 o ts st2 eng2 hI1 hgo1 ?_ ?_ hsm
        · rw [hid, hnext1]
          omega
        · intro q hq2
          have hBq := hI.binv q hq2
          cases hcase : (lookupEntry q.2.entries o.id).isSome
          · rfl
          · have hlt := hBq.idBound o.id hcase
            rw [hid] at hlt
            exact absurd hlt (lt_irrefl _)
  | cancel oid =>
    unfold applyOp at h
    cases hgo : st.getOrder oid with
    | none =>
      simp only [hgo] at h
      obtain ⟨rfl, rfl⟩ : st = st' ∧ eng = eng' := by simpa using h
      exact hI
    | some o =>
      simp only [hgo] at h
      by_cases hterm : o.status = Status.FILLED ∨ o.status = Status.CANCELLED ∨
          o.status = Status.REJECTED
      · rw [if_pos hterm] at h
        obtain ⟨rfl, rfl⟩ : st = st' ∧ eng = eng' := by simpa using h
        exact hI
      · rw [if_neg hterm] at h
        obtain ⟨rfl, rfl⟩ :
            st.adjustOrder oid (fun r => { r with status := Status.CANCELLED }) = st' ∧
            (eng.cancel o.symbol oid).2 = eng' := by
          have h2 := Option.some_inj.mp h
          exact ⟨congrArg Prod.fst h2, congrArg Prod.snd h2⟩
        have hS' : SInv (st.adjustOrder oid
            (fun r => { r with status := Status.CANCELLED })) :=
          SInv_adjust st oid _ hI.sinv (fun r => rfl) (fun r => rfl) (fun r => rfl)
            (fun r _ => Or.inl rfl)
        have hBtrans : ∀ b, BInv st b →
            BInv (st.adjustOrder oid (fun r => { r with status := Status.CANCELLED })) b := by
          intro b hB
          refine ⟨hB.wf, hB.remNonneg, ?_, hB.bidsReg, hB.asksReg, hB.disj,
            hB.bidsSorted, hB.asksSorted, hB.seqBound, hB.idBound⟩
          intro oid2 e r he hr
          rw [getOrder_adjustOrder st oid oid2
            (fun r => { r with status := Status.CANCELLED }) (fun r => rfl)] at hr
          by_cases h2 : oid2 = oid
          · rw [if_pos h2] at hr
            cases hg2 : st.getOrder oid2 with
            | none =>
              rw [hg2] at hr
              exact absurd hr (by simp)
            | some r0 =>
              rw [hg2] at hr
              obtain rfl : (fun r => { r with status := Status.CANCELLED }) r0 = r := by
                simpa using hr
              exact hB.remBound oid2 e r0 he hg2
          · rw [if_neg h2] at hr
            exact hB.remBound oid2 e r he hr
        show Inv _ (eng.cancel o.symbol oid).2
        unfold MatchingEngine.cancel
        cases hlb : lookupBook eng.books o.symbol with
        | none =>
          refine ⟨hS', ?_, hI.cross⟩
          intro q hq2
          exact hBtrans q.2 (hI.binv q hq2)
        | some b =>
          have hBb := hI.binv (o.symbol, b) (lookupBook_mem _ _ _ hlb)
          have hBc : BInv (st.adjustOrder oid
              (fun r => { r with status := Status.CANCELLED })) (b.cancel oid).2 := by
            unfold OrderBook.cancel
            cases hle : lookupEntry b.entries oid with
            | none =>
              exact hBtrans b hBb
            | some e =>
              exact hBtrans { b with entries := adjustEntry b.entries oid (fun e => { e with cancelled := true }) } (BInv_cancel_entry st b oid hBb)
          have hsame : ∀ oid2, (lookupEntry (b.cancel oid).2.entries oid2).isSome =
              (lookupEntry b.entries oid2).isSome := by
            intro oid2
            unfold OrderBook.cancel
            cases hle : lookupEntry b.entries oid with
            | none => rfl
            | some e =>
              exact lookupEntry_adjustEntry_isSome b.entries oid oid2
                (fun e => { e with cancelled := true })
          refine ⟨hS', ?_, ?_⟩
          · intro q hq2
            rcases mem_setBook eng.books o.symbol (b.cancel oid).2 q hq2 with
              rfl | ⟨hm, hne⟩
            · exact hBc
            · exact hBtrans q.2 (hI.binv q hm)
          · intro q1 hq1 q2 hq2 hne12 oid2 hs1 hs2
            rcases mem_setBook eng.books o.symbol (b.cancel oid).2 q1 hq1 with rfl | ⟨hm1, hne1⟩ <;>
              rcases mem_setBook eng.books o.symbol (b.cancel oid).2 q2 hq2 with rfl | ⟨hm2, hne2⟩
            · exact hne12 rfl
            · rw [hsame] at hs1
              exact hI.cross (o.symbol, b) (lookupBook_mem _ _ _ hlb) q2 hm2
                hne12 oid2 hs1 hs2
            · rw [hsame] at hs2
              exact hI.cross q1 hm1 (o.symbol, b) (lookupBook_mem _ _ _ hlb)
                hne12 oid2 hs1 hs2
            · exact hI.cross q1 hm1 q2 hm2 hne12 oid2 hs1 hs2

/-- A sequence of API calls preserves the full engine invariant. -/
theorem applyOps_preserve (fuel : Nat) (ops : List Op) (st : Store)
    (eng : MatchingEngine) (st' : Store) (eng' : MatchingEngine) (hI : Inv st eng)
    (h : applyOps fuel ops st eng = some (st', eng')) : Inv st' eng' := by
  induction ops generalizing st eng with
  | nil =>
    obtain ⟨rfl, rfl⟩ : st = st' ∧ eng = eng' := by simpa [applyOps] using h
    exact hI
  | cons op ops ih =>
    unfold applyOps at h
    cases hop : applyOp fuel st eng op with
    | none =>
      simp only [hop] at h
      exact Option.noConfusion h
    | some r =>
      obtain ⟨st1, eng1⟩ := r
      simp only [hop] at h
      exact ih st1 eng1 (applyOp_preserve fuel st eng op st1 eng1 hI hop) h

/-- The initial state satisfies the full engine invariant. -/
theorem Inv_empty : Inv Store.empty MatchingEngine.empty := by
  refine ⟨SInv_empty, ?_, ?_⟩
  · intro p hp
    exact absurd hp (by simp [MatchingEngine.empty])
  · intro p1 hp1
    exact absurd hp1 (by simp [MatchingEngine.empty])

/-! ### C3: the order/trade accounting invariants -/

/-- C3: after any sequence of API submits and cancels from the initial
platform state, every order row O satisfies 0 ≤ filled_quantity(O) ≤
quantity(O); unless CANCELLED, status FILLED iff filled = quantity, PARTIAL
iff 0 < filled < quantity, NEW iff filled = 0; and filled_quantity(O) equals
the summed quantity of all trades referencing O on either side. -/
theorem C3_order_trade_invariants (fuel : Nat) (ops : List Op) (st : Store)
    (eng : MatchingEngine)
    (h : applyOps fuel ops Store.empty MatchingEngine.empty = some (st, eng)) :
    ∀ r ∈ st.orders,
      (0 ≤ r.filled_quantity ∧ r.filled_quantity ≤ r.quantity) ∧
      (r.status = Status.CANCELLED ∨
        ((r.status = Status.FILLED ↔ r.filled_quantity = r.quantity) ∧
         (r.status = Status.PARTIAL ↔
           (0 < r.filled_quantity ∧ r.filled_quantity < r.quantity)) ∧
         (r.status = Status.NEW ↔ r.filled_quantity = 0))) ∧
      r.filled_quantity = tradeSum st.trades r.id := by
  have hI := applyOps_preserve fuel ops Store.empty MatchingEngine.empty st eng
    Inv_empty h
  intro r hr
  exact ⟨hI.sinv.filledRange r hr, hI.sinv.statusOk r hr, hI.sinv.fillSum r hr⟩

/-- The S1 request sequence: SELL 5 @100 then BUY 3 @120 on symbol A. -/
def c3Ops : List Op :=
  [Op.submit ⟨"A", Side.SELL, some 100, 5, 1⟩,
   Op.submit ⟨"A", Side.BUY, some 120, 3, 2⟩]

def c3SellRow : Order := ⟨1, "A", Side.SELL, some 100, 5, 3, Status.PARTIAL, 1⟩

def c3BuyRow : Order := ⟨2, "A", Side.BUY, some 120, 3, 3, Status.FILLED, 2⟩

def c3Store : Store := ⟨[c3SellRow, c3BuyRow], [⟨1, 2, 1, "A", 100, 3⟩], 3, 2⟩

def c3Book : OrderBook :=
  ⟨[], [(100, 1, 1)],
   [(1, ⟨1, Side.SELL, 100, 2, 1, false⟩), (2, ⟨2, Side.BUY, 120, 0, 2, false⟩)], 2⟩

def c3Engine : MatchingEngine := ⟨[("A", c3Book)]⟩

/-- Witness for C3 at the S1 scenario: the partially filled sell row
satisfies every invariant of the claim. -/
theorem C3_witness :
    applyOps 10 c3Ops Store.empty MatchingEngine.empty = some (c3Store, c3Engine) ∧
    c3SellRow ∈ c3Store.orders ∧
    ((0 ≤ c3SellRow.filled_quantity ∧ c3SellRow.filled_quantity ≤ c3SellRow.quantity) ∧
     (c3SellRow.status = Status.CANCELLED ∨
       ((c3SellRow.status = Status.FILLED ↔
          c3SellRow.filled_quantity = c3SellRow.quantity) ∧
        (c3SellRow.status = Status.PARTIAL ↔
          (0 < c3SellRow.filled_quantity ∧
            c3SellRow.filled_quantity < c3SellRow.quantity)) ∧
        (c3SellRow.status = Status.NEW ↔ c3SellRow.filled_quantity = 0))) ∧
     c3SellRow.filled_quantity = tradeSum c3Store.trades c3SellRow.id) :=
  ⟨by decide, by decide,
   C3_order_trade_invariants 10 c3Ops c3Store c3Engine (by decide) c3SellRow (by decide)⟩

/-! ### C1: price/time priority of the matching loop -/

/-- Any key dropped by the peek loop referenced a missing, cancelled or
exhausted entry. -/
theorem topValid_dropped (es : Entries) (h : List Key) (k : Key)
    (hk : k ∈ h) (hnot : k ∉ (topValid es h).2) :
    lookupEntry es k.2.2 = none ∨
      ∃ e, lookupEntry es k.2.2 = some e ∧
        (e.cancelled = true ∨ e.remaining ≤ 0) := by
  induction h with
  | nil => exact absurd hk (by simp)
  | cons k0 rest ih =>
    rcases List.mem_cons.mp hk with hk0 | hkr
    · rw [hk0] at hnot ⊢
      cases hl : lookupEntry es k0.2.2 with
      | none => exact Or.inl rfl
      | some e =>
        by_cases hv : (e.cancelled || decide (e.remaining ≤ 0)) = true
        · right
          refine ⟨e, rfl, ?_⟩
          simpa using hv
        · exfalso
          apply hnot
          have hres : topValid es (k0 :: rest) = (some e, k0 :: rest) := by
            conv_lhs => rw [topValid.eq_def]
            simp [hl, hv]
          rw [hres]
          exact List.mem_cons_self _ _
    · cases hl : lookupEntry es k0.2.2 with
      | none =>
        have hstep : topValid es (k0 :: rest) = topValid es rest := by
          conv_lhs => rw [topValid.eq_def]
          simp [hl]
        rw [hstep] at hnot
        exact ih hkr hnot
      | some e =>
        by_cases hv : (e.cancelled || decide (e.remaining ≤ 0)) = true
        · have hstep : topValid es (k0 :: rest) = topValid es rest := by
            conv_lhs => rw [topValid.eq_def]
            simp [hl, hv]
          rw [hstep] at hnot
          exact ih hkr hnot
        · exfalso
          apply hnot
          have hres : topValid es (k0 :: rest) = (some e, k0 :: rest) := by
            conv_lhs => rw [topValid.eq_def]
            simp [hl, hv]
          rw [hres]
          exact List.mem_cons_of_mem _ hkr

/-- On a sorted, registered heap the peek loop returns a minimal valid
entry: any other valid registered entry has a strictly larger key price, or
the same price and a no-smaller sequence number. -/
theorem topValid_min (es : Entries) (hp : List Key) (pricef : BookEntry → Int)
    (e0 : BookEntry)
    (hsorted : hp.Pairwise (fun a c => keyLt a c = true))
    (hreg : ∀ k ∈ hp, ∃ e, lookupEntry es k.2.2 = some e ∧
      k.1 = pricef e ∧ k.2.1 = e.seq)
    (h0 : (topValid es hp).1 = some e0)
    (oid : Nat) (e : BookEntry) (he : lookupEntry es oid = some e)
    (hc : e.cancelled = false) (hr : 0 < e.remaining)
    (k : Key) (hk : k ∈ hp) (hkid : k.2.2 = oid) :
    pricef e0 < pricef e ∨ (pricef e0 = pricef e ∧ e0.seq ≤ e.seq) := by
  obtain ⟨pre, happ⟩ := topValid_suffix es hp
  have hress : topValid es (topValid es hp).2 = (some e0, (topValid es hp).2) := by
    rw [topValid_stable es hp]
    exact Prod.ext h0 rfl
  obtain ⟨k0, rest, hcons, hlk0, hc0, hr0⟩ :=
    topValid_self_inv es (topValid es hp).2 e0 hress
  by_cases hkin : k ∈ (topValid es hp).2
  · rw [hcons] at hkin
    have hk0mem : k0 ∈ hp := by
      apply suffix_subset ⟨pre, happ⟩
      rw [hcons]
      exact List.mem_cons_self _ _
    obtain ⟨ek0, hek0, hpk0, hsk0⟩ := hreg k0 hk0mem
    rw [hlk0] at hek0
    obtain rfl : e0 = ek0 := by simpa using hek0
    obtain ⟨ek, hek, hpk, hsk⟩ := hreg k hk
    rw [hkid, he] at hek
    obtain rfl : e = ek := by simpa using hek
    rcases List.mem_cons.mp hkin with hkk0 | hkrest
    · right
      constructor
      · rw [← hpk0, ← hpk, hkk0]
      · have hseq : e0.seq = e.seq := by rw [← hsk0, ← hsk, hkk0]
        omega
    · have hlt : keyLt k0 k = true := by
        have hpw : (k0 :: rest).Pairwise (fun a c => keyLt a c = true) := by
          rw [← hcons]
          exact suffix_pairwise ⟨pre, happ⟩ hsorted
        exact (List.pairwise_cons.mp hpw).1 k hkrest
      simp only [keyLt, decide_eq_true_eq] at hlt
      rcases hlt with h1 | ⟨h1, h2⟩
      · left
        rw [← hpk0, ← hpk]
        exact h1
      · right
        constructor
        · rw [← hpk0, ← hpk]
          exact h1
        · rcases h2 with h2 | ⟨h2, _⟩
          · rw [← hsk0, ← hsk]
            omega
          · rw [← hsk0, ← hsk]
            omega
  · rcases topValid_dropped es hp k hk hkin with hnone | ⟨e2, he2, hbad⟩
    · rw [hkid, he] at hnone
      exact Option.noConfusion hnone
    · rw [hkid, he] at he2
      obtain rfl : e = e2 := by simpa using he2
      rcases hbad with hb | hb
      · rw [hc] at hb
        exact Bool.noConfusion hb
      · omega

/-- The S4 request sequence: SELL 4 @100, SELL 4 @100, BUY 6 @100 on A. -/
def s4Ops : List Op :=
  [Op.submit ⟨"A", Side.SELL, some 100, 4, 1⟩,
   Op.submit ⟨"A", Side.SELL, some 100, 4, 2⟩,
   Op.submit ⟨"A", Side.BUY, some 100, 6, 3⟩]

def s4Trade1 : Trade := ⟨1, 3, 1, "A", 100, 4⟩

def s4Trade2 : Trade := ⟨2, 3, 2, "A", 100, 2⟩

def s4Row1 : Order := ⟨1, "A", Side.SELL, some 100, 4, 4, Status.FILLED, 1⟩

def s4Row2 : Order := ⟨2, "A", Side.SELL, some 100, 4, 2, Status.PARTIAL, 2⟩

def s4Row3 : Order := ⟨3, "A", Side.BUY, some 100, 6, 6, Status.FILLED, 3⟩

def s4Store : Store := ⟨[s4Row1, s4Row2, s4Row3], [s4Trade1, s4Trade2], 4, 3⟩

def s4Book : OrderBook :=
  ⟨[], [(100, 2, 2)],
   [(1, ⟨1, Side.SELL, 100, 0, 1, false⟩), (2, ⟨2, Side.SELL, 100, 2, 2, false⟩),
    (3, ⟨3, Side.BUY, 100, 0, 3, false⟩)], 3⟩

def s4Engine : MatchingEngine := ⟨[("A", s4Book)]⟩

/-- C1: (i) on any book whose queues are sorted and correctly registered
(as the engine maintains them), the peeked best ask is minimal by (price,
seq) among all valid resting entries registered in the ask queue, and the
peeked best bid is maximal by price with the smallest sequence at equal
price among all valid resting entries registered in the bid queue — lowest
ask first, highest bid first, earlier sequence first at equal price;
(ii) scenario S4 (SELL id 1 qty 4 @100, SELL id 2 qty 4 @100, BUY id 3
qty 6 @100) emits exactly trade(buy 3, sell 1, qty 4, price 100) and then
trade(buy 3, sell 2, qty 2, price 100), in that order. -/
theorem C1_price_time_priority :
    (∀ (b : OrderBook) (bid ask : BookEntry),
      b.bids.Pairwise (fun a c => keyLt a c = true) →
      b.asks.Pairwise (fun a c => keyLt a c = true) →
      (∀ k ∈ b.bids, (lookupEntry b.entries k.2.2).map
        (fun e => (e.price, e.seq)) = some (-k.1, k.2.1)) →
      (∀ k ∈ b.asks, (lookupEntry b.entries k.2.2).map
        (fun e => (e.price, e.seq)) = some (k.1, k.2.1)) →
      b.topValidBid.1 = some bid →
      b.topValidBid.2.topValidAsk.1 = some ask →
      (∀ oid e k, lookupEntry b.entries oid = some e → e.cancelled = false →
        0 < e.remaining → k ∈ b.asks → k.2.2 = oid →
        (ask.price < e.price ∨ (ask.price = e.price ∧ ask.seq ≤ e.seq))) ∧
      (∀ oid e k, lookupEntry b.entries oid = some e → e.cancelled = false →
        0 < e.remaining → k ∈ b.bids → k.2.2 = oid →
        (e.price < bid.price ∨ (bid.price = e.price ∧ bid.seq ≤ e.seq)))) ∧
    (applyOps 10 s4Ops Store.empty MatchingEngine.empty =
       some (s4Store, s4Engine) ∧
     s4Store.trades = [s4Trade1, s4Trade2]) := by
  constructor
  · intro b bid ask hbs has hbreg hareg hbid hask
    have hbid1 : (topValid b.entries b.bids).1 = some bid := hbid
    have hask1 : (topValid b.entries b.asks).1 = some ask := hask
    constructor
    · intro oid e k he hc hr hk hkid
      have hregE : ∀ k2 ∈ b.asks, ∃ e2, lookupEntry b.entries k2.2.2 = some e2 ∧
          k2.1 = (fun e2 : BookEntry => e2.price) e2 ∧ k2.2.1 = e2.seq := by
        intro k2 hk2
        have hm := hareg k2 hk2
        cases hl : lookupEntry b.entries k2.2.2 with
        | none =>
          rw [hl] at hm
          exact absurd hm (by simp)
        | some e2 =>
          rw [hl] at hm
          have hpair : (e2.price, e2.seq) = (k2.1, k2.2.1) := by simpa using hm
          exact ⟨e2, rfl, (congrArg Prod.fst hpair).symm,
            (congrArg Prod.snd hpair).symm⟩
      exact topValid_min b.entries b.asks (fun e2 => e2.price) ask has hregE hask1
        oid e he hc hr k hk hkid
    · intro oid e k he hc hr hk hkid
      have hregE : ∀ k2 ∈ b.bids, ∃ e2, lookupEntry b.entries k2.2.2 = some e2 ∧
          k2.1 = (fun e2 : BookEntry => -e2.price) e2 ∧ k2.2.1 = e2.seq := by
        intro k2 hk2
        have hm := hbreg k2 hk2
        cases hl : lookupEntry b.entries k2.2.2 with
        | none =>
          rw [hl] at hm
          exact absurd hm (by simp)
        | some e2 =>
          rw [hl] at hm
          have hpair : (e2.price, e2.seq) = (-k2.1, k2.2.1) := by simpa using hm
          have h1 : e2.price = -k2.1 := congrArg Prod.fst hpair
          refine ⟨e2, rfl, ?_, (congrArg Prod.snd hpair).symm⟩
          show k2.1 = -e2.price
          omega
      have hmin := topValid_min b.entries b.bids (fun e2 => -e2.price) bid hbs hregE
        hbid1 oid e he hc hr k hk hkid
      rcases hmin with h1 | ⟨h1, h2⟩
      · left
        have h1b : -bid.price < -e.price := h1
        omega
      · right
        have h1b : -bid.price = -e.price := h1
        exact ⟨by omega, h2⟩
  · exact ⟨by decide, by decide⟩

def c1Ask1 : BookEntry := ⟨1, Side.SELL, 100, 5, 1, false⟩

def c1Ask2 : BookEntry := ⟨2, Side.SELL, 110, 4, 2, false⟩

def c1Bid3 : BookEntry := ⟨3, Side.BUY, 120, 3, 3, false⟩

/-- A two-ask, one-bid book used to witness the priority statement. -/
def c1Book : OrderBook :=
  ⟨[(-120, 3, 3)], [(100, 1, 1), (110, 2, 2)],
   [(1, c1Ask1), (2, c1Ask2), (3, c1Bid3)], 3⟩

/-- Witness for C1: on `c1Book` the peeked ask (price 100, seq 1) beats the
resting ask at price 110, and the peeked bid beats (reflexively) itself. -/
theorem C1_witness :
    (c1Ask1.price < c1Ask2.price ∨
      (c1Ask1.price = c1Ask2.price ∧ c1Ask1.seq ≤ c1Ask2.seq)) ∧
    (c1Bid3.price < c1Bid3.price ∨
      (c1Bid3.price = c1Bid3.price ∧ c1Bid3.seq ≤ c1Bid3.seq)) := by
  have h := (C1_price_time_priority).1 c1Book c1Bid3 c1Ask1 (by decide) (by decide)
    (by decide) (by decide) (by decide) (by decide)
  exact ⟨h.1 2 c1Ask2 (110, 2, 2) (by decide) (by decide) (by decide) (by decide)
      (by decide),
    h.2 3 c1Bid3 (-120, 3, 3) (by decide) (by decide) (by decide) (by decide)
      (by decide)⟩

end TradingPlatform
